import Mathlib

/-!
Verification of the Sightline projection core.

This file gives a shallow embedding of the Sightline tree-virtualization
engine (node registry, subtree-size propagation, expand/collapse controller,
range-query collector, index resolver, structural mutation operations, and
the `SightlineEngine` facade) and proves or refutes the specification's
claims about it.

Modelling conventions:
- `NodeID` (`number | string` in the source) is modelled as `Nat`.
- The JS `Map` backing the registry is modelled as an association list with
  the map's key semantics (`set` overwrites in place, `delete` removes).
- In-place mutation of a node record fetched from the map is modelled by
  re-reading the record by id and writing the updated record back; this is
  equivalent because the map key always equals the record's `nodeId`.
- Recursive walks take an explicit fuel argument; a function returns `none`
  exactly when the fuel runs out, which models non-termination (or stack
  exhaustion) of the corresponding source recursion.  The fuel supplied at
  the top level (`registry size + 1`) is sufficient for every acyclic
  registry, so `none` is reachable only on corrupted (cyclic) stores.
- A thrown JS `Error` is modelled by a dedicated result constructor, kept
  distinct from the fuel-exhaustion `none`.
-/

namespace Sightline

/-- Child resolution state (`ChildState` in `types.ts`). -/
inductive ChildState where
  | UNRESOLVED
  | LOADING
  | RESOLVED
  | EMPTY
  | ERROR
  deriving DecidableEq, Repr

/-- Node record (`NodeMetadata` in `types.ts`).  Optional fields of the
source become `Option`; `visibleSubtreeSize` and `depth` are `Int` because
the source stores JS numbers that intermediate states may drive negative. -/
structure NodeMetadata where
  nodeId : Nat
  parentNodeId : Option Nat
  childState : ChildState
  childCount : Option Int
  childNodeIds : Option (List Nat)
  isExpanded : Bool
  visibleSubtreeSize : Int
  depth : Int
  label : String
  deriving DecidableEq, Repr

/-- Immutable view payload (`NodeView` in `types.ts`).  The source leaves
`errorFlag`/`loadingFlag` `undefined` when not set, hence `Option Bool`. -/
structure NodeView where
  nodeId : Nat
  depth : Int
  isExpanded : Bool
  hasChildren : Bool
  label : String
  errorFlag : Option Bool
  loadingFlag : Option Bool
  deriving DecidableEq, Repr

/-- Node registry (`createRegistry` in `registry.ts`): a `Map` from NodeID
to `NodeMetadata` plus a root pointer, modelled as an association list. -/
structure NodeRegistry where
  nodes : List (Nat × NodeMetadata)
  rootId : Option Nat
  deriving DecidableEq, Repr

/-- Lookup in the association list backing the registry `Map`. -/
def findNode : List (Nat × NodeMetadata) → Nat → Option NodeMetadata
  | [], _ => none
  | (k, n) :: rest, id => if k = id then some n else findNode rest id

/-- `Map.set` semantics: overwrite the entry in place, or append a new one. -/
def setEntries : List (Nat × NodeMetadata) → Nat → NodeMetadata → List (Nat × NodeMetadata)
  | [], id, n => [(id, n)]
  | (k, m) :: rest, id, n => if k = id then (id, n) :: rest else (k, m) :: setEntries rest id n

/-- `Map.delete` semantics: remove the entry with the given key. -/
def delEntries : List (Nat × NodeMetadata) → Nat → List (Nat × NodeMetadata)
  | [], _ => []
  | (k, m) :: rest, id => if k = id then rest else (k, m) :: delEntries rest id

/-- Registry `get` (O(1) `Map.get` in the source). -/
def NodeRegistry.get (r : NodeRegistry) (id : Nat) : Option NodeMetadata :=
  findNode r.nodes id

/-- Registry `set`. -/
def NodeRegistry.set (r : NodeRegistry) (id : Nat) (n : NodeMetadata) : NodeRegistry :=
  { r with nodes := setEntries r.nodes id n }

/-- Registry `has`. -/
def NodeRegistry.has (r : NodeRegistry) (id : Nat) : Bool :=
  (r.get id).isSome

/-- Registry `delete`. -/
def NodeRegistry.del (r : NodeRegistry) (id : Nat) : NodeRegistry :=
  { r with nodes := delEntries r.nodes id }

/-- Registry `size()`. -/
def NodeRegistry.size (r : NodeRegistry) : Nat :=
  r.nodes.length

/-- The empty registry produced by `createRegistry()`. -/
def createRegistry : NodeRegistry :=
  { nodes := [], rootId := none }

/-- Options record accepted by `createNode` (all fields optional). -/
structure CreateNodeOptions where
  parentNodeId : Option Nat
  label : Option String
  depth : Option Int
  childCount : Option Int
  childNodeIds : Option (List Nat)
  isExpanded : Option Bool
  deriving Repr

/-- The all-defaults options value (`{}` at a `createNode` call site). -/
def noOpts : CreateNodeOptions :=
  { parentNodeId := none, label := none, depth := none, childCount := none,
    childNodeIds := none, isExpanded := none }

/-- `createNode` from `registry.ts`: builds a node with default values.
`childState` is `RESOLVED` for a non-empty supplied child list, `EMPTY` for
an empty supplied list, `UNRESOLVED` when no list is supplied. -/
def createNode (nodeId : Nat) (options : CreateNodeOptions) : NodeMetadata :=
  { nodeId := nodeId
    parentNodeId := options.parentNodeId
    childState :=
      match options.childNodeIds with
      | some kids => if kids.length > 0 then ChildState.RESOLVED else ChildState.EMPTY
      | none => ChildState.UNRESOLVED
    childCount := options.childCount
    childNodeIds := options.childNodeIds
    isExpanded := options.isExpanded.getD false
    visibleSubtreeSize := 1
    depth := options.depth.getD 0
    label := options.label.getD ("Node " ++ toString nodeId) }

/-- `addNode` from `registry.ts`: store the node and make it the root if no
root exists and its parent is `null`. -/
def addNode (r : NodeRegistry) (node : NodeMetadata) : NodeRegistry :=
  let r1 := r.set node.nodeId node
  if r1.rootId = none ∧ node.parentNodeId = none then
    { r1 with rootId := some node.nodeId }
  else r1

/-- `getRoot` from `registry.ts`. -/
def getRoot (r : NodeRegistry) : Option NodeMetadata :=
  match r.rootId with
  | some id => r.get id
  | none => none

/-- JS truthiness of a `NodeID | null` value under the `Nat` encoding of
NodeID: `null` is falsy and so is the numeric id `0`.  Used exactly where
the source tests a parent id with `cond ? a : b` instead of `!== null`
(`propagateSizeChange` in `propagation.ts`). -/
def truthyId : Option Nat → Bool
  | none => false
  | some n => n != 0

/-- Sum of `visibleSubtreeSize` over a list of child ids, skipping ids that
are absent from the registry — the accumulation loop of
`recalculateSubtreeSize`. -/
def sumChildSizes (r : NodeRegistry) : List Nat → Int
  | [] => 0
  | c :: rest =>
    (match r.get c with
     | some child => child.visibleSubtreeSize
     | none => 0) + sumChildSizes r rest

/-- `recalculateSubtreeSize` from `propagation.ts`: set a node's
`visibleSubtreeSize` from its direct children and return the new size. -/
def recalculateSubtreeSize (r : NodeRegistry) (nodeId : Nat) : Int × NodeRegistry :=
  match r.get nodeId with
  | none => (0, r)
  | some node =>
    if ¬node.isExpanded ∨ node.childState ≠ ChildState.RESOLVED ∨ node.childNodeIds = none then
      (1, r.set nodeId { node with visibleSubtreeSize := 1 })
    else
      let size := 1 + sumChildSizes r (node.childNodeIds.getD [])
      (size, r.set nodeId { node with visibleSubtreeSize := size })

/-- The ancestor-walk loop of `propagateSizeChange`: add `delta` to the
current node's size, then step to its parent (JS-truthy parent ids only). -/
def propagateLoop (delta : Int) : Nat → NodeRegistry → Option NodeMetadata → Option NodeRegistry
  | _, r, none => some r
  | 0, _, some _ => none
  | fuel + 1, r, some cur =>
    let r1 := r.set cur.nodeId { cur with visibleSubtreeSize := cur.visibleSubtreeSize + delta }
    propagateLoop delta fuel r1
      (if truthyId cur.parentNodeId then r1.get (cur.parentNodeId.getD 0) else none)

/-- `propagateSizeChange` from `propagation.ts`: push a size delta up the
ancestor chain; a no-op for `delta == 0` or a missing start node. -/
def propagateSizeChange (r : NodeRegistry) (nodeId : Nat) (delta : Int) : Option NodeRegistry :=
  if delta = 0 then some r
  else
    match r.get nodeId with
    | none => some r
    | some node =>
      propagateLoop delta (r.size + 1) r
        (if truthyId node.parentNodeId then r.get (node.parentNodeId.getD 0) else none)

/-- `recalculateAndPropagate` from `propagation.ts`: recompute the node's
size and propagate the difference to all ancestors. -/
def recalculateAndPropagate (r : NodeRegistry) (nodeId : Nat) : Option (Int × NodeRegistry) :=
  match r.get nodeId with
  | none => some (0, r)
  | some node =>
    let oldSize := node.visibleSubtreeSize
    let p := recalculateSubtreeSize r nodeId
    match propagateSizeChange p.2 nodeId (p.1 - oldSize) with
    | none => none
    | some r2 => some (p.1, r2)

/-- Result record returned by the controller's `expand`. -/
structure ExpandResult where
  success : Bool
  needsProvider : Bool
  newVisibleCount : Option Int
  deriving DecidableEq, Repr

/-- `expand` from `controller.ts`.  Already-expanded nodes are a no-op
success; `UNRESOLVED` transitions to `LOADING` and requests a provider;
`EMPTY`/`ERROR` only flip `isExpanded`; otherwise the node is expanded and
sizes are recalculated and propagated. -/
def expand (r : NodeRegistry) (nodeId : Nat) : Option (ExpandResult × NodeRegistry) :=
  match r.get nodeId with
  | none => some ({ success := false, needsProvider := false, newVisibleCount := none }, r)
  | some node =>
    if node.isExpanded then
      some ({ success := true, needsProvider := false, newVisibleCount := none }, r)
    else if node.childState = ChildState.UNRESOLVED then
      some ({ success := true, needsProvider := true, newVisibleCount := none },
        r.set nodeId { node with childState := ChildState.LOADING })
    else if node.childState = ChildState.EMPTY ∨ node.childState = ChildState.ERROR then
      some ({ success := true, needsProvider := false, newVisibleCount := some 1 },
        r.set nodeId { node with isExpanded := true })
    else
      let r1 := r.set nodeId { node with isExpanded := true }
      match recalculateAndPropagate r1 nodeId with
      | none => none
      | some p =>
        some ({ success := true, needsProvider := false,
                newVisibleCount := (getRoot p.2).map (·.visibleSubtreeSize) }, p.2)

/-- `completeExpand` from `controller.ts`: terminal step after a provider
resolves.  An error (any JS-truthy `Error` value) yields `ERROR`, an empty
child list yields `EMPTY`, otherwise the node becomes `RESOLVED` with the
given children and sizes are recalculated and propagated. -/
def completeExpand (r : NodeRegistry) (nodeId : Nat) (childNodeIds : List Nat)
    (error : Option String) : Option NodeRegistry :=
  match r.get nodeId with
  | none => some r
  | some node =>
    if error.isSome then
      some (r.set nodeId { node with childState := ChildState.ERROR, isExpanded := true })
    else if childNodeIds.length = 0 then
      some (r.set nodeId { node with childState := ChildState.EMPTY, isExpanded := true })
    else
      let r1 := r.set nodeId
        { node with childState := ChildState.RESOLVED,
                    childNodeIds := some childNodeIds, isExpanded := true }
      (recalculateAndPropagate r1 nodeId).map (·.2)

/-- `collapse` from `controller.ts`: returns `false` for a missing or
already-collapsed node; otherwise clears `isExpanded`, recalculates and
propagates, and returns `true`. -/
def collapse (r : NodeRegistry) (nodeId : Nat) : Option (Bool × NodeRegistry) :=
  match r.get nodeId with
  | none => some (false, r)
  | some node =>
    if ¬node.isExpanded then some (false, r)
    else
      let r1 := r.set nodeId { node with isExpanded := false }
      (recalculateAndPropagate r1 nodeId).map (fun p => (true, p.2))

/-- `createNodeView` from `query.ts`: project a record into the immutable
UI payload. -/
def createNodeView (node : NodeMetadata) : NodeView :=
  { nodeId := node.nodeId
    depth := node.depth
    isExpanded := node.isExpanded
    hasChildren :=
      decide (node.childState = ChildState.UNRESOLVED ∨ node.childState = ChildState.LOADING ∨
        (node.childState = ChildState.RESOLVED ∧ (node.childNodeIds.getD []).length > 0))
    label := node.label
    errorFlag := if node.childState = ChildState.ERROR then some true else none
    loadingFlag := if node.childState = ChildState.LOADING then some true else none }

/-- `getTotalVisibleCount` from `query.ts`: the root's subtree size, `0`
with no root. -/
def getTotalVisibleCount (r : NodeRegistry) : Int :=
  match r.rootId with
  | none => 0
  | some rt =>
    match r.get rt with
    | some root => root.visibleSubtreeSize
    | none => 0

/-- The child loop of `collectRange`, parameterized by the recursive call
`go`: `continue` on missing children, `break` past the range end, skip
subtrees entirely before the range. -/
def collectKids (r : NodeRegistry) (rangeStart rangeEnd : Int)
    (go : NodeMetadata → Int → List NodeView → Option (Int × List NodeView)) :
    List Nat → Int → List NodeView → Option (Int × List NodeView)
  | [], index, results => some (index, results)
  | childId :: rest, index, results =>
    match r.get childId with
    | none => collectKids r rangeStart rangeEnd go rest index results
    | some child =>
      if index ≥ rangeEnd then some (index, results)
      else if index + child.visibleSubtreeSize ≤ rangeStart then
        collectKids r rangeStart rangeEnd go rest (index + child.visibleSubtreeSize) results
      else
        match go child index results with
        | none => none
        | some p => collectKids r rangeStart rangeEnd go rest p.1 p.2

/-- `collectRange` from `query.ts`: depth-first walk gathering views whose
global index lies in `[rangeStart, rangeEnd)`, skipping whole subtrees that
end before the range and stopping past its end. -/
def collectRange (r : NodeRegistry) (rangeStart rangeEnd : Int) :
    Nat → NodeMetadata → Int → List NodeView → Option (Int × List NodeView)
  | 0, _, _, _ => none
  | fuel + 1, node, currentIndex, results =>
    if currentIndex + node.visibleSubtreeSize ≤ rangeStart then
      some (currentIndex + node.visibleSubtreeSize, results)
    else if currentIndex ≥ rangeEnd then
      some (currentIndex, results)
    else
      let results1 :=
        if rangeStart ≤ currentIndex ∧ currentIndex < rangeEnd then
          results ++ [createNodeView node]
        else results
      if node.isExpanded ∧ node.childState = ChildState.RESOLVED ∧ node.childNodeIds.isSome then
        collectKids r rangeStart rangeEnd (collectRange r rangeStart rangeEnd fuel)
          (node.childNodeIds.getD []) (currentIndex + 1) results1
      else
        some (currentIndex + 1, results1)

/-- `getRange` from `query.ts`: bounds-check then collect the window. -/
def getRange (r : NodeRegistry) (offset limit : Int) : Option (List NodeView) :=
  match r.rootId with
  | none => some []
  | some rt =>
    match r.get rt with
    | none => some []
    | some root =>
      let totalVisible := root.visibleSubtreeSize
      if offset < 0 ∨ offset ≥ totalVisible ∨ limit ≤ 0 then some []
      else
        let endIndex := min (offset + limit) totalVisible
        (collectRange r offset endIndex (r.size + 1) root 0 []).map (·.2)

/-- `getNodeView` from `query.ts`. -/
def getNodeView (r : NodeRegistry) (nodeId : Nat) : Option NodeView :=
  (r.get nodeId).map createNodeView

/-- What `resolveIndexRecursive` can produce: a resolved `(nodeId, depth)`
record, or the thrown invariant-violation `Error` (the function never
returns the `null` used by `resolveIndex` for out-of-bounds input). -/
inductive RecResolve where
  | ok (nodeId : Nat) (depth : Int)
  | thrown
  deriving DecidableEq, Repr

/-- The child scan of `resolveIndexRecursive`: skip missing children,
subtract each child's subtree size from the remaining index, and stop at
the first child whose size exceeds what remains.  Returns that child and
the remaining index, or `none` when no child covers it (the loop falls
through to the `throw`). -/
def pickChild (r : NodeRegistry) : List Nat → Int → Option (NodeMetadata × Int)
  | [], _ => none
  | childId :: rest, remaining =>
    match r.get childId with
    | none => pickChild r rest remaining
    | some child =>
      if remaining < child.visibleSubtreeSize then some (child, remaining)
      else pickChild r rest (remaining - child.visibleSubtreeSize)

/-- `resolveIndexRecursive` from `resolver.ts`: prefix-sum descent.  Index
0 is the node itself; otherwise descend into the unique child covering the
remaining index (only when expanded with `RESOLVED` children), throwing on
an uncovered remainder. -/
def resolveIndexRecursive (r : NodeRegistry) : Nat → NodeMetadata → Int → Option RecResolve
  | 0, _, _ => none
  | fuel + 1, node, targetIndex =>
    if targetIndex = 0 then some (RecResolve.ok node.nodeId node.depth)
    else
      let kids :=
        if node.isExpanded ∧ node.childState = ChildState.RESOLVED ∧ node.childNodeIds.isSome then
          node.childNodeIds.getD []
        else []
      match pickChild r kids (targetIndex - 1) with
      | some p => resolveIndexRecursive r fuel p.1 p.2
      | none => some RecResolve.thrown

/-- Observable outcome of `resolveIndex`: a result record, the `null`
NOT_FOUND return, or the thrown fatal error. -/
inductive ResolveOutcome where
  | found (nodeId : Nat) (depth : Int)
  | notFound
  | fatal
  deriving DecidableEq, Repr

/-- `resolveIndex` from `resolver.ts`: `null` when there is no root or the
index is out of `[0, root.visibleSubtreeSize)`, else the recursive
prefix-sum descent. -/
def resolveIndex (r : NodeRegistry) (targetIndex : Int) : Option ResolveOutcome :=
  match r.rootId with
  | none => some ResolveOutcome.notFound
  | some rt =>
    match r.get rt with
    | none => some ResolveOutcome.notFound
    | some root =>
      if targetIndex < 0 ∨ targetIndex ≥ root.visibleSubtreeSize then
        some ResolveOutcome.notFound
      else
        (resolveIndexRecursive r (r.size + 1) root targetIndex).map
          (fun res =>
            match res with
            | RecResolve.ok id d => ResolveOutcome.found id d
            | RecResolve.thrown => ResolveOutcome.fatal)

/-- The path-building loop of `getIndexOfNode`: walk parent links from the
node, prepending each record, stopping at a `null` parent or a dangling
parent reference. -/
def buildPath (r : NodeRegistry) : Nat → NodeMetadata → Option (List NodeMetadata)
  | 0, _ => none
  | fuel + 1, current =>
    match current.parentNodeId with
    | none => some [current]
    | some p =>
      match r.get p with
      | none => some [current]
      | some parent => (buildPath r fuel parent).map (· ++ [current])

/-- The preceding-sibling accumulation of `getIndexOfNode`: sum the subtree
sizes of siblings before `target` in the parent's child list, skipping
missing siblings. -/
def sumBefore (r : NodeRegistry) (target : Nat) : List Nat → Int
  | [] => 0
  | s :: rest =>
    if s = target then 0
    else
      (match r.get s with
       | some sib => sib.visibleSubtreeSize
       | none => 0) + sumBefore r target rest

/-- The index accumulation of `getIndexOfNode` over the root-first path:
each parent-to-child step contributes 1 (for the parent) plus the subtree
sizes of the preceding siblings when the parent has `RESOLVED` children. -/
def indexSteps (r : NodeRegistry) : NodeMetadata → List NodeMetadata → Int
  | _, [] => 0
  | parent, cur :: rest =>
    (1 +
      (if parent.childState = ChildState.RESOLVED ∧ parent.childNodeIds.isSome then
        sumBefore r cur.nodeId (parent.childNodeIds.getD [])
      else 0)) + indexSteps r cur rest

/-- `getIndexOfNode` from `resolver.ts`: build the root-first path, return
-1 when the node is missing or any ancestor below the root end of the path
is collapsed, else accumulate the prefix-sum index. -/
def getIndexOfNode (r : NodeRegistry) (nodeId : Nat) : Option Int :=
  match r.get nodeId with
  | none => some (-1)
  | some node =>
    match buildPath r (r.size + 1) node with
    | none => none
    | some path =>
      if path.dropLast.all (·.isExpanded) then
        match path with
        | [] => some 0
        | head :: rest => some (indexSteps r head rest)
      else some (-1)

/-- JS `splice(idx, 0, x)` insertion: a negative index counts from the end
(clamped at 0), an index past the end appends. -/
def spliceInsert (l : List Nat) (idx : Int) (x : Nat) : List Nat :=
  let n : Int := l.length
  let i : Nat := if idx < 0 then (max (n + idx) 0).toNat else (min idx n).toNat
  l.take i ++ x :: l.drop i

/-- `reorderChildren` from `mutations.ts`: replace the parent's child list
by `newOrder` after validating it is the same id set with the same length
and the same number of distinct ids. -/
def reorderChildren (r : NodeRegistry) (parentId : Nat) (newOrder : List Nat) :
    Bool × NodeRegistry :=
  match r.get parentId with
  | none => (false, r)
  | some parent =>
    let currentChildren := parent.childNodeIds.getD []
    if newOrder.length ≠ currentChildren.length then (false, r)
    else if currentChildren.dedup.length ≠ newOrder.dedup.length then (false, r)
    else if ¬ newOrder.all (fun id => currentChildren.contains id) then (false, r)
    else (true, r.set parentId { parent with childNodeIds := some newOrder })

/-- The ancestor walk of `isDescendant`: follow parent links from the
start, reporting `true` on meeting `ancestorId`; `none` models the
source's infinite loop on a cyclic parent chain. -/
def isDescendantLoop (r : NodeRegistry) (ancestorId : Nat) :
    Nat → Option NodeMetadata → Option Bool
  | _, none => some false
  | 0, some current =>
    match current.parentNodeId with
    | none => some false
    | some p => if p = ancestorId then some true else none
  | fuel + 1, some current =>
    match current.parentNodeId with
    | none => some false
    | some p =>
      if p = ancestorId then some true
      else isDescendantLoop r ancestorId fuel (r.get p)

/-- `isDescendant` from `mutations.ts`. -/
def isDescendant (r : NodeRegistry) (potentialDescendant ancestorId : Nat) : Option Bool :=
  isDescendantLoop r ancestorId (r.size + 1) (r.get potentialDescendant)

/-- `updateSubtreeDepth` from `mutations.ts`: add `delta` to the depth of
the node and every descendant reachable through `childNodeIds`. -/
def updateSubtreeDepth : Nat → NodeRegistry → Nat → Int → Option NodeRegistry
  | 0, _, _, _ => none
  | fuel + 1, r, nodeId, delta =>
    match r.get nodeId with
    | none => some r
    | some node =>
      let r1 := r.set nodeId { node with depth := node.depth + delta }
      (node.childNodeIds.getD []).foldlM
        (fun acc c => updateSubtreeDepth fuel acc c delta) r1

/-- `removeSubtree` from `mutations.ts`: delete the node and all
descendants (children first), returning the registry and removal count. -/
def removeSubtree : Nat → NodeRegistry → Nat → Option (NodeRegistry × Int)
  | 0, _, _ => none
  | fuel + 1, r, nodeId =>
    match r.get nodeId with
    | none => some (r, 0)
    | some node =>
      match (node.childNodeIds.getD []).foldlM
          (fun (acc : NodeRegistry × Int) c =>
            (removeSubtree fuel acc.1 c).map (fun p => (p.1, acc.2 + p.2))) (r, 1) with
      | none => none
      | some p => some (p.1.del nodeId, p.2)

/-- `removeNode` from `mutations.ts`: refuse the root or a missing node,
detach from the parent's child list, delete the subtree, recalculate the
parent when expanded, and return the number of removed nodes. -/
def removeNode (r : NodeRegistry) (nodeId : Nat) : Option (Int × NodeRegistry) :=
  match r.get nodeId with
  | none => some (0, r)
  | some node =>
    match node.parentNodeId with
    | none => some (0, r)
    | some parentId =>
      let r1 :=
        match r.get parentId with
        | some parent =>
          if parent.childNodeIds.isSome then
            r.set parentId
              { parent with childNodeIds := some ((parent.childNodeIds.getD []).filter (· != nodeId)) }
          else r
        | none => r
      match removeSubtree (r1.size + 1) r1 nodeId with
      | none => none
      | some p =>
        match p.1.get parentId with
        | some parent2 =>
          if parent2.isExpanded then
            (recalculateAndPropagate p.1 parentId).map (fun q => (p.2, q.2))
          else some (p.2, p.1)
        | none => some (p.2, p.1)

/-- `insertNode` from `mutations.ts`: splice an already-registered node
(whose stored parent reference must match) into the parent's child list,
upgrading an `EMPTY` parent that gains its first child to `RESOLVED`, and
recalculating when the parent is expanded. -/
def insertNode (r : NodeRegistry) (parentId newNodeId : Nat) (insertIndex : Option Int) :
    Option (Bool × NodeRegistry) :=
  match r.get parentId, r.get newNodeId with
  | some parent, some newNode =>
    if newNode.parentNodeId ≠ some parentId then some (false, r)
    else
      let kids := parent.childNodeIds.getD []
      let idx := insertIndex.getD kids.length
      let kids1 := spliceInsert kids idx newNodeId
      let parent1 :=
        if kids1.length = 1 ∧ parent.childState = ChildState.EMPTY then
          { parent with childNodeIds := some kids1, childState := ChildState.RESOLVED }
        else { parent with childNodeIds := some kids1 }
      let r1 := r.set parentId parent1
      if parent1.isExpanded then
        (recalculateAndPropagate r1 parentId).map (fun p => (true, p.2))
      else some (true, r1)
  | _, _ => some (false, r)

/-- `moveNode` from `mutations.ts`: guard against moving the root or onto
a descendant; detach from the old parent (recalculating it when expanded),
splice into the new parent's list, reparent, shift the moved subtree's
depths, and recalculate the new parent when expanded.  Re-reads records by
id at each step, matching the source's mutation of live references. -/
def moveNode (r : NodeRegistry) (nodeId newParentId : Nat) (insertIndex : Option Int) :
    Option (Bool × NodeRegistry) :=
  match r.get nodeId, r.get newParentId with
  | some node, some _ =>
    if node.parentNodeId = none then some (false, r)
    else
      match isDescendant r newParentId nodeId with
      | none => none
      | some true => some (false, r)
      | some false =>
        let step1 : Option NodeRegistry :=
          match node.parentNodeId with
          | none => some r
          | some oldParentId =>
            match r.get oldParentId with
            | none => some r
            | some oldParent =>
              if oldParent.childNodeIds.isSome then
                let r1 := r.set oldParentId
                  { oldParent with
                    childNodeIds := some ((oldParent.childNodeIds.getD []).filter (· != nodeId)) }
                if oldParent.isExpanded then
                  (recalculateAndPropagate r1 oldParentId).map (·.2)
                else some r1
              else some r
        match step1 with
        | none => none
        | some r2 =>
          match r2.get newParentId with
          | none => some (false, r2)
          | some np =>
            let kids := np.childNodeIds.getD []
            let idx := insertIndex.getD kids.length
            let r3 := r2.set newParentId { np with childNodeIds := some (spliceInsert kids idx nodeId) }
            match r3.get nodeId with
            | none => some (false, r3)
            | some node3 =>
              let r4 := r3.set nodeId { node3 with parentNodeId := some newParentId }
              let newParentDepth := ((r4.get newParentId).map (·.depth)).getD 0
              let nodeDepth := ((r4.get nodeId).map (·.depth)).getD 0
              let depthDelta := newParentDepth + 1 - nodeDepth
              let step2 : Option NodeRegistry :=
                if depthDelta ≠ 0 then updateSubtreeDepth (r4.size + 1) r4 nodeId depthDelta
                else some r4
              match step2 with
              | none => none
              | some r5 =>
                match r5.get newParentId with
                | none => some (true, r5)
                | some np5 =>
                  if np5.isExpanded then
                    (recalculateAndPropagate r5 newParentId).map (fun p => (true, p.2))
                  else some (true, r5)
  | _, _ => some (false, r)

/-- Engine state of the `SightlineEngine` class: the owned registry plus
the mutation epoch (telemetry hooks are observational only and elided). -/
structure SightlineEngine where
  registry : NodeRegistry
  epoch : Int
  deriving DecidableEq, Repr

/-- `createSightline()`: fresh registry, epoch 0. -/
def createSightline : SightlineEngine :=
  { registry := createRegistry, epoch := 0 }

/-- `SightlineEngine.expand`: run the controller's expand and increment the
epoch exactly when the result is a success that needs no provider. -/
def SightlineEngine.expand (e : SightlineEngine) (nodeId : Nat) : Option SightlineEngine :=
  match Sightline.expand e.registry nodeId with
  | none => none
  | some p =>
    if p.1.success ∧ ¬p.1.needsProvider then
      some { registry := p.2, epoch := e.epoch + 1 }
    else
      some { registry := p.2, epoch := e.epoch }

/-- `SightlineEngine.collapse`: run the controller's collapse and increment
the epoch exactly on success. -/
def SightlineEngine.collapse (e : SightlineEngine) (nodeId : Nat) : Option SightlineEngine :=
  match Sightline.collapse e.registry nodeId with
  | none => none
  | some p =>
    if p.1 then some { registry := p.2, epoch := e.epoch + 1 }
    else some { registry := p.2, epoch := e.epoch }

/-- `SightlineEngine.completeExpand`: run the controller's completeExpand
and then `incrementEpoch()` unconditionally. -/
def SightlineEngine.completeExpand (e : SightlineEngine) (nodeId : Nat)
    (childNodeIds : List Nat) (error : Option String) : Option SightlineEngine :=
  (Sightline.completeExpand e.registry nodeId childNodeIds error).map
    (fun r2 => { registry := r2, epoch := e.epoch + 1 })

/-- `SightlineEngine.getTotalVisibleCount`. -/
def SightlineEngine.getTotalVisibleCount (e : SightlineEngine) : Int :=
  Sightline.getTotalVisibleCount e.registry

/-- The keys of a registry, in storage order. -/
def keysOf (r : NodeRegistry) : List Nat :=
  r.nodes.map Prod.fst

/-!
Decidable option predicates, the registry well-formedness predicates, and
the size invariant of the specification.
-/

/-- Holds when the option is `some a` with `P a`, vacuously for `none`. -/
def AllOpt : Option α → (α → Prop) → Prop
  | none, _ => True
  | some a, P => P a

/-- Holds when the option is `some a` with `P a`; fails for `none`. -/
def ExOpt : Option α → (α → Prop) → Prop
  | none, _ => False
  | some a, P => P a

instance instDecAllOpt (o : Option α) (P : α → Prop) [inst : ∀ a, Decidable (P a)] :
    Decidable (AllOpt o P) :=
  match o with
  | none => isTrue trivial
  | some a => inst a

instance instDecExOpt (o : Option α) (P : α → Prop) [inst : ∀ a, Decidable (P a)] :
    Decidable (ExOpt o P) :=
  match o with
  | none => isFalse id
  | some a => inst a

/-- Children of a record, `[]` when unresolved (matching `?? []` reads). -/
def kidsOf (n : NodeMetadata) : List Nat :=
  n.childNodeIds.getD []

/-- Structural well-formedness of a registry, independent of both sizes
and depths: distinct keys, each record's `nodeId` equal to its key, no
JS-falsy id 0, every listed child existing and pointing back at its
parent, and duplicate-free child lists.  These clauses hold at every
intermediate state of the mutation operations. -/
def SWF (r : NodeRegistry) : Prop :=
  (keysOf r).Nodup ∧
  (∀ p ∈ r.nodes, (p.2 : NodeMetadata).nodeId = p.1) ∧
  (∀ p ∈ r.nodes, p.1 ≠ 0) ∧
  (∀ p ∈ r.nodes, ∀ c ∈ kidsOf p.2, ExOpt (r.get c) (fun cn => cn.parentNodeId = some p.1)) ∧
  (∀ p ∈ r.nodes, (kidsOf p.2).Nodup)

instance instDecSWF (r : NodeRegistry) : Decidable (SWF r) := by
  unfold SWF
  infer_instance

/-- Full well-formedness: structural well-formedness plus a root whose
parent is `null` at depth 0 and coherent, bounded depths. -/
def WF (r : NodeRegistry) : Prop :=
  SWF r ∧
  AllOpt r.rootId (fun rt => ExOpt (r.get rt) (fun n => n.parentNodeId = none ∧ n.depth = 0)) ∧
  (∀ p ∈ r.nodes, AllOpt (p.2 : NodeMetadata).parentNodeId
    (fun q => ExOpt (r.get q) (fun pn => p.2.depth = pn.depth + 1))) ∧
  (∀ p ∈ r.nodes, 0 ≤ (p.2 : NodeMetadata).depth ∧ p.2.depth < (r.size : Int))

instance instDecWF (r : NodeRegistry) : Decidable (WF r) := by
  unfold WF
  infer_instance

/-- The size invariant at one record, exactly as the specification states
it: size 1 when collapsed or children not resolved, otherwise one plus the
sum of the direct children's sizes. -/
def InvAt (r : NodeRegistry) (n : NodeMetadata) : Prop :=
  (n.isExpanded = true ∧ n.childState = ChildState.RESOLVED →
    n.visibleSubtreeSize = 1 + sumChildSizes r (kidsOf n)) ∧
  (¬(n.isExpanded = true ∧ n.childState = ChildState.RESOLVED) →
    n.visibleSubtreeSize = 1)

/-- The size invariant over the whole registry. -/
def SizeInv (r : NodeRegistry) : Prop :=
  ∀ p ∈ r.nodes, InvAt r p.2

instance instDecInvAt (r : NodeRegistry) (n : NodeMetadata) : Decidable (InvAt r n) := by
  unfold InvAt
  infer_instance

instance instDecSizeInv (r : NodeRegistry) : Decidable (SizeInv r) := by
  unfold SizeInv
  infer_instance

/-- A node is visible when it is the root or a resolved child of a visible
expanded node — i.e. every proper ancestor is expanded with resolved
children, so the node occupies a slot of the visible projection. -/
inductive Visible (r : NodeRegistry) : Nat → Prop
  | root (rt : Nat) : r.rootId = some rt → Visible r rt
  | child (id : Nat) (n : NodeMetadata) (c : Nat) : Visible r id → r.get id = some n →
      n.isExpanded = true → n.childState = ChildState.RESOLVED →
      c ∈ kidsOf n → Visible r c

/-- A witnessed visible path: `VisPath r v l` states that `l` lists the
proper ancestors of `v` bottom-up (direct parent first, root last), each
expanded with resolved children, with both the membership and the
back-pointer of every link recorded. -/
inductive VisPath (r : NodeRegistry) : Nat → List Nat → Prop
  | root (rt : Nat) (n : NodeMetadata) : r.rootId = some rt → r.get rt = some n →
      n.parentNodeId = none → VisPath r rt []
  | child (id : Nat) (n : NodeMetadata) (c : Nat) (cn : NodeMetadata) (l : List Nat) :
      VisPath r id l → r.get id = some n → n.isExpanded = true →
      n.childState = ChildState.RESOLVED → c ∈ kidsOf n →
      r.get c = some cn → cn.parentNodeId = some id → VisPath r c (id :: l)

/-- Size of an optional record, 0 when absent (the contribution a child id
makes to `sumChildSizes`). -/
def optSize : Option NodeMetadata → Int
  | some n => n.visibleSubtreeSize
  | none => 0

/-- The size the invariant (and `recalculateSubtreeSize`) demands of a
record in a given registry. -/
def tSize (r : NodeRegistry) (node : NodeMetadata) : Int :=
  if node.isExpanded = true ∧ node.childState = ChildState.RESOLVED then
    1 + sumChildSizes r (kidsOf node)
  else 1

/-- Agreement on the fields the size invariant reads. -/
def sizeFields (a b : NodeMetadata) : Prop :=
  a.visibleSubtreeSize = b.visibleSubtreeSize ∧ a.childNodeIds = b.childNodeIds ∧
  a.isExpanded = b.isExpanded ∧ a.childState = b.childState

/-- The size invariant at every node except (possibly) one site. -/
def InvExcept (r : NodeRegistry) (site : Nat) : Prop :=
  ∀ id n, r.get id = some n → id ≠ site → InvAt r n

/-- A fully linked ancestor chain: `ChainLink r (v :: l)` records that `l`
lists `v`'s proper ancestors bottom-up with parent pointers matching,
each ancestor expanded with resolved children listing its chain child, and
the chain ending at a parentless node. -/
inductive ChainLink (r : NodeRegistry) : List Nat → Prop
  | single (a : Nat) (n : NodeMetadata) : r.get a = some n → n.parentNodeId = none →
      ChainLink r [a]
  | cons (a : Nat) (n : NodeMetadata) (b : Nat) (nb : NodeMetadata) (l : List Nat) :
      r.get a = some n → n.parentNodeId = some b → r.get b = some nb →
      a ∈ kidsOf nb → nb.isExpanded = true → nb.childState = ChildState.RESOLVED →
      ChainLink r (b :: l) → ChainLink r (a :: b :: l)

/-- The stop-or-step structure consumed by `propagateLoop`: consecutive
truthy parent links ending at a node whose parent id is JS-falsy. -/
inductive UpChain (r : NodeRegistry) : List Nat → Prop
  | nil : UpChain r []
  | last (a : Nat) (n : NodeMetadata) : r.get a = some n →
      truthyId n.parentNodeId = false → UpChain r [a]
  | cons (a : Nat) (n : NodeMetadata) (b : Nat) (l : List Nat) : r.get a = some n →
      n.parentNodeId = some b → b ≠ 0 → UpChain r (b :: l) → UpChain r (a :: b :: l)

/-- `IsAncestorOf r a d` states that `a` occurs on the parent chain of
`d`, i.e. `d` is a strict descendant of `a`. -/
inductive IsAncestorOf (r : NodeRegistry) : Nat → Nat → Prop
  | parent (d : Nat) (n : NodeMetadata) (a : Nat) : r.get d = some n →
      n.parentNodeId = some a → IsAncestorOf r a d
  | step (d : Nat) (n : NodeMetadata) (m a : Nat) : r.get d = some n →
      n.parentNodeId = some m → IsAncestorOf r a m → IsAncestorOf r a d

/-!
Concrete registries shared by witnesses and counterexamples.
-/

/-- Nested demo tree of the query tests: root 1 with children a = 2 and
b = 3, a with children a1 = 4 and a2 = 5; root and a expanded, every
`visibleSubtreeSize` consistent. -/
def demoReg : NodeRegistry :=
  let rootOpts :=
    { noOpts with childNodeIds := some [2, 3], isExpanded := some true, label := some "Root" }
  let aOpts :=
    { noOpts with parentNodeId := some 1, depth := some 1, childNodeIds := some [4, 5],
                  isExpanded := some true, label := some "A" }
  let root := { createNode 1 rootOpts with visibleSubtreeSize := 5 }
  let a := { createNode 2 aOpts with visibleSubtreeSize := 3 }
  let a1 := createNode 4 { noOpts with parentNodeId := some 2, depth := some 2, label := some "A1" }
  let a2 := createNode 5 { noOpts with parentNodeId := some 2, depth := some 2, label := some "A2" }
  let b := createNode 3 { noOpts with parentNodeId := some 1, depth := some 1, label := some "B" }
  addNode (addNode (addNode (addNode (addNode createRegistry root) a) a1) a2) b

/-- Chain registry for the hidden-expand counterexample: root 1 (expanded,
resolved, size 2) over node 2 (collapsed, resolved) over node 3 (collapsed,
resolved) over leaf 4. -/
def chainReg : NodeRegistry :=
  let rootOpts := { noOpts with childNodeIds := some [2], isExpanded := some true }
  let n2Opts := { noOpts with parentNodeId := some 1, depth := some 1, childNodeIds := some [3] }
  let n3Opts := { noOpts with parentNodeId := some 2, depth := some 2, childNodeIds := some [4] }
  let root := { createNode 1 rootOpts with visibleSubtreeSize := 2 }
  let n2 := createNode 2 n2Opts
  let n3 := createNode 3 n3Opts
  let n4 := createNode 4 { noOpts with parentNodeId := some 3, depth := some 3 }
  addNode (addNode (addNode (addNode createRegistry root) n2) n3) n4

/-- Engine wrapping the demo registry at epoch 0. -/
def demoEngine : SightlineEngine :=
  { registry := demoReg, epoch := 0 }

/-- Options of the demo root, shared with witness statements. -/
def demoRootOpts : CreateNodeOptions :=
  { noOpts with childNodeIds := some [2, 3], isExpanded := some true, label := some "Root" }

/-- The demo root record (expanded, resolved children 2 and 3, size 5). -/
def demoRootNode : NodeMetadata :=
  { createNode 1 demoRootOpts with visibleSubtreeSize := 5 }

/-- The demo leaf b (node 3). -/
def demoBNode : NodeMetadata :=
  createNode 3 { noOpts with parentNodeId := some 1, depth := some 1, label := some "B" }

/-- The demo leaf a1 (node 4, child of a = 2). -/
def demoA1Node : NodeMetadata :=
  createNode 4 { noOpts with parentNodeId := some 2, depth := some 2, label := some "A1" }

/-- Registry with a single unresolved root, used for the provider-error
scenario. -/
def soloReg : NodeRegistry :=
  addNode createRegistry (createNode 1 noOpts)

/-- Registry extending the demo tree with a detached node 6 whose stored
parent is 2 but which is not yet in 2's child list — the state `insertNode`
expects. -/
def insReg : NodeRegistry :=
  addNode demoReg (createNode 6 { noOpts with parentNodeId := some 2, depth := some 2 })

/-- Result registry of a concrete `insertNode` run, used by witnesses. -/
def afterInsertReg : NodeRegistry :=
  ((insertNode insReg 2 6 none).getD (false, insReg)).2

/-- Result registry of a concrete `moveNode` run (b under a). -/
def afterMoveReg : NodeRegistry :=
  ((moveNode demoReg 3 2 none).getD (false, demoReg)).2

/-- Result registry of a concrete `reorderChildren` run. -/
def afterReorderReg : NodeRegistry :=
  (reorderChildren demoReg 2 [5, 4]).2

/-- Result of a concrete `expand` run on the unresolved leaf 3. -/
def afterExpandRes : ExpandResult :=
  ((expand demoReg 3).getD
    ({ success := false, needsProvider := false, newVisibleCount := none }, demoReg)).1

/-- Result registry of the same concrete `expand` run. -/
def afterExpandReg : NodeRegistry :=
  ((expand demoReg 3).getD
    ({ success := false, needsProvider := false, newVisibleCount := none }, demoReg)).2

/-- Result registry of a concrete `completeExpand` run. -/
def afterCompleteReg : NodeRegistry :=
  (completeExpand demoReg 3 [6] none).getD demoReg

/-- Registry with a corrupted size invariant: the expanded root claims
subtree size 3 but its only child covers one slot, so index 2 is inside
bounds yet uncovered by any child. -/
def corruptReg : NodeRegistry :=
  let rootOpts := { noOpts with childNodeIds := some [2], isExpanded := some true }
  let root := { createNode 1 rootOpts with visibleSubtreeSize := 3 }
  let n2 := createNode 2 { noOpts with parentNodeId := some 1, depth := some 1 }
  addNode (addNode createRegistry root) n2

/-- Pointwise relation between two options; `none` relates only to
`none`. -/
def OptRel (P : α → β → Prop) : Option α → Option β → Prop
  | none, none => True
  | some a, some b => P a b
  | none, some _ => False
  | some _, none => False

/-- Agreement on every field except `visibleSubtreeSize`. -/
def sameShape (a b : NodeMetadata) : Prop :=
  a.nodeId = b.nodeId ∧ a.parentNodeId = b.parentNodeId ∧ a.childState = b.childState ∧
  a.childNodeIds = b.childNodeIds ∧ a.isExpanded = b.isExpanded ∧ a.depth = b.depth ∧
  a.label = b.label ∧ a.childCount = b.childCount

/-- Agreement on every field except `depth`. -/
def sameButDepth (a b : NodeMetadata) : Prop :=
  a.nodeId = b.nodeId ∧ a.parentNodeId = b.parentNodeId ∧ a.childState = b.childState ∧
  a.childNodeIds = b.childNodeIds ∧ a.isExpanded = b.isExpanded ∧
  a.visibleSubtreeSize = b.visibleSubtreeSize ∧ a.label = b.label ∧ a.childCount = b.childCount

/-- Two registries related pointwise by `P` on records, with the root
pointer and key list intact. -/
def RegRel (P : NodeMetadata → NodeMetadata → Prop) (r r' : NodeRegistry) : Prop :=
  r'.rootId = r.rootId ∧ keysOf r' = keysOf r ∧
  ∀ id, OptRel P (r.get id) (r'.get id)

/-- The registry changed at most in `visibleSubtreeSize` fields. -/
def ShapePres : NodeRegistry → NodeRegistry → Prop :=
  RegRel sameShape

/-- The registry changed at most in `depth` fields. -/
def DepthPres : NodeRegistry → NodeRegistry → Prop :=
  RegRel sameButDepth

/-- Key/record agreement used by the in-place mutation model: every stored
record's `nodeId` equals its map key. -/
def KeyId (r : NodeRegistry) : Prop :=
  ∀ p ∈ r.nodes, (p.2 : NodeMetadata).nodeId = p.1

instance instDecKeyId (r : NodeRegistry) : Decidable (KeyId r) := by
  unfold KeyId
  infer_instance

/-- One record's half of the tagged-union property: a `RESOLVED` node
carries a child list. -/
def ResolvedKidsAt (n : NodeMetadata) : Prop :=
  n.childState = ChildState.RESOLVED → n.childNodeIds ≠ none

/-- Registry-wide half of the tagged-union property. -/
def ResolvedHasKids (r : NodeRegistry) : Prop :=
  ∀ p ∈ r.nodes, ResolvedKidsAt p.2

instance instDecResolvedKidsAt (n : NodeMetadata) : Decidable (ResolvedKidsAt n) := by
  unfold ResolvedKidsAt
  infer_instance

instance instDecResolvedHasKids (r : NodeRegistry) : Decidable (ResolvedHasKids r) := by
  unfold ResolvedHasKids
  infer_instance

/-- Bundle threaded through the mutation proofs: distinct keys, key/record
agreement, and the resolved-children half of the tagged-union property. -/
def GoodReg (r : NodeRegistry) : Prop :=
  (keysOf r).Nodup ∧ KeyId r ∧ ResolvedHasKids r

instance instDecGoodReg (r : NodeRegistry) : Decidable (GoodReg r) := by
  unfold GoodReg
  infer_instance

/-- Result registry of collapsing the expanded demo node 2. -/
def afterCollapseReg : NodeRegistry :=
  ((collapse demoReg 2).getD (false, demoReg)).2

/-- Result registry of removing the demo leaf 4. -/
def afterRemoveReg : NodeRegistry :=
  ((removeNode demoReg 4).getD (0, demoReg)).2

/-- Result registry of completing the pending expand of the demo node 3
with an empty child list. -/
def afterCompleteEmptyReg : NodeRegistry :=
  (completeExpand afterExpandReg 3 [] none).getD afterExpandReg

/-- Result registry of expanding node 3 of the chain registry — a node
hidden under the collapsed node 2. -/
def afterHiddenExpandReg : NodeRegistry :=
  ((expand chainReg 3).getD
    ({ success := false, needsProvider := false, newVisibleCount := none }, chainReg)).2

/-- Acyclicity of the parent-pointer graph: no node is its own strict
ancestor. -/
def Acyclic (r : NodeRegistry) : Prop :=
  ∀ m, ¬ IsAncestorOf r m m

/-- Backward preservation of parent pointers: every record of the second
registry was already stored in the first under the same key with the same
parent pointer (the sizes, child lists, states and depths may differ). -/
def PPres (r r' : NodeRegistry) : Prop :=
  ∀ x n', r'.get x = some n' → ∃ n, r.get x = some n ∧ n'.parentNodeId = n.parentNodeId

/-- The record at the end of a root-first path `h :: t`. -/
def lastRec (h : NodeMetadata) (t : List NodeMetadata) : NodeMetadata :=
  t.getLastD h

/-- Relative visible index: `RelIx r p v k st` states that descending the
visible tree from node `p` for `st` parent-to-child steps reaches `v`,
whose index relative to `p` in the visible preorder is `k` — each step
contributes 1 for the parent plus the subtree sizes of the preceding
siblings, the accumulation shared by `getIndexOfNode` and the prefix-sum
descent of `resolveIndexRecursive`. -/
inductive RelIx (r : NodeRegistry) : Nat → Nat → Int → Nat → Prop
  | refl (v : Nat) : RelIx r v v 0 0
  | step (p : Nat) (np : NodeMetadata) (c v : Nat) (nc : NodeMetadata) (k : Int) (st : Nat) :
      r.get p = some np → np.isExpanded = true → np.childState = ChildState.RESOLVED →
      c ∈ kidsOf np → r.get c = some nc → RelIx r c v k st →
      RelIx r p v (1 + sumBefore r c (kidsOf np) + k) (st + 1)

/-!
Basic lemmas about the association-list registry.
-/

@[simp]
theorem allOpt_none (P : α → Prop) : AllOpt none P ↔ True := Iff.rfl

@[simp]
theorem allOpt_some (a : α) (P : α → Prop) : AllOpt (some a) P ↔ P a := Iff.rfl

@[simp]
theorem exOpt_none (P : α → Prop) : ExOpt none P ↔ False := Iff.rfl

@[simp]
theorem exOpt_some (a : α) (P : α → Prop) : ExOpt (some a) P ↔ P a := Iff.rfl

@[simp]
theorem findNode_nil (id : Nat) : findNode [] id = none := rfl

theorem findNode_cons (k : Nat) (n : NodeMetadata) (rest : List (Nat × NodeMetadata)) (id : Nat) :
    findNode ((k, n) :: rest) id = if k = id then some n else findNode rest id := rfl


theorem findNode_setEntries_self (l : List (Nat × NodeMetadata)) (id : Nat) (n : NodeMetadata) :
    findNode (setEntries l id n) id = some n := by
  induction l with
  | nil => simp [setEntries, findNode]
  | cons hd tl ih =>
    obtain ⟨k, m⟩ := hd
    by_cases hk : k = id
    · subst hk
      simp [setEntries, findNode]
    · simp [setEntries, findNode, hk, ih]

theorem findNode_setEntries_ne (l : List (Nat × NodeMetadata)) (id id' : Nat) (n : NodeMetadata)
    (h : id' ≠ id) : findNode (setEntries l id n) id' = findNode l id' := by
  induction l with
  | nil => simp [setEntries, findNode, Ne.symm h]
  | cons hd tl ih =>
    obtain ⟨k, m⟩ := hd
    by_cases hk : k = id
    · subst hk
      simp [setEntries, findNode, Ne.symm h]
    · simp [setEntries, findNode, hk, ih]

@[simp]
theorem get_set_self (r : NodeRegistry) (id : Nat) (n : NodeMetadata) :
    (r.set id n).get id = some n :=
  findNode_setEntries_self r.nodes id n

@[simp]
theorem get_set_ne (r : NodeRegistry) (id id' : Nat) (n : NodeMetadata) (h : id' ≠ id) :
    (r.set id n).get id' = r.get id' :=
  findNode_setEntries_ne r.nodes id id' n h

@[simp]
theorem rootId_set (r : NodeRegistry) (id : Nat) (n : NodeMetadata) :
    (r.set id n).rootId = r.rootId := rfl

@[simp]
theorem rootId_del (r : NodeRegistry) (id : Nat) :
    (r.del id).rootId = r.rootId := rfl

theorem findNode_mem (l : List (Nat × NodeMetadata)) (id : Nat) (n : NodeMetadata)
    (h : findNode l id = some n) : (id, n) ∈ l := by
  induction l with
  | nil => simp [findNode] at h
  | cons hd tl ih =>
    obtain ⟨k, m⟩ := hd
    rw [findNode_cons] at h
    by_cases hk : k = id
    · subst hk
      rw [if_pos rfl] at h
      cases Option.some.inj h
      exact List.mem_cons_self _ _
    · rw [if_neg hk] at h
      exact List.mem_cons_of_mem _ (ih h)

/-- A record found by `get` is an entry of the backing list. -/
theorem get_mem (r : NodeRegistry) (id : Nat) (n : NodeMetadata)
    (h : r.get id = some n) : (id, n) ∈ r.nodes :=
  findNode_mem r.nodes id n h

theorem mem_findNode (l : List (Nat × NodeMetadata)) (hnd : (l.map Prod.fst).Nodup)
    (id : Nat) (n : NodeMetadata) (h : (id, n) ∈ l) : findNode l id = some n := by
  induction l with
  | nil => simp at h
  | cons hd tl ih =>
    obtain ⟨k, m⟩ := hd
    simp only [List.map_cons, List.nodup_cons] at hnd
    rw [findNode_cons]
    rcases List.mem_cons.mp h with h1 | h1
    · rw [Prod.mk.injEq] at h1
      simp [h1.1, h1.2]
    · by_cases hk : k = id
      · subst hk
        exact absurd (List.mem_map_of_mem Prod.fst h1) hnd.1
      · rw [if_neg hk]
        exact ih hnd.2 h1

/-- With distinct keys, every entry of the backing list is found by `get`. -/
theorem mem_get (r : NodeRegistry) (hnd : (keysOf r).Nodup) (id : Nat) (n : NodeMetadata)
    (h : (id, n) ∈ r.nodes) : r.get id = some n :=
  mem_findNode r.nodes hnd id n h

theorem get_isSome_iff_mem_keys (r : NodeRegistry) (id : Nat) :
    (r.get id).isSome ↔ id ∈ keysOf r := by
  show (findNode r.nodes id).isSome ↔ id ∈ r.nodes.map Prod.fst
  induction r.nodes with
  | nil => simp [findNode]
  | cons hd tl ih =>
    obtain ⟨k, m⟩ := hd
    rw [findNode_cons]
    by_cases hk : k = id
    · subst hk
      simp
    · simp [hk, ih, Ne.symm hk]

theorem setEntries_map_fst (l : List (Nat × NodeMetadata)) (id : Nat) (n : NodeMetadata)
    (h : id ∈ l.map Prod.fst) :
    (setEntries l id n).map Prod.fst = l.map Prod.fst := by
  induction l with
  | nil => simp at h
  | cons hd tl ih =>
    obtain ⟨k, m⟩ := hd
    by_cases hk : k = id
    · subst hk
      simp [setEntries]
    · simp only [List.map_cons, List.mem_cons] at h
      rcases h with h1 | h1
      · exact absurd h1.symm hk
      · simp [setEntries, hk, ih h1]

/-- Overwriting an existing key leaves the key list unchanged. -/
theorem keysOf_set_mem (r : NodeRegistry) (id : Nat) (n : NodeMetadata)
    (h : id ∈ keysOf r) : keysOf (r.set id n) = keysOf r :=
  setEntries_map_fst r.nodes id n h

theorem get_set (r : NodeRegistry) (id id' : Nat) (n : NodeMetadata) :
    (r.set id n).get id' = if id' = id then some n else r.get id' := by
  by_cases h : id' = id
  · subst h
    simp
  · simp [h]

/-!
Shape preservation: the size propagator touches only `visibleSubtreeSize`
fields and the depth rewriter touches only `depth` fields.
-/

theorem sameShape_refl (a : NodeMetadata) : sameShape a a :=
  ⟨rfl, rfl, rfl, rfl, rfl, rfl, rfl, rfl⟩

theorem sameShape_trans (a b c : NodeMetadata) (h1 : sameShape a b) (h2 : sameShape b c) :
    sameShape a c := by
  unfold sameShape at *
  refine ⟨h1.1.trans h2.1, ?_, ?_, ?_, ?_, ?_, ?_, ?_⟩
  · exact h1.2.1.trans h2.2.1
  · exact h1.2.2.1.trans h2.2.2.1
  · exact h1.2.2.2.1.trans h2.2.2.2.1
  · exact h1.2.2.2.2.1.trans h2.2.2.2.2.1
  · exact h1.2.2.2.2.2.1.trans h2.2.2.2.2.2.1
  · exact h1.2.2.2.2.2.2.1.trans h2.2.2.2.2.2.2.1
  · exact h1.2.2.2.2.2.2.2.trans h2.2.2.2.2.2.2.2

theorem sameButDepth_refl (a : NodeMetadata) : sameButDepth a a :=
  ⟨rfl, rfl, rfl, rfl, rfl, rfl, rfl, rfl⟩

theorem sameButDepth_trans (a b c : NodeMetadata) (h1 : sameButDepth a b)
    (h2 : sameButDepth b c) : sameButDepth a c := by
  unfold sameButDepth at *
  refine ⟨h1.1.trans h2.1, ?_, ?_, ?_, ?_, ?_, ?_, ?_⟩
  · exact h1.2.1.trans h2.2.1
  · exact h1.2.2.1.trans h2.2.2.1
  · exact h1.2.2.2.1.trans h2.2.2.2.1
  · exact h1.2.2.2.2.1.trans h2.2.2.2.2.1
  · exact h1.2.2.2.2.2.1.trans h2.2.2.2.2.2.1
  · exact h1.2.2.2.2.2.2.1.trans h2.2.2.2.2.2.2.1
  · exact h1.2.2.2.2.2.2.2.trans h2.2.2.2.2.2.2.2

theorem optRel_refl {P : NodeMetadata → NodeMetadata → Prop} (hrefl : ∀ a, P a a)
    (o : Option NodeMetadata) : OptRel P o o := by
  cases o with
  | none => trivial
  | some a => exact hrefl a

theorem optRel_trans {P : NodeMetadata → NodeMetadata → Prop}
    (htrans : ∀ a b c, P a b → P b c → P a c) (o1 o2 o3 : Option NodeMetadata)
    (h12 : OptRel P o1 o2) (h23 : OptRel P o2 o3) : OptRel P o1 o3 := by
  cases o1 <;> cases o2 <;> cases o3 <;> first
    | trivial
    | exact absurd h12 id
    | exact absurd h23 id
    | exact htrans _ _ _ h12 h23

theorem regRel_refl {P : NodeMetadata → NodeMetadata → Prop} (hrefl : ∀ a, P a a)
    (r : NodeRegistry) : RegRel P r r :=
  ⟨rfl, rfl, fun _ => optRel_refl hrefl _⟩

theorem regRel_trans {P : NodeMetadata → NodeMetadata → Prop}
    (htrans : ∀ a b c, P a b → P b c → P a c) (r1 r2 r3 : NodeRegistry)
    (h12 : RegRel P r1 r2) (h23 : RegRel P r2 r3) : RegRel P r1 r3 :=
  ⟨h23.1.trans h12.1, h23.2.1.trans h12.2.1,
   fun id => optRel_trans htrans _ _ _ (h12.2.2 id) (h23.2.2 id)⟩

theorem regRel_set {P : NodeMetadata → NodeMetadata → Prop} (hrefl : ∀ a, P a a)
    (r : NodeRegistry) (id : Nat) (a b : NodeMetadata)
    (hget : r.get id = some a) (hab : P a b) : RegRel P r (r.set id b) := by
  refine ⟨rfl, keysOf_set_mem r id b ?_, ?_⟩
  · exact (get_isSome_iff_mem_keys r id).mp (by rw [hget]; rfl)
  · intro k
    by_cases hk : k = id
    · subst hk
      rw [hget, get_set_self]
      exact hab
    · rw [get_set_ne r id k b hk]
      exact optRel_refl hrefl _

theorem mem_setEntries (l : List (Nat × NodeMetadata)) (id : Nat) (n : NodeMetadata)
    (p : Nat × NodeMetadata) : p ∈ setEntries l id n → p = (id, n) ∨ p ∈ l := by
  induction l with
  | nil =>
    intro h
    simp [setEntries] at h
    exact Or.inl h
  | cons hd tl ih =>
    obtain ⟨k, m⟩ := hd
    by_cases hk : k = id
    · intro h
      subst hk
      simp only [setEntries, eq_self_iff_true, if_true, List.mem_cons] at h
      rcases h with h | h
      · exact Or.inl h
      · exact Or.inr (List.mem_cons_of_mem _ h)
    · intro h
      simp only [setEntries, if_neg hk, List.mem_cons] at h
      rcases h with h | h
      · exact Or.inr (List.mem_cons.mpr (Or.inl h))
      · rcases ih h with h1 | h1
        · exact Or.inl h1
        · exact Or.inr (List.mem_cons_of_mem _ h1)

theorem keyId_of_get (r : NodeRegistry) (id : Nat) (n : NodeMetadata)
    (hk : KeyId r) (hget : r.get id = some n) : n.nodeId = id :=
  hk _ (get_mem r id n hget)

theorem keyId_set (r : NodeRegistry) (id : Nat) (n : NodeMetadata)
    (hk : KeyId r) (hid : n.nodeId = id) : KeyId (r.set id n) := by
  intro p hp
  rcases mem_setEntries r.nodes id n p hp with h | h
  · subst h
    exact hid
  · exact hk _ h

theorem propagateLoop_shapePres (delta : Int) :
    ∀ (fuel : Nat) (r : NodeRegistry) (cur : Option NodeMetadata) (r' : NodeRegistry),
      KeyId r → (∀ c, cur = some c → r.get c.nodeId = some c) →
      propagateLoop delta fuel r cur = some r' →
      KeyId r' ∧ ShapePres r r' := by
  intro fuel
  induction fuel with
  | zero =>
    intro r cur r' hk hcur h
    cases cur with
    | none =>
      cases h
      exact ⟨hk, regRel_refl sameShape_refl r⟩
    | some c => exact absurd h (by simp [propagateLoop])
  | succ fuel ih =>
    intro r cur r' hk hcur h
    cases cur with
    | none =>
      cases h
      exact ⟨hk, regRel_refl sameShape_refl r⟩
    | some c =>
      have hc := hcur c rfl
      rw [propagateLoop] at h
      have hk1 : KeyId (r.set c.nodeId { c with visibleSubtreeSize := c.visibleSubtreeSize + delta }) :=
        keyId_set _ _ _ hk rfl
      have hpres1 : ShapePres r (r.set c.nodeId { c with visibleSubtreeSize := c.visibleSubtreeSize + delta }) :=
        regRel_set sameShape_refl r c.nodeId c _ hc ⟨rfl, rfl, rfl, rfl, rfl, rfl, rfl, rfl⟩
      have hnext : ∀ c2, (if truthyId c.parentNodeId then
            (r.set c.nodeId { c with visibleSubtreeSize := c.visibleSubtreeSize + delta }).get
              (c.parentNodeId.getD 0)
          else none) = some c2 →
          (r.set c.nodeId { c with visibleSubtreeSize := c.visibleSubtreeSize + delta }).get
            c2.nodeId = some c2 := by
        intro c2 hc2
        by_cases ht : truthyId c.parentNodeId = true
        · rw [if_pos ht] at hc2
          rw [keyId_of_get _ _ _ hk1 hc2]
          exact hc2
        · rw [if_neg ht] at hc2
          exact absurd hc2 (by simp)
      obtain ⟨hk', hpres'⟩ := ih _ _ r' hk1 hnext h
      exact ⟨hk', regRel_trans sameShape_trans _ _ _ hpres1 hpres'⟩

theorem propagateSizeChange_shapePres (r : NodeRegistry) (nodeId : Nat) (delta : Int)
    (r' : NodeRegistry) (hk : KeyId r) (h : propagateSizeChange r nodeId delta = some r') :
    KeyId r' ∧ ShapePres r r' := by
  unfold propagateSizeChange at h
  by_cases hd : delta = 0
  · rw [if_pos hd] at h
    cases h
    exact ⟨hk, regRel_refl sameShape_refl r⟩
  · rw [if_neg hd] at h
    cases hget : r.get nodeId with
    | none =>
      rw [hget] at h
      cases h
      exact ⟨hk, regRel_refl sameShape_refl r⟩
    | some node =>
      rw [hget] at h
      dsimp only at h
      refine propagateLoop_shapePres delta _ r _ r' hk ?_ h
      intro c hc
      by_cases ht : truthyId node.parentNodeId = true
      · rw [if_pos ht] at hc
        rw [keyId_of_get _ _ _ hk hc]
        exact hc
      · rw [if_neg ht] at hc
        exact absurd hc (by simp)

theorem recalculateSubtreeSize_shapePres (r : NodeRegistry) (nodeId : Nat) (hk : KeyId r) :
    KeyId (recalculateSubtreeSize r nodeId).2 ∧ ShapePres r (recalculateSubtreeSize r nodeId).2 := by
  unfold recalculateSubtreeSize
  cases hget : r.get nodeId with
  | none => exact ⟨hk, regRel_refl sameShape_refl r⟩
  | some node =>
    have hid := keyId_of_get _ _ _ hk hget
    dsimp only
    split
    · exact ⟨keyId_set _ _ _ hk hid, regRel_set sameShape_refl r nodeId node _ hget
        ⟨rfl, rfl, rfl, rfl, rfl, rfl, rfl, rfl⟩⟩
    · exact ⟨keyId_set _ _ _ hk hid, regRel_set sameShape_refl r nodeId node _ hget
        ⟨rfl, rfl, rfl, rfl, rfl, rfl, rfl, rfl⟩⟩

theorem recalcProp_shapePres (r : NodeRegistry) (nodeId : Nat) (s : Int) (r' : NodeRegistry)
    (hk : KeyId r) (h : recalculateAndPropagate r nodeId = some (s, r')) :
    KeyId r' ∧ ShapePres r r' := by
  unfold recalculateAndPropagate at h
  cases hget : r.get nodeId with
  | none =>
    rw [hget] at h
    cases h
    exact ⟨hk, regRel_refl sameShape_refl r⟩
  | some node =>
    rw [hget] at h
    dsimp only at h
    obtain ⟨hk1, hpres1⟩ := recalculateSubtreeSize_shapePres r nodeId hk
    cases hprop : propagateSizeChange (recalculateSubtreeSize r nodeId).2 nodeId
        ((recalculateSubtreeSize r nodeId).1 - node.visibleSubtreeSize) with
    | none =>
      rw [hprop] at h
      cases h
    | some r2 =>
      rw [hprop] at h
      obtain ⟨hk2, hpres2⟩ := propagateSizeChange_shapePres _ _ _ _ hk1 hprop
      cases h
      exact ⟨hk2, regRel_trans sameShape_trans _ _ _ hpres1 hpres2⟩

theorem setEntries_map_fst_notmem (l : List (Nat × NodeMetadata)) (id : Nat) (n : NodeMetadata)
    (h : id ∉ l.map Prod.fst) :
    (setEntries l id n).map Prod.fst = l.map Prod.fst ++ [id] := by
  induction l with
  | nil => simp [setEntries]
  | cons hd tl ih =>
    obtain ⟨k, m⟩ := hd
    simp only [List.map_cons, List.mem_cons] at h
    push_neg at h
    simp [setEntries, Ne.symm h.1, ih h.2]

theorem nodup_keysOf_set (r : NodeRegistry) (id : Nat) (n : NodeMetadata)
    (h : (keysOf r).Nodup) : (keysOf (r.set id n)).Nodup := by
  by_cases hm : id ∈ keysOf r
  · rw [keysOf_set_mem r id n hm]
    exact h
  · have heq : keysOf (r.set id n) = keysOf r ++ [id] := setEntries_map_fst_notmem r.nodes id n hm
    rw [heq]
    simp [List.nodup_append, h, hm]

theorem updateDepthFold (fuel : Nat) (delta : Int)
    (ihstep : ∀ (r : NodeRegistry) (nodeId : Nat) (r' : NodeRegistry), KeyId r →
      updateSubtreeDepth fuel r nodeId delta = some r' → KeyId r' ∧ DepthPres r r') :
    ∀ (kids : List Nat) (r0 r' : NodeRegistry), KeyId r0 →
      List.foldlM (fun acc c => updateSubtreeDepth fuel acc c delta) r0 kids = some r' →
      KeyId r' ∧ DepthPres r0 r' := by
  intro kids
  induction kids with
  | nil =>
    intro r0 r' hk h
    cases h
    exact ⟨hk, regRel_refl sameButDepth_refl r0⟩
  | cons c rest ihk =>
    intro r0 r' hk h
    rw [List.foldlM_cons] at h
    cases hstep : updateSubtreeDepth fuel r0 c delta with
    | none =>
      rw [hstep] at h
      cases h
    | some r1 =>
      rw [hstep] at h
      obtain ⟨hk1, hp1⟩ := ihstep r0 c r1 hk hstep
      obtain ⟨hk2, hp2⟩ := ihk r1 r' hk1 h
      exact ⟨hk2, regRel_trans sameButDepth_trans _ _ _ hp1 hp2⟩

/-- The depth rewriter of `moveNode` terminates only by changing `depth`
fields: keys, root pointer and every other field are untouched. -/
theorem updateSubtreeDepth_depthPres :
    ∀ (fuel : Nat) (r : NodeRegistry) (nodeId : Nat) (delta : Int) (r' : NodeRegistry),
      KeyId r → updateSubtreeDepth fuel r nodeId delta = some r' →
      KeyId r' ∧ DepthPres r r' := by
  intro fuel
  induction fuel with
  | zero =>
    intro r nodeId delta r' hk h
    exact absurd h (by simp [updateSubtreeDepth])
  | succ fuel ih =>
    intro r nodeId delta r' hk h
    rw [updateSubtreeDepth] at h
    cases hget : r.get nodeId with
    | none =>
      rw [hget] at h
      cases h
      exact ⟨hk, regRel_refl sameButDepth_refl r⟩
    | some node =>
      rw [hget] at h
      have hk1 : KeyId (r.set nodeId { node with depth := node.depth + delta }) :=
        keyId_set _ _ _ hk (keyId_of_get r nodeId node hk hget)
      have hp1 : DepthPres r (r.set nodeId { node with depth := node.depth + delta }) :=
        regRel_set sameButDepth_refl r nodeId node _ hget ⟨rfl, rfl, rfl, rfl, rfl, rfl, rfl, rfl⟩
      obtain ⟨hk2, hp2⟩ := updateDepthFold fuel delta (fun a b c => ih a b delta c) _ _ r' hk1 h
      exact ⟨hk2, regRel_trans sameButDepth_trans _ _ _ hp1 hp2⟩

/-!
GoodReg preservation helpers.
-/

theorem resolvedKids_get (r : NodeRegistry) (h : ResolvedHasKids r) (id : Nat) (n : NodeMetadata)
    (hn : r.get id = some n) : ResolvedKidsAt n :=
  h _ (get_mem r id n hn)

theorem resolvedHasKids_of_get (r : NodeRegistry) (hnd : (keysOf r).Nodup)
    (h : ∀ id n, r.get id = some n → ResolvedKidsAt n) : ResolvedHasKids r := by
  intro p hp
  exact h p.1 p.2 (mem_get r hnd p.1 p.2 hp)

theorem resolvedHasKids_set (r : NodeRegistry) (id : Nat) (n : NodeMetadata)
    (h : ResolvedHasKids r) (hn : ResolvedKidsAt n) : ResolvedHasKids (r.set id n) := by
  intro p hp
  rcases mem_setEntries r.nodes id n p hp with h1 | h1
  · subst h1
    exact hn
  · exact h _ h1

theorem goodReg_set (r : NodeRegistry) (id : Nat) (n : NodeMetadata)
    (hg : GoodReg r) (hid : n.nodeId = id) (hn : ResolvedKidsAt n) : GoodReg (r.set id n) :=
  ⟨nodup_keysOf_set r id n hg.1, keyId_set r id n hg.2.1 hid,
   resolvedHasKids_set r id n hg.2.2 hn⟩

theorem goodReg_regRel (P : NodeMetadata → NodeMetadata → Prop)
    (hfields : ∀ a b, P a b → a.childState = b.childState ∧ a.childNodeIds = b.childNodeIds)
    (r r' : NodeRegistry) (hg : GoodReg r) (hk' : KeyId r') (hpres : RegRel P r r') :
    GoodReg r' := by
  refine ⟨hpres.2.1 ▸ hg.1, hk', ?_⟩
  apply resolvedHasKids_of_get r' (hpres.2.1 ▸ hg.1)
  intro id n hn
  have hrel := hpres.2.2 id
  cases hr : r.get id with
  | none =>
    rw [hr, hn] at hrel
    exact hrel.elim
  | some m =>
    rw [hr, hn] at hrel
    intro hres
    obtain ⟨hcs, hck⟩ := hfields m n hrel
    rw [← hck]
    exact resolvedKids_get r hg.2.2 id m hr (hcs.trans hres)

theorem goodReg_shapePres (r r' : NodeRegistry) (hg : GoodReg r) (hk' : KeyId r')
    (hpres : ShapePres r r') : GoodReg r' :=
  goodReg_regRel sameShape (fun _ _ hp => ⟨hp.2.2.1, hp.2.2.2.1⟩) r r' hg hk' hpres

theorem goodReg_depthPres (r r' : NodeRegistry) (hg : GoodReg r) (hk' : KeyId r')
    (hpres : DepthPres r r') : GoodReg r' :=
  goodReg_regRel sameButDepth (fun _ _ hp => ⟨hp.2.2.1, hp.2.2.2.1⟩) r r' hg hk' hpres

theorem goodReg_recalcProp (r : NodeRegistry) (nodeId : Nat) (s : Int) (r' : NodeRegistry)
    (hg : GoodReg r) (h : recalculateAndPropagate r nodeId = some (s, r')) : GoodReg r' := by
  obtain ⟨hk', hpres⟩ := recalcProp_shapePres r nodeId s r' hg.2.1 h
  exact goodReg_shapePres r r' hg hk' hpres

theorem goodReg_expand (r : NodeRegistry) (nodeId : Nat) (res : ExpandResult) (r' : NodeRegistry)
    (hg : GoodReg r) (h : expand r nodeId = some (res, r')) : GoodReg r' := by
  unfold expand at h
  cases hget : r.get nodeId with
  | none =>
    rw [hget] at h
    cases h
    exact hg
  | some node =>
    rw [hget] at h
    dsimp only at h
    by_cases he : node.isExpanded = true
    · rw [if_pos he] at h
      cases h
      exact hg
    · rw [if_neg he] at h
      by_cases hu : node.childState = ChildState.UNRESOLVED
      · rw [if_pos hu] at h
        cases h
        exact goodReg_set _ _ _ hg (keyId_of_get r nodeId node hg.2.1 hget)
          (fun hcon => ChildState.noConfusion hcon)
      · rw [if_neg hu] at h
        by_cases hee : node.childState = ChildState.EMPTY ∨ node.childState = ChildState.ERROR
        · rw [if_pos hee] at h
          cases h
          exact goodReg_set _ _ _ hg (keyId_of_get r nodeId node hg.2.1 hget)
            (resolvedKids_get r hg.2.2 nodeId node hget)
        · rw [if_neg hee] at h
          have hg1 : GoodReg (r.set nodeId { node with isExpanded := true }) :=
            goodReg_set _ _ _ hg (keyId_of_get r nodeId node hg.2.1 hget)
              (resolvedKids_get r hg.2.2 nodeId node hget)
          cases hrec : recalculateAndPropagate (r.set nodeId { node with isExpanded := true })
              nodeId with
          | none =>
            rw [hrec] at h
            cases h
          | some p =>
            rw [hrec] at h
            cases h
            exact goodReg_recalcProp _ nodeId p.1 p.2 hg1 hrec

theorem goodReg_completeExpand (r : NodeRegistry) (nodeId : Nat) (childNodeIds : List Nat)
    (error : Option String) (r' : NodeRegistry) (hg : GoodReg r)
    (h : completeExpand r nodeId childNodeIds error = some r') : GoodReg r' := by
  unfold completeExpand at h
  cases hget : r.get nodeId with
  | none =>
    rw [hget] at h
    cases h
    exact hg
  | some node =>
    rw [hget] at h
    dsimp only at h
    by_cases herr : error.isSome = true
    · rw [if_pos herr] at h
      cases h
      exact goodReg_set _ _ _ hg (keyId_of_get r nodeId node hg.2.1 hget)
        (fun hcon => ChildState.noConfusion hcon)
    · rw [if_neg herr] at h
      by_cases hlen : childNodeIds.length = 0
      · rw [if_pos hlen] at h
        cases h
        exact goodReg_set _ _ _ hg (keyId_of_get r nodeId node hg.2.1 hget)
          (fun hcon => ChildState.noConfusion hcon)
      · rw [if_neg hlen] at h
        have hg1 : GoodReg (r.set nodeId
            { node with childState := ChildState.RESOLVED,
                        childNodeIds := some childNodeIds, isExpanded := true }) :=
          goodReg_set _ _ _ hg (keyId_of_get r nodeId node hg.2.1 hget)
            (fun _ => fun heq => Option.noConfusion heq)
        cases hrec : recalculateAndPropagate (r.set nodeId
            { node with childState := ChildState.RESOLVED,
                        childNodeIds := some childNodeIds, isExpanded := true }) nodeId with
        | none =>
          rw [hrec] at h
          cases h
        | some p =>
          rw [hrec] at h
          cases h
          exact goodReg_recalcProp _ nodeId p.1 p.2 hg1 hrec

theorem goodReg_reorderChildren (r : NodeRegistry) (parentId : Nat) (newOrder : List Nat)
    (hg : GoodReg r) : GoodReg (reorderChildren r parentId newOrder).2 := by
  unfold reorderChildren
  cases hget : r.get parentId with
  | none => exact hg
  | some parent =>
    dsimp only
    by_cases h1 : newOrder.length ≠ (parent.childNodeIds.getD []).length
    · rw [if_pos h1]
      exact hg
    · rw [if_neg h1]
      by_cases h2 : (parent.childNodeIds.getD []).dedup.length ≠ newOrder.dedup.length
      · rw [if_pos h2]
        exact hg
      · rw [if_neg h2]
        by_cases h3 : ¬ (newOrder.all fun id => (parent.childNodeIds.getD []).contains id) = true
        · rw [if_pos h3]
          exact hg
        · rw [if_neg h3]
          exact goodReg_set _ _ _ hg (keyId_of_get r parentId parent hg.2.1 hget)
            (fun _ => fun heq => Option.noConfusion heq)

theorem goodReg_insertNode (r : NodeRegistry) (parentId newNodeId : Nat) (idx : Option Int)
    (b : Bool) (r' : NodeRegistry) (hg : GoodReg r)
    (h : insertNode r parentId newNodeId idx = some (b, r')) : GoodReg r' := by
  unfold insertNode at h
  cases hp : r.get parentId with
  | none =>
    rw [hp] at h
    dsimp only at h
    cases h
    exact hg
  | some parent =>
    rw [hp] at h
    cases hn : r.get newNodeId with
    | none =>
      rw [hn] at h
      dsimp only at h
      cases h
      exact hg
    | some newNode =>
      rw [hn] at h
      dsimp only at h
      by_cases hpar : newNode.parentNodeId ≠ some parentId
      · rw [if_pos hpar] at h
        cases h
        exact hg
      · rw [if_neg hpar] at h
        have hkid := keyId_of_get r parentId parent hg.2.1 hp
        by_cases hfirst : (spliceInsert (parent.childNodeIds.getD [])
            (idx.getD ((parent.childNodeIds.getD []).length : Int)) newNodeId).length = 1 ∧
            parent.childState = ChildState.EMPTY
        · rw [if_pos hfirst] at h
          have hg1 : GoodReg (r.set parentId
              { parent with
                childNodeIds := some (spliceInsert (parent.childNodeIds.getD [])
                  (idx.getD ((parent.childNodeIds.getD []).length : Int)) newNodeId),
                childState := ChildState.RESOLVED }) :=
            goodReg_set _ _ _ hg hkid (fun _ => fun heq => Option.noConfusion heq)
          by_cases hex : parent.isExpanded = true
          · rw [if_pos hex] at h
            cases hrec : recalculateAndPropagate (r.set parentId
                { parent with
                  childNodeIds := some (spliceInsert (parent.childNodeIds.getD [])
                    (idx.getD ((parent.childNodeIds.getD []).length : Int)) newNodeId),
                  childState := ChildState.RESOLVED }) parentId with
            | none =>
              rw [hrec] at h
              cases h
            | some p =>
              rw [hrec] at h
              cases h
              exact goodReg_recalcProp _ parentId p.1 p.2 hg1 hrec
          · rw [if_neg hex] at h
            cases h
            exact hg1
        · rw [if_neg hfirst] at h
          have hg1 : GoodReg (r.set parentId
              { parent with
                childNodeIds := some (spliceInsert (parent.childNodeIds.getD [])
                  (idx.getD ((parent.childNodeIds.getD []).length : Int)) newNodeId) }) :=
            goodReg_set _ _ _ hg hkid (fun _ => fun heq => Option.noConfusion heq)
          by_cases hex : parent.isExpanded = true
          · rw [if_pos hex] at h
            cases hrec : recalculateAndPropagate (r.set parentId
                { parent with
                  childNodeIds := some (spliceInsert (parent.childNodeIds.getD [])
                    (idx.getD ((parent.childNodeIds.getD []).length : Int)) newNodeId) })
                parentId with
            | none =>
              rw [hrec] at h
              cases h
            | some p =>
              rw [hrec] at h
              cases h
              exact goodReg_recalcProp _ parentId p.1 p.2 hg1 hrec
          · rw [if_neg hex] at h
            cases h
            exact hg1

theorem goodReg_moveNode (r : NodeRegistry) (nodeId newParentId : Nat) (insertIndex : Option Int)
    (b : Bool) (r' : NodeRegistry) (hg : GoodReg r)
    (h : moveNode r nodeId newParentId insertIndex = some (b, r')) : GoodReg r' := by
  have tail2 : ∀ r5 : NodeRegistry, GoodReg r5 →
      (match r5.get newParentId with
       | none => some (true, r5)
       | some np5 =>
         if np5.isExpanded = true then
           (recalculateAndPropagate r5 newParentId).map (fun p => (true, p.2))
         else some (true, r5)) = some (b, r') → GoodReg r' := by
    intro r5 hg5 ht
    cases hnp5 : r5.get newParentId with
    | none =>
      rw [hnp5] at ht
      cases ht
      exact hg5
    | some np5 =>
      rw [hnp5] at ht
      dsimp only at ht
      by_cases hex : np5.isExpanded = true
      · rw [if_pos hex] at ht
        cases hrec : recalculateAndPropagate r5 newParentId with
        | none =>
          rw [hrec] at ht
          cases ht
        | some p =>
          rw [hrec] at ht
          cases ht
          exact goodReg_recalcProp _ newParentId p.1 p.2 hg5 hrec
      · rw [if_neg hex] at ht
        cases ht
        exact hg5
  have tail1 : ∀ r2 : NodeRegistry, GoodReg r2 →
      (match r2.get newParentId with
       | none => some (false, r2)
       | some np =>
         match (r2.set newParentId
             { np with childNodeIds := some (spliceInsert (np.childNodeIds.getD [])
                 (insertIndex.getD ((np.childNodeIds.getD []).length : Int)) nodeId) }).get
             nodeId with
         | none => some (false, r2.set newParentId
             { np with childNodeIds := some (spliceInsert (np.childNodeIds.getD [])
                 (insertIndex.getD ((np.childNodeIds.getD []).length : Int)) nodeId) })
         | some node3 =>
           let r4 := (r2.set newParentId
             { np with childNodeIds := some (spliceInsert (np.childNodeIds.getD [])
                 (insertIndex.getD ((np.childNodeIds.getD []).length : Int)) nodeId) }).set
             nodeId { node3 with parentNodeId := some newParentId }
           let depthDelta := ((r4.get newParentId).map (·.depth)).getD 0 + 1 -
             ((r4.get nodeId).map (·.depth)).getD 0
           match (if depthDelta ≠ 0 then updateSubtreeDepth (r4.size + 1) r4 nodeId depthDelta
               else some r4) with
           | none => none
           | some r5 =>
             match r5.get newParentId with
             | none => some (true, r5)
             | some np5 =>
               if np5.isExpanded = true then
                 (recalculateAndPropagate r5 newParentId).map (fun p => (true, p.2))
               else some (true, r5)) = some (b, r') → GoodReg r' := by
    intro r2 hg2 ht
    cases hnp : r2.get newParentId with
    | none =>
      rw [hnp] at ht
      cases ht
      exact hg2
    | some np =>
      rw [hnp] at ht
      dsimp only at ht
      have hg3 : GoodReg (r2.set newParentId
          { np with childNodeIds := some (spliceInsert (np.childNodeIds.getD [])
              (insertIndex.getD ((np.childNodeIds.getD []).length : Int)) nodeId) }) :=
        goodReg_set _ _ _ hg2 (keyId_of_get r2 newParentId np hg2.2.1 hnp)
          (fun _ => fun heq => Option.noConfusion heq)
      cases hn3 : (r2.set newParentId
          { np with childNodeIds := some (spliceInsert (np.childNodeIds.getD [])
              (insertIndex.getD ((np.childNodeIds.getD []).length : Int)) nodeId) }).get
          nodeId with
      | none =>
        rw [hn3] at ht
        cases ht
        exact hg3
      | some node3 =>
        rw [hn3] at ht
        dsimp only at ht
        have hg4 : GoodReg ((r2.set newParentId
            { np with childNodeIds := some (spliceInsert (np.childNodeIds.getD [])
                (insertIndex.getD ((np.childNodeIds.getD []).length : Int)) nodeId) }).set
            nodeId { node3 with parentNodeId := some newParentId }) :=
          goodReg_set _ _ _ hg3 (keyId_of_get _ nodeId node3 hg3.2.1 hn3)
            (resolvedKids_get _ hg3.2.2 nodeId node3 hn3)
        set r4 := (r2.set newParentId
            { np with childNodeIds := some (spliceInsert (np.childNodeIds.getD [])
                (insertIndex.getD ((np.childNodeIds.getD []).length : Int)) nodeId) }).set
            nodeId { node3 with parentNodeId := some newParentId } with hr4
        set depthDelta := ((r4.get newParentId).map (·.depth)).getD 0 + 1 -
            ((r4.get nodeId).map (·.depth)).getD 0 with hdd
        by_cases hdz : depthDelta ≠ 0
        · rw [if_pos hdz] at ht
          cases hupd : updateSubtreeDepth (r4.size + 1) r4 nodeId depthDelta with
          | none =>
            rw [hupd] at ht
            cases ht
          | some r5 =>
            rw [hupd] at ht
            obtain ⟨hk5, hp5⟩ := updateSubtreeDepth_depthPres (r4.size + 1) r4 nodeId
              depthDelta r5 hg4.2.1 hupd
            exact tail2 r5 (goodReg_depthPres r4 r5 hg4 hk5 hp5) ht
        · rw [if_neg hdz] at ht
          exact tail2 r4 hg4 ht
  unfold moveNode at h
  cases hn : r.get nodeId with
  | none =>
    rw [hn] at h
    dsimp only at h
    cases h
    exact hg
  | some node =>
    rw [hn] at h
    cases hnp0 : r.get newParentId with
    | none =>
      rw [hnp0] at h
      dsimp only at h
      cases h
      exact hg
    | some np0 =>
      rw [hnp0] at h
      dsimp only at h
      by_cases hroot : node.parentNodeId = none
      · rw [if_pos hroot] at h
        cases h
        exact hg
      · rw [if_neg hroot] at h
        cases hdesc : isDescendant r newParentId nodeId with
        | none =>
          rw [hdesc] at h
          cases h
        | some bd =>
          rw [hdesc] at h
          cases bd with
          | true =>
            dsimp only at h
            cases h
            exact hg
          | false =>
            dsimp only at h
            cases hpar : node.parentNodeId with
            | none => exact absurd hpar hroot
            | some oldParentId =>
              rw [hpar] at h
              dsimp only at h
              cases hop : r.get oldParentId with
              | none =>
                rw [hop] at h
                dsimp only at h
                exact tail1 r hg h
              | some oldParent =>
                rw [hop] at h
                dsimp only at h
                by_cases hok : oldParent.childNodeIds.isSome = true
                · rw [if_pos hok] at h
                  have hg1 : GoodReg (r.set oldParentId { oldParent with childNodeIds := some ((oldParent.childNodeIds.getD []).filter (· != nodeId)) }) :=
                    goodReg_set _ _ _ hg (keyId_of_get r oldParentId oldParent hg.2.1 hop)
                      (fun _ => fun heq => Option.noConfusion heq)
                  by_cases hoe : oldParent.isExpanded = true
                  · rw [if_pos hoe] at h
                    cases hrec : recalculateAndPropagate (r.set oldParentId { oldParent with childNodeIds := some ((oldParent.childNodeIds.getD []).filter (· != nodeId)) }) oldParentId with
                    | none =>
                      rw [hrec] at h
                      cases h
                    | some p =>
                      rw [hrec] at h
                      exact tail1 p.2 (goodReg_recalcProp _ oldParentId p.1 p.2 hg1 hrec) h
                  · rw [if_neg hoe] at h
                    dsimp only at h
                    exact tail1 _ hg1 h
                · rw [if_neg hok] at h
                  dsimp only at h
                  exact tail1 r hg h

theorem WF_parent_depth (r : NodeRegistry) (id : Nat) (n : NodeMetadata) (q : Nat)
    (hwf : WF r) (hget : r.get id = some n) (hp : n.parentNodeId = some q) :
    ∃ pn, r.get q = some pn ∧ n.depth = pn.depth + 1 := by
  have hcl := hwf.2.2.1 _ (get_mem r id n hget)
  rw [hp] at hcl
  simp only [allOpt_some] at hcl
  cases hq : r.get q with
  | none =>
    rw [hq] at hcl
    exact hcl.elim
  | some pn =>
    rw [hq] at hcl
    exact ⟨pn, rfl, hcl⟩

theorem WF_depth_nonneg (r : NodeRegistry) (id : Nat) (n : NodeMetadata)
    (hwf : WF r) (hget : r.get id = some n) : 0 ≤ n.depth :=
  (hwf.2.2.2 _ (get_mem r id n hget)).1

theorem WF_depth_lt (r : NodeRegistry) (id : Nat) (n : NodeMetadata)
    (hwf : WF r) (hget : r.get id = some n) : n.depth < (r.size : Int) :=
  (hwf.2.2.2 _ (get_mem r id n hget)).2

theorem isDescendantLoop_some (r : NodeRegistry) (aid : Nat) (fuel : Nat) (cur : NodeMetadata) :
    isDescendantLoop r aid fuel (some cur) =
      (match cur.parentNodeId with
       | none => some false
       | some p =>
         if p = aid then some true
         else
           match fuel with
           | 0 => none
           | fuel1 + 1 => isDescendantLoop r aid fuel1 (r.get p)) := by
  cases fuel <;> rfl

/-- An ancestor relation witnessed on a depth-coherent registry is found by
the `isDescendant` walk, given fuel at least the start node's depth. -/
theorem isDescendantLoop_finds (r : NodeRegistry) (hwf : WF r) (a : Nat) :
    ∀ (d : Nat), IsAncestorOf r a d → ∀ (fuel : Nat) (n : NodeMetadata), r.get d = some n →
      n.depth.toNat ≤ fuel → isDescendantLoop r a fuel (r.get d) = some true := by
  intro d hanc
  induction hanc with
  | parent d n0 a hget0 hp0 =>
    intro fuel n hget hfuel
    rw [hget] at hget0 ⊢
    cases Option.some.inj hget0
    rw [isDescendantLoop_some, hp0]
    dsimp only
    rw [if_pos rfl]
  | step d n0 m a hget0 hp0 hanc ih =>
    intro fuel n hget hfuel
    rw [hget] at hget0 ⊢
    cases Option.some.inj hget0
    obtain ⟨pn, hpn, hdep⟩ := WF_parent_depth r d n0 m hwf hget hp0
    rw [isDescendantLoop_some, hp0]
    dsimp only
    by_cases hma : m = a
    · rw [if_pos hma]
    · rw [if_neg hma]
      have hd0 : 0 ≤ pn.depth := WF_depth_nonneg r m pn hwf hpn
      have hfuel1 : 1 ≤ fuel := by omega
      cases fuel with
      | zero => omega
      | succ fuel1 =>
        dsimp only
        have hle : pn.depth.toNat ≤ fuel1 := by omega
        exact ih fuel1 pn hpn hle

/-!
Size-invariant machinery: sum bookkeeping, witnessed ancestor chains, and
the exact effect of the propagation walk.
-/

theorem sumChildSizes_cons (r : NodeRegistry) (c : Nat) (rest : List Nat) :
    sumChildSizes r (c :: rest) = optSize (r.get c) + sumChildSizes r rest := rfl

theorem sumChildSizes_congr (r r' : NodeRegistry) (ids : List Nat)
    (h : ∀ c ∈ ids, optSize (r'.get c) = optSize (r.get c)) :
    sumChildSizes r' ids = sumChildSizes r ids := by
  induction ids with
  | nil => rfl
  | cons c rest ih =>
    rw [sumChildSizes_cons, sumChildSizes_cons, h c (List.mem_cons_self c rest),
      ih (fun d hd => h d (List.mem_cons_of_mem c hd))]

theorem sumChildSizes_update (r r' : NodeRegistry) (ids : List Nat) (c : Nat) (delta : Int)
    (hnd : ids.Nodup) (hc : c ∈ ids)
    (hothers : ∀ d ∈ ids, d ≠ c → optSize (r'.get d) = optSize (r.get d))
    (hc2 : optSize (r'.get c) = optSize (r.get c) + delta) :
    sumChildSizes r' ids = sumChildSizes r ids + delta := by
  induction ids with
  | nil => simp at hc
  | cons a rest ih =>
    rw [List.nodup_cons] at hnd
    rcases List.mem_cons.mp hc with h1 | h1
    · subst h1
      have hrest : ∀ d ∈ rest, optSize (r'.get d) = optSize (r.get d) := by
        intro d hd
        exact hothers d (List.mem_cons_of_mem _ hd) (fun he => hnd.1 (he ▸ hd))
      rw [sumChildSizes_cons, sumChildSizes_cons, hc2, sumChildSizes_congr r r' rest hrest]
      ring
    · have ha : a ≠ c := fun he => hnd.1 (by rw [he]; exact h1)
      rw [sumChildSizes_cons, sumChildSizes_cons, hothers a (List.mem_cons_self a rest) ha,
        ih hnd.2 h1 (fun d hd hdc => hothers d (List.mem_cons_of_mem a hd) hdc)]
      ring

theorem visPath_get (r : NodeRegistry) (v : Nat) (l : List Nat) (h : VisPath r v l) :
    ∃ n, r.get v = some n := by
  cases h with
  | root rt n hr hg hp => exact ⟨n, hg⟩
  | child id n c cn l2 hsub hget hexp hres hmem hgetc hpar => exact ⟨cn, hgetc⟩

/-- A witnessed visible path yields a fully linked ancestor chain. -/
theorem visPath_chainLink (r : NodeRegistry) (v : Nat) (l : List Nat)
    (h : VisPath r v l) : ChainLink r (v :: l) := by
  induction h with
  | root rt n hroot hget hpar => exact ChainLink.single rt n hget hpar
  | child id n c cn l2 hsub hget hexp hres hmem hgetc hpar ih =>
    exact ChainLink.cons c cn id n l2 hgetc hpar hget hmem hexp hres ih

theorem chainLink_upChain (r : NodeRegistry) (hz : ∀ p ∈ r.nodes, p.1 ≠ 0)
    (xs : List Nat) (h : ChainLink r xs) : UpChain r xs := by
  induction h with
  | single a n hget hpar =>
    exact UpChain.last a n hget (by rw [hpar]; rfl)
  | cons a n b nb l hget hpar hgetb hmem hexp hres hcl ih =>
    exact UpChain.cons a n b l hget hpar (hz (b, nb) (get_mem r b nb hgetb)) ih

theorem upChain_congr (r r' : NodeRegistry) (l : List Nat) (h : UpChain r l) :
    (∀ x ∈ l, r'.get x = r.get x) → UpChain r' l := by
  induction h with
  | nil => intro _; exact UpChain.nil
  | last a n hget hpar =>
    intro hagree
    exact UpChain.last a n (by rw [hagree a (List.mem_singleton.mpr rfl)]; exact hget) hpar
  | cons a n b l2 hget hpar hb hrest ih =>
    intro hagree
    exact UpChain.cons a n b l2 (by rw [hagree a (List.mem_cons_self _ _)]; exact hget) hpar hb
      (ih (fun x hx => hagree x (List.mem_cons_of_mem a hx)))

theorem upChain_mem_some (r : NodeRegistry) (l : List Nat) (h : UpChain r l) :
    ∀ x ∈ l, ∃ n, r.get x = some n := by
  induction h with
  | nil =>
    intro x hx
    simp at hx
  | last a n hget hpar =>
    intro x hx
    rw [List.mem_singleton] at hx
    subst hx
    exact ⟨n, hget⟩
  | cons a n b l2 hget hpar hb hrest ih =>
    intro x hx
    rcases List.mem_cons.mp hx with h1 | h1
    · subst h1
      exact ⟨n, hget⟩
    · exact ih x h1

/-- A duplicate-free list cannot repeat its head strictly inside itself. -/
theorem cons_nodup_no_inner (x c : Nat) (xs pre post : List Nat)
    (hnd : (x :: xs).Nodup) (heq : x :: xs = pre ++ c :: x :: post) : False := by
  cases pre with
  | nil =>
    injection heq with h1 h2
    rw [List.nodup_cons] at hnd
    exact hnd.1 (by rw [h2]; exact List.mem_cons_self x post)
  | cons q pre2 =>
    injection heq with h1 h2
    rw [List.nodup_cons] at hnd
    apply hnd.1
    rw [h2]
    exact List.mem_append_right _ (List.mem_cons_of_mem c (List.mem_cons_self x post))

/-- In a duplicate-free list, the element preceding a fixed element is
unique across decompositions. -/
theorem pred_unique (k : Nat) :
    ∀ (pre1 xs : List Nat) (d p : Nat) (post1 pre2 post2 : List Nat), xs.Nodup →
      xs = pre1 ++ d :: k :: post1 → xs = pre2 ++ p :: k :: post2 → d = p := by
  intro pre1
  induction pre1 with
  | nil =>
    intro xs d p post1 pre2 post2 hnd h1 h2
    subst h1
    cases pre2 with
    | nil =>
      injection h2 with e1 e2
    | cons q pre3 =>
      injection h2 with e1 e2
      exfalso
      have hnd2 : (k :: post1).Nodup := (List.nodup_cons.mp hnd).2
      exact cons_nodup_no_inner k p post1 pre3 post2 hnd2 e2
  | cons q pre1b ih =>
    intro xs d p post1 pre2 post2 hnd h1 h2
    subst h1
    cases pre2 with
    | nil =>
      injection h2 with e1 e2
      simp only [List.append_eq] at e2
      exfalso
      have hrest : (pre1b ++ d :: k :: post1).Nodup := (List.nodup_cons.mp hnd).2
      rw [e2] at hrest
      exact cons_nodup_no_inner k d post2 pre1b post1 hrest e2.symm
    | cons q2 pre3 =>
      injection h2 with e1 e2
      exact ih (pre1b ++ d :: k :: post1) d p post1 pre3 post2
        (List.nodup_cons.mp hnd).2 rfl e2

/-- Every chain element's parent pointer is either `null` at the chain's
end or the next chain element, which lists it among resolved, expanded
children. -/
theorem chainLink_parent_decomp (r : NodeRegistry) (xs : List Nat) (h : ChainLink r xs) :
    ∀ d ∈ xs, ∀ nd, r.get d = some nd →
      (nd.parentNodeId = none ∧ ∃ pre, xs = pre ++ [d]) ∨
      (∃ k pre post nk, nd.parentNodeId = some k ∧ xs = pre ++ d :: k :: post ∧
        r.get k = some nk ∧ d ∈ kidsOf nk ∧ nk.isExpanded = true ∧
        nk.childState = ChildState.RESOLVED) := by
  induction h with
  | single a n hget hpar =>
    intro d hd nd hgetd
    rw [List.mem_singleton] at hd
    subst hd
    rw [hget] at hgetd
    cases Option.some.inj hgetd
    exact Or.inl ⟨hpar, [], rfl⟩
  | cons a n b nb l hget hpar hgetb hmem hexp hres hcl ih =>
    intro d hd nd hgetd
    rcases List.mem_cons.mp hd with h1 | h1
    · subst h1
      rw [hget] at hgetd
      cases Option.some.inj hgetd
      exact Or.inr ⟨b, [], l, nb, hpar, rfl, hgetb, hmem, hexp, hres⟩
    · rcases ih d h1 nd hgetd with ⟨hp, pre, hdec⟩ |
        ⟨k, pre, post, nk, hp, hdec, hgk, hkid, he, hr⟩
      · exact Or.inl ⟨hp, a :: pre, by rw [List.cons_append, ← hdec]⟩
      · exact Or.inr ⟨k, a :: pre, post, nk, hp, by rw [List.cons_append, ← hdec], hgk,
          hkid, he, hr⟩

/-- Every element of a chain's tail has a chain predecessor: a preceding
element that points at it and is listed among its resolved, expanded
children. -/
theorem chainLink_pred (r : NodeRegistry) (xs : List Nat) (h : ChainLink r xs) :
    ∀ a0 l2, xs = a0 :: l2 → ∀ k ∈ l2,
      ∃ prev np nk pre post, xs = pre ++ prev :: k :: post ∧
        r.get prev = some np ∧ np.parentNodeId = some k ∧
        r.get k = some nk ∧ prev ∈ kidsOf nk ∧ nk.isExpanded = true ∧
        nk.childState = ChildState.RESOLVED := by
  induction h with
  | single a n hget hpar =>
    intro a0 l2 heq k hk
    injection heq with e1 e2
    rw [← e2] at hk
    simp at hk
  | cons a n b nb l hget hpar hgetb hmem hexp hres hcl ih =>
    intro a0 l2 heq k hk
    injection heq with e1 e2
    rw [← e2] at hk
    rcases List.mem_cons.mp hk with h1 | h1
    · subst h1
      exact ⟨a, n, nb, [], l, rfl, hget, hpar, hgetb, hmem, hexp, hres⟩
    · rcases ih b l rfl k h1 with ⟨prev, np, nk, pre, post, hdec, hg1, hp1, hg2, hm2, he2, hr2⟩
      exact ⟨prev, np, nk, a :: pre, post, by rw [List.cons_append, ← hdec], hg1, hp1,
        hg2, hm2, he2, hr2⟩

theorem propagateLoop_none (delta : Int) (fuel : Nat) (r : NodeRegistry) :
    propagateLoop delta fuel r none = some r := by
  cases fuel <;> rfl

theorem propagateLoop_some (delta : Int) (f : Nat) (r : NodeRegistry) (cur : NodeMetadata) :
    propagateLoop delta (f + 1) r (some cur) =
      propagateLoop delta f
        (r.set cur.nodeId { cur with visibleSubtreeSize := cur.visibleSubtreeSize + delta })
        (if truthyId cur.parentNodeId then
          (r.set cur.nodeId
            { cur with visibleSubtreeSize := cur.visibleSubtreeSize + delta }).get
            (cur.parentNodeId.getD 0)
         else none) := rfl

/-- Exact effect of the propagation walk along an up-chain: every chain
record gains `delta`, everything else is untouched. -/
theorem propagateLoop_chain (delta : Int) :
    ∀ (l : List Nat) (fuel : Nat) (r : NodeRegistry) (b : Nat) (tl : List Nat),
      l = b :: tl → UpChain r l → l.Nodup → KeyId r → l.length ≤ fuel →
      ∃ r2, propagateLoop delta fuel r (r.get b) = some r2 ∧
        r2.rootId = r.rootId ∧ keysOf r2 = keysOf r ∧
        (∀ k, k ∉ l → r2.get k = r.get k) ∧
        (∀ k ∈ l, ∃ n, r.get k = some n ∧
          r2.get k = some { n with visibleSubtreeSize := n.visibleSubtreeSize + delta }) := by
  intro l
  induction l with
  | nil =>
    intro fuel r b tl heq
    exact absurd heq (Ne.symm (List.cons_ne_nil b tl))
  | cons a rest ih =>
    intro fuel r b tl heq hup hnd hkey hlen
    injection heq with e1 e2
    subst e1
    subst e2
    have hamem0 : ∀ n, r.get a = some n → a ∈ keysOf r := by
      intro n hg
      exact (get_isSome_iff_mem_keys r a).mp (by rw [hg]; rfl)
    cases fuel with
    | zero =>
      exfalso
      simp only [List.length_cons] at hlen
      omega
    | succ f =>
      cases hup with
      | last a2 n hget hpar =>
        have hid := keyId_of_get r a n hkey hget
        rw [hget, propagateLoop_some, hpar, if_neg (by simp), propagateLoop_none]
        have hmem1 : n.nodeId ∈ keysOf r := by
          rw [hid]
          exact hamem0 n hget
        refine ⟨_, rfl, rootId_set r n.nodeId _, keysOf_set_mem r n.nodeId _ hmem1, ?_, ?_⟩
        · intro k hk
          have hka : k ≠ a := fun he => hk (by rw [he]; exact List.mem_singleton.mpr rfl)
          exact get_set_ne r n.nodeId k _ (fun he => hka (he.trans hid))
        · intro k hk
          rw [List.mem_singleton] at hk
          subst hk
          refine ⟨n, hget, ?_⟩
          rw [← hid]
          exact get_set_self r n.nodeId _
      | cons a2 n b2 l2 hget hpar hb hrest =>
        have hid := keyId_of_get r a n hkey hget
        rw [hget, propagateLoop_some]
        have htr2 : truthyId n.parentNodeId = true := by
          rw [hpar]
          simp [truthyId, hb]
        have hgd : n.parentNodeId.getD 0 = b2 := by
          rw [hpar]
          rfl
        rw [if_pos htr2, hgd]
        have hmem1 : n.nodeId ∈ keysOf r := by
          rw [hid]
          exact hamem0 n hget
        have hnb : a ∉ b2 :: l2 := (List.nodup_cons.mp hnd).1
        have hne1 : ∀ x, x ∈ b2 :: l2 → x ≠ n.nodeId := by
          intro x hx he
          exact hnb ((he.trans hid) ▸ hx)
        have hagree : ∀ x ∈ b2 :: l2,
            (r.set n.nodeId { n with visibleSubtreeSize := n.visibleSubtreeSize + delta }).get x =
              r.get x := by
          intro x hx
          exact get_set_ne r n.nodeId x _ (hne1 x hx)
        have hup1 := upChain_congr r _ (b2 :: l2) hrest hagree
        have hlen1 : (b2 :: l2).length ≤ f := by
          simp only [List.length_cons] at hlen ⊢
          omega
        obtain ⟨r2, hrun, hroot, hkeys, hoff, hon⟩ :=
          ih f (r.set n.nodeId { n with visibleSubtreeSize := n.visibleSubtreeSize + delta })
            b2 l2 rfl hup1 (List.nodup_cons.mp hnd).2 (keyId_set r n.nodeId _ hkey rfl) hlen1
        refine ⟨r2, hrun, ?_, ?_, ?_, ?_⟩
        · rw [hroot, rootId_set]
        · rw [hkeys, keysOf_set_mem r n.nodeId _ hmem1]
        · intro k hk
          have hk1 : k ∉ b2 :: l2 := fun hm => hk (List.mem_cons_of_mem a hm)
          have hka : k ≠ a := fun he => hk (by rw [he]; exact List.mem_cons_self a (b2 :: l2))
          rw [hoff k hk1, get_set_ne r n.nodeId k _ (fun he => hka (he.trans hid))]
        · intro k hk
          rcases List.mem_cons.mp hk with h1 | h1
          · subst h1
            refine ⟨n, hget, ?_⟩
            rw [hoff k hnb, ← hid]
            exact get_set_self r n.nodeId _
          · obtain ⟨nk, hk1, hk2⟩ := hon k h1
            refine ⟨nk, ?_, hk2⟩
            rw [← hk1, get_set_ne r n.nodeId k _ (hne1 k h1)]

theorem chainLink_mem_some (r : NodeRegistry) (xs : List Nat) (h : ChainLink r xs) :
    ∀ x ∈ xs, ∃ n, r.get x = some n := by
  induction h with
  | single a n hget hpar =>
    intro x hx
    rw [List.mem_singleton] at hx
    subst hx
    exact ⟨n, hget⟩
  | cons a n b nb l hget hpar hgetb hmem hexp hres hcl ih =>
    intro x hx
    rcases List.mem_cons.mp hx with h1 | h1
    · subst h1
      exact ⟨n, hget⟩
    · exact ih x h1

theorem chainLink_tail (r : NodeRegistry) (a : Nat) (l : List Nat)
    (h : ChainLink r (a :: l)) (hne : l ≠ []) : ChainLink r l := by
  cases h with
  | single a2 n hg hp => exact absurd rfl hne
  | cons a2 n b nb l3 hg hp hgb hm he2 hr2 hsub => exact hsub

/-- A registered child of a node that is outside the chain, the chain's
head, or a chain element other than its chain predecessor, lies outside
the chain. -/
theorem chain_kid_off (r : NodeRegistry) (site : Nat) (l : List Nat)
    (hCL : ChainLink r (site :: l)) (hnd : (site :: l).Nodup)
    (k d : Nat) (nd : NodeMetadata) (hgetd : r.get d = some nd)
    (hpard : nd.parentNodeId = some k)
    (hcase : k ∉ site :: l ∨ k = site ∨
      ∃ prev pre post, (site :: l) = pre ++ prev :: k :: post ∧ d ≠ prev) :
    d ∉ site :: l := by
  intro hdmem
  rcases chainLink_parent_decomp r (site :: l) hCL d hdmem nd hgetd with
    ⟨hp0, hrest0⟩ | ⟨k2, pre2, post2, nk2, hp2, hdec2, hg2, hm2, he2, hr2⟩
  · rw [hp0] at hpard
    exact Option.noConfusion hpard
  · rw [hpard] at hp2
    cases Option.some.inj hp2
    rcases hcase with hko | hko | ⟨prev, pre, post, hdec, hdprev⟩
    · exact hko (by
        rw [hdec2]
        exact List.mem_append_right _ (List.mem_cons_of_mem d (List.mem_cons_self k post2)))
    · subst hko
      exact cons_nodup_no_inner k d l pre2 post2 hnd hdec2
    · exact hdprev (pred_unique k pre2 (site :: l) d prev post2 pre post hnd hdec2 hdec)

theorem recalculateSubtreeSize_eq (r : NodeRegistry) (site : Nat) (node : NodeMetadata)
    (hget : r.get site = some node) :
    recalculateSubtreeSize r site =
      (tSize r node, r.set site { node with visibleSubtreeSize := tSize r node }) := by
  unfold recalculateSubtreeSize tSize
  rw [hget]
  dsimp only
  by_cases hc : node.isExpanded = true ∧ node.childState = ChildState.RESOLVED
  · rw [if_pos hc]
    by_cases hk : node.childNodeIds = none
    · rw [if_pos (Or.inr (Or.inr hk))]
      simp [kidsOf, hk, sumChildSizes]
    · rw [if_neg (by push_neg; exact ⟨hc.1, hc.2, hk⟩)]
      rfl
  · have hsrc : ¬node.isExpanded = true ∨ node.childState ≠ ChildState.RESOLVED ∨
        node.childNodeIds = none := by
      rcases not_and_or.mp hc with h | h
      · exact Or.inl h
      · exact Or.inr (Or.inl h)
    rw [if_neg hc, if_pos hsrc]

/-- Finisher for the master preservation lemma: from the exact effect of
a recalculation at the chain's foot plus a delta on every chain record,
rebuild the size invariant at every node. -/
theorem sizeInv_of_char (r r' : NodeRegistry) (site : Nat) (l : List Nat)
    (node : NodeMetadata) (delta : Int) (hswf : SWF r)
    (hCL : ChainLink r (site :: l)) (hnd : (site :: l).Nodup)
    (hinv : InvExcept r site) (hget : r.get site = some node)
    (hkeys2 : keysOf r' = keysOf r)
    (hoff : ∀ k, k ∉ site :: l → r'.get k = r.get k)
    (hsite : r'.get site = some { node with visibleSubtreeSize := tSize r node })
    (hon : ∀ k ∈ l, ∃ nk, r.get k = some nk ∧
      r'.get k = some { nk with visibleSubtreeSize := nk.visibleSubtreeSize + delta })
    (hdelta : tSize r node = node.visibleSubtreeSize + delta) :
    SizeInv r' := by
  obtain ⟨hkeysnd, hkey, hzero, hlink, hkidsnd⟩ := hswf
  intro q hq
  obtain ⟨k, nk2⟩ := q
  have hget2 : r'.get k = some nk2 :=
    mem_get r' (by rw [hkeys2]; exact hkeysnd) k nk2 hq
  have hsized : ∀ d (nd : NodeMetadata) (kk : Nat), r.get d = some nd →
      nd.parentNodeId = some kk →
      (kk ∉ site :: l ∨ kk = site ∨
        ∃ prev pre post, (site :: l) = pre ++ prev :: kk :: post ∧ d ≠ prev) →
      optSize (r'.get d) = optSize (r.get d) := by
    intro d nd kk hgd hpard hcase
    rw [hoff d (chain_kid_off r site l hCL hnd kk d nd hgd hpard hcase)]
  have hprevopt : ∀ prev ∈ site :: l, optSize (r'.get prev) = optSize (r.get prev) + delta := by
    intro prev hpm
    rcases List.mem_cons.mp hpm with h1 | h1
    · subst h1
      rw [hsite, hget]
      exact hdelta
    · obtain ⟨nprev, hq1, hq2⟩ := hon prev h1
      rw [hq1, hq2]
      rfl
  by_cases hks : k = site
  · subst hks
    rw [hsite] at hget2
    have he := Option.some.inj hget2
    rw [← he]
    refine ⟨fun hc => ?_, fun hc => ?_⟩
    · have hc' : node.isExpanded = true ∧ node.childState = ChildState.RESOLVED := hc
      show tSize r node = 1 + sumChildSizes r' (kidsOf node)
      unfold tSize
      rw [if_pos hc']
      have hsame : ∀ d ∈ kidsOf node, optSize (r'.get d) = optSize (r.get d) := by
        intro d hd
        cases hgd : r.get d with
        | none =>
          have hdnot : d ∉ k :: l := by
            intro hm
            obtain ⟨ndx, hndx⟩ := chainLink_mem_some r (k :: l) hCL d hm
            rw [hgd] at hndx
            exact Option.noConfusion hndx
          rw [hoff d hdnot, hgd]
        | some nd =>
          have hpard := hlink (k, node) (get_mem r k node hget) d hd
          rw [hgd] at hpard
          simp only [exOpt_some] at hpard
          rw [← hgd]
          exact hsized d nd k hgd hpard (Or.inr (Or.inl rfl))
      rw [sumChildSizes_congr r r' (kidsOf node) hsame]
    · have hc' : ¬(node.isExpanded = true ∧ node.childState = ChildState.RESOLVED) := hc
      show tSize r node = 1
      unfold tSize
      rw [if_neg hc']
  · by_cases hkl : k ∈ l
    · obtain ⟨nk, hr1, hr2⟩ := hon k hkl
      rw [hr2] at hget2
      have he := Option.some.inj hget2
      rw [← he]
      obtain ⟨prev, np, nkk, pre, post, hdec, hgp, hpp, hgk, hprevmem, hexpk, hresk⟩ :=
        chainLink_pred r (site :: l) hCL site l rfl k hkl
      have hnkk : nkk = nk := Option.some.inj (hgk.symm.trans hr1)
      rw [hnkk] at hprevmem hexpk hresk
      have hold : InvAt r nk := hinv k nk hr1 hks
      refine ⟨fun hc => ?_, fun hc => absurd ⟨hexpk, hresk⟩ hc⟩
      show nk.visibleSubtreeSize + delta = 1 + sumChildSizes r' (kidsOf nk)
      have hsum_old : nk.visibleSubtreeSize = 1 + sumChildSizes r (kidsOf nk) :=
        hold.1 ⟨hexpk, hresk⟩
      have hkidnodup : (kidsOf nk).Nodup := hkidsnd (k, nk) (get_mem r k nk hr1)
      have hothers : ∀ d ∈ kidsOf nk, d ≠ prev → optSize (r'.get d) = optSize (r.get d) := by
        intro d hd hdp
        cases hgd : r.get d with
        | none =>
          have hdnot : d ∉ site :: l := by
            intro hm
            obtain ⟨ndx, hndx⟩ := chainLink_mem_some r (site :: l) hCL d hm
            rw [hgd] at hndx
            exact Option.noConfusion hndx
          rw [hoff d hdnot, hgd]
        | some nd =>
          have hpard := hlink (k, nk) (get_mem r k nk hr1) d hd
          rw [hgd] at hpard
          simp only [exOpt_some] at hpard
          rw [← hgd]
          exact hsized d nd k hgd hpard (Or.inr (Or.inr ⟨prev, pre, post, hdec, hdp⟩))
      have hpo : optSize (r'.get prev) = optSize (r.get prev) + delta := by
        apply hprevopt
        rw [hdec]
        exact List.mem_append_right _ (List.mem_cons_self _ _)
      have hupd := sumChildSizes_update r r' (kidsOf nk) prev delta hkidnodup hprevmem hothers hpo
      rw [hupd, hsum_old]
      ring
    · have hknot : k ∉ site :: l := by
        intro hm
        rcases List.mem_cons.mp hm with h1 | h1
        · exact hks h1
        · exact hkl h1
      rw [hoff k hknot] at hget2
      have hold : InvAt r nk2 := hinv k nk2 hget2 hks
      refine ⟨fun hc => ?_, fun hc => hold.2 hc⟩
      rw [hold.1 hc]
      have hsame : ∀ d ∈ kidsOf nk2, optSize (r'.get d) = optSize (r.get d) := by
        intro d hd
        cases hgd : r.get d with
        | none =>
          have hdnot : d ∉ site :: l := by
            intro hm
            obtain ⟨ndx, hndx⟩ := chainLink_mem_some r (site :: l) hCL d hm
            rw [hgd] at hndx
            exact Option.noConfusion hndx
          rw [hoff d hdnot, hgd]
        | some nd =>
          have hpard := hlink (k, nk2) (get_mem r k nk2 hget2) d hd
          rw [hgd] at hpard
          simp only [exOpt_some] at hpard
          rw [← hgd]
          exact hsized d nd k hgd hpard (Or.inl hknot)
      rw [sumChildSizes_congr r r' (kidsOf nk2) hsame]

/-- Master preservation lemma: recalculating sizes at a node all of whose
proper ancestors form a witnessed visible path, then propagating the
delta, restores the size invariant, provided it held at every other node
beforehand. -/
theorem recalcProp_sizeInv (r : NodeRegistry) (site : Nat) (l : List Nat) (s : Int)
    (r' : NodeRegistry) (hswf : SWF r) (hvp : VisPath r site l)
    (hnd : (site :: l).Nodup) (hinv : InvExcept r site)
    (hrec : recalculateAndPropagate r site = some (s, r')) :
    SizeInv r' := by
  obtain ⟨node, hget⟩ := visPath_get r site l hvp
  have hCL := visPath_chainLink r site l hvp
  have hzero := hswf.2.2.1
  have hsitekeys : site ∈ keysOf r := (get_isSome_iff_mem_keys r site).mp (by rw [hget]; rfl)
  unfold recalculateAndPropagate at hrec
  rw [hget] at hrec
  dsimp only at hrec
  rw [recalculateSubtreeSize_eq r site node hget] at hrec
  dsimp only at hrec
  cases hps : propagateSizeChange (r.set site { node with visibleSubtreeSize := tSize r node })
      site (tSize r node - node.visibleSubtreeSize) with
  | none =>
    rw [hps] at hrec
    exact Option.noConfusion hrec
  | some r2 =>
    rw [hps] at hrec
    have hpr := Option.some.inj hrec
    rw [Prod.mk.injEq] at hpr
    obtain ⟨hs, hr2⟩ := hpr
    subst hr2
    unfold propagateSizeChange at hps
    by_cases hd : tSize r node - node.visibleSubtreeSize = 0
    · rw [if_pos hd] at hps
      cases Option.some.inj hps
      apply sizeInv_of_char r _ site l node (tSize r node - node.visibleSubtreeSize) hswf hCL
        hnd hinv hget
      · exact keysOf_set_mem r site _ hsitekeys
      · intro k hk
        have hka : k ≠ site := fun he => hk (by rw [he]; exact List.mem_cons_self _ _)
        exact get_set_ne r site k _ hka
      · exact get_set_self r site _
      · intro k hk
        have hka : k ≠ site := fun he => (List.nodup_cons.mp hnd).1 (he ▸ hk)
        cases hgk : r.get k with
        | none =>
          exfalso
          obtain ⟨nx, hnx⟩ := chainLink_mem_some r (site :: l) hCL k (List.mem_cons_of_mem site hk)
          rw [hgk] at hnx
          exact Option.noConfusion hnx
        | some nk =>
          refine ⟨nk, rfl, ?_⟩
          rw [get_set_ne r site k _ hka, hgk]
          have hz2 : nk.visibleSubtreeSize + (tSize r node - node.visibleSubtreeSize) =
              nk.visibleSubtreeSize := by omega
          rw [hz2]
      · omega
    · rw [if_neg hd] at hps
      rw [get_set_self] at hps
      dsimp only at hps
      cases hvp with
      | root rt nr hroot hgetr hparr =>
        rw [hget] at hgetr
        cases Option.some.inj hgetr
        have htr0 : truthyId node.parentNodeId = false := by
          rw [hparr]
          rfl
        rw [htr0, if_neg (by simp), propagateLoop_none] at hps
        cases Option.some.inj hps
        apply sizeInv_of_char r _ site [] node (tSize r node - node.visibleSubtreeSize) hswf hCL
          hnd hinv hget
        · exact keysOf_set_mem r site _ hsitekeys
        · intro k hk
          have hka : k ≠ site := fun he => hk (by rw [he]; exact List.mem_cons_self _ _)
          exact get_set_ne r site k _ hka
        · exact get_set_self r site _
        · intro k hk
          simp at hk
        · omega
      | child pid np c0 cn l2 hsub hgetp hexp hres hmem hgetc hparc =>
        rw [hget] at hgetc
        cases Option.some.inj hgetc
        have hpid0 : pid ≠ 0 := hzero (pid, np) (get_mem r pid np hgetp)
        have htr2 : truthyId node.parentNodeId = true := by
          rw [hparc]
          simp [truthyId, hpid0]
        have hgd2 : node.parentNodeId.getD 0 = pid := by
          rw [hparc]
          rfl
        rw [if_pos htr2, hgd2] at hps
        have hsubCL : ChainLink r (pid :: l2) :=
          chainLink_tail r site (pid :: l2) hCL (List.cons_ne_nil pid l2)
        have hup0 : UpChain r (pid :: l2) := chainLink_upChain r hzero _ hsubCL
        have hndtail : (pid :: l2).Nodup := (List.nodup_cons.mp hnd).2
        have hsitenot : site ∉ pid :: l2 := (List.nodup_cons.mp hnd).1
        have hup1 : UpChain (r.set site { node with visibleSubtreeSize := tSize r node })
            (pid :: l2) :=
          upChain_congr r _ _ hup0
            (fun x hx => get_set_ne r site x _ (fun he => hsitenot (he ▸ hx)))
        have hlen : (pid :: l2).length ≤
            (r.set site { node with visibleSubtreeSize := tSize r node }).size + 1 := by
          have hsubset : (pid :: l2) ⊆
              keysOf (r.set site { node with visibleSubtreeSize := tSize r node }) := by
            intro x hx
            obtain ⟨nx, hnx⟩ := upChain_mem_some _ _ hup1 x hx
            exact (get_isSome_iff_mem_keys _ x).mp (by rw [hnx]; rfl)
          have hsp := (List.Nodup.subperm hndtail hsubset).length_le
          have hkl2 : (keysOf (r.set site
              { node with visibleSubtreeSize := tSize r node })).length =
              (r.set site { node with visibleSubtreeSize := tSize r node }).size := by
            simp [keysOf, NodeRegistry.size]
          omega
        obtain ⟨r2x, hrun, hroot2, hkeys2, hoff2, hon2⟩ :=
          propagateLoop_chain (tSize r node - node.visibleSubtreeSize) (pid :: l2)
            ((r.set site { node with visibleSubtreeSize := tSize r node }).size + 1)
            (r.set site { node with visibleSubtreeSize := tSize r node }) pid l2 rfl hup1
            hndtail (keyId_set r site _ hswf.2.1 (keyId_of_get r site node hswf.2.1 hget)) hlen
        have hr2x : r2x = r2 := Option.some.inj (hrun.symm.trans hps)
        subst hr2x
        apply sizeInv_of_char r _ site (pid :: l2) node
          (tSize r node - node.visibleSubtreeSize) hswf hCL hnd hinv hget
        · rw [hkeys2]
          exact keysOf_set_mem r site _ hsitekeys
        · intro k hk
          have hktail : k ∉ pid :: l2 := fun hm => hk (List.mem_cons_of_mem site hm)
          have hka : k ≠ site := fun he => hk (by rw [he]; exact List.mem_cons_self _ _)
          rw [hoff2 k hktail, get_set_ne r site k _ hka]
        · rw [hoff2 site hsitenot]
          exact get_set_self r site _
        · intro k hk
          obtain ⟨nk, h1, h2⟩ := hon2 k hk
          refine ⟨nk, ?_, h2⟩
          have hka : k ≠ site := fun he => hsitenot (he ▸ hk)
          rw [← h1, get_set_ne r site k _ hka]
        · omega

theorem invExcept_of_sizeInv (r : NodeRegistry) (h : SizeInv r) (site : Nat) :
    InvExcept r site :=
  fun id n hget hne => h (id, n) (get_mem r id n hget)

theorem invAt_congr (r r' : NodeRegistry) (n : NodeMetadata)
    (h : InvAt r n) (hs : ∀ c ∈ kidsOf n, optSize (r'.get c) = optSize (r.get c)) :
    InvAt r' n :=
  ⟨fun hc => by rw [h.1 hc, sumChildSizes_congr r r' (kidsOf n) hs], h.2⟩

/-- Replacing one record without changing its size keeps the whole size
invariant, provided the new record satisfies its own clause. -/
theorem sizeInv_set_flags (r : NodeRegistry) (id : Nat) (node b : NodeMetadata)
    (hnd : (keysOf r).Nodup) (hget : r.get id = some node)
    (hsz : b.visibleSubtreeSize = node.visibleSubtreeSize)
    (hinvb : InvAt (r.set id b) b) (hinv : SizeInv r) : SizeInv (r.set id b) := by
  intro q hq
  obtain ⟨k, nk⟩ := q
  have hget2 : (r.set id b).get k = some nk :=
    mem_get _ (nodup_keysOf_set r id b hnd) k nk hq
  by_cases hk : k = id
  · subst hk
    rw [get_set_self] at hget2
    cases Option.some.inj hget2
    exact hinvb
  · rw [get_set_ne r id k b hk] at hget2
    have hold : InvAt r nk := hinv (k, nk) (get_mem r k nk hget2)
    refine invAt_congr r _ nk hold (fun c hc => ?_)
    rw [get_set r id c b]
    by_cases hc2 : c = id
    · rw [if_pos hc2, hc2, hget]
      exact hsz
    · rw [if_neg hc2]

theorem invExcept_set (r : NodeRegistry) (id : Nat) (node b : NodeMetadata)
    (hget : r.get id = some node) (hsz : b.visibleSubtreeSize = node.visibleSubtreeSize)
    (hinv : SizeInv r) : InvExcept (r.set id b) id := by
  intro k nk hget2 hk
  rw [get_set_ne r id k b hk] at hget2
  have hold : InvAt r nk := hinv (k, nk) (get_mem r k nk hget2)
  refine invAt_congr r _ nk hold (fun c hc => ?_)
  rw [get_set r id c b]
  by_cases hc2 : c = id
  · rw [if_pos hc2, hc2, hget]
    exact hsz
  · rw [if_neg hc2]

/-- Structural well-formedness survives replacing one record with the same
id and parent pointer, given the new child list is duplicate-free and
correctly back-pointed. -/
theorem swf_set_kids (r : NodeRegistry) (id : Nat) (node b : NodeMetadata)
    (hswf : SWF r) (hget : r.get id = some node)
    (hid : b.nodeId = node.nodeId) (hpar : b.parentNodeId = node.parentNodeId)
    (hbnd : (kidsOf b).Nodup)
    (hbl : ∀ c ∈ kidsOf b, ExOpt (r.get c) (fun cn => cn.parentNodeId = some id)) :
    SWF (r.set id b) := by
  obtain ⟨hnd, hkey, hzero, hlink, hknd⟩ := hswf
  have hmemk : id ∈ keysOf r := (get_isSome_iff_mem_keys r id).mp (by rw [hget]; rfl)
  refine ⟨by rw [keysOf_set_mem r id b hmemk]; exact hnd, ?_, ?_, ?_, ?_⟩
  · intro p hp
    rcases mem_setEntries r.nodes id b p hp with h | h
    · subst h
      show b.nodeId = id
      rw [hid]
      exact hkey (id, node) (get_mem r id node hget)
    · exact hkey p h
  · intro p hp
    rcases mem_setEntries r.nodes id b p hp with h | h
    · subst h
      exact hzero (id, node) (get_mem r id node hget)
    · exact hzero p h
  · intro p hp c hc
    have base : ExOpt (r.get c) (fun cn => cn.parentNodeId = some p.1) := by
      rcases mem_setEntries r.nodes id b p hp with h | h
      · subst h
        exact hbl c hc
      · exact hlink p h c hc
    rw [get_set r id c b]
    by_cases hcid : c = id
    · rw [if_pos hcid]
      rw [hcid, hget] at base
      simp only [exOpt_some] at base ⊢
      rw [hpar]
      exact base
    · rw [if_neg hcid]
      exact base
  · intro p hp
    rcases mem_setEntries r.nodes id b p hp with h | h
    · subst h
      exact hbnd
    · exact hknd p h

theorem swf_set_same (r : NodeRegistry) (id : Nat) (node b : NodeMetadata)
    (hswf : SWF r) (hget : r.get id = some node)
    (hid : b.nodeId = node.nodeId) (hpar : b.parentNodeId = node.parentNodeId)
    (hkids : b.childNodeIds = node.childNodeIds) : SWF (r.set id b) := by
  refine swf_set_kids r id node b hswf hget hid hpar ?_ ?_
  · show (kidsOf b).Nodup
    unfold kidsOf
    rw [hkids]
    exact hswf.2.2.2.2 (id, node) (get_mem r id node hget)
  · intro c hc
    have hc2 : c ∈ kidsOf node := by
      unfold kidsOf at hc ⊢
      rw [hkids] at hc
      exact hc
    have base := hswf.2.2.2.1 (id, node) (get_mem r id node hget) c hc2
    have hkid : node.nodeId = id := hswf.2.1 (id, node) (get_mem r id node hget)
    exact base

/-- A witnessed visible path survives any registry change that keeps the
root pointer, the ancestor records, and the foot's parent pointer. -/
theorem visPath_congr (r r' : NodeRegistry) (hroot : r'.rootId = r.rootId) :
    ∀ (v : Nat) (l : List Nat), VisPath r v l →
      (∀ x ∈ l, r'.get x = r.get x) →
      (∀ a, r.get v = some a → ∃ b, r'.get v = some b ∧ b.parentNodeId = a.parentNodeId) →
      VisPath r' v l := by
  intro v l h
  induction h with
  | root rt n hr hg hp =>
    intro hanc hv
    obtain ⟨b, hb1, hb2⟩ := hv n hg
    exact VisPath.root rt b (by rw [hroot, hr]) hb1 (by rw [hb2, hp])
  | child id n c cn l2 hsub hget hexp hres hmem hgetc hpar ih =>
    intro hanc hv
    have hid : r'.get id = r.get id := hanc id (List.mem_cons_self _ _)
    obtain ⟨b, hb1, hb2⟩ := hv cn hgetc
    refine VisPath.child id n c b l2 ?_ (by rw [hid]; exact hget) hexp hres hmem hb1
      (by rw [hb2, hpar])
    exact ih (fun x hx => hanc x (List.mem_cons_of_mem id hx))
      (fun a ha => ⟨a, by rw [hid]; exact ha, rfl⟩)

theorem visPath_depth_lt (r : NodeRegistry) (hwf : WF r) :
    ∀ (v : Nat) (l : List Nat), VisPath r v l → ∀ nv, r.get v = some nv →
      ∀ a ∈ l, ∀ na, r.get a = some na → na.depth < nv.depth := by
  intro v l h
  induction h with
  | root rt n hr hg hp =>
    intro nv hnv a ha
    simp at ha
  | child id n c cn l2 hsub hget hexp hres hmem hgetc hpar ih =>
    intro nv hnv a ha na hna
    rw [hgetc] at hnv
    cases Option.some.inj hnv
    obtain ⟨pn, hpn1, hpn2⟩ := WF_parent_depth r c cn id hwf hgetc hpar
    rw [hget] at hpn1
    cases Option.some.inj hpn1
    rcases List.mem_cons.mp ha with h1 | h1
    · subst h1
      rw [hget] at hna
      cases Option.some.inj hna
      omega
    · have := ih n hget a h1 na hna
      omega

theorem visPath_nodup (r : NodeRegistry) (hwf : WF r) :
    ∀ (v : Nat) (l : List Nat), VisPath r v l → (v :: l).Nodup := by
  intro v l h
  induction h with
  | root rt n hr hg hp => simp
  | child id n c cn l2 hsub hget hexp hres hmem hgetc hpar ih =>
    rw [List.nodup_cons]
    refine ⟨?_, ih⟩
    intro hc
    have hlt := visPath_depth_lt r hwf c (id :: l2)
      (VisPath.child id n c cn l2 hsub hget hexp hres hmem hgetc hpar) cn hgetc c hc cn hgetc
    exact absurd hlt (lt_irrefl _)

/-- Every visible node admits a witnessed visible path. -/
theorem visible_visPath (r : NodeRegistry) (hwf : WF r) (v : Nat) (h : Visible r v) :
    ∃ l, VisPath r v l := by
  induction h with
  | root rt hr =>
    have hroot := hwf.2.1
    rw [hr] at hroot
    simp only [allOpt_some] at hroot
    cases hg : r.get rt with
    | none =>
      rw [hg] at hroot
      exact hroot.elim
    | some n =>
      rw [hg] at hroot
      simp only [exOpt_some] at hroot
      exact ⟨[], VisPath.root rt n hr hg hroot.1⟩
  | child id n c hvis hget hexp hres hmem ih =>
    obtain ⟨l, hl⟩ := ih
    have hlink := hwf.1.2.2.2.1 (id, n) (get_mem r id n hget) c hmem
    cases hgc : r.get c with
    | none =>
      rw [hgc] at hlink
      exact hlink.elim
    | some cn =>
      rw [hgc] at hlink
      simp only [exOpt_some] at hlink
      exact ⟨id :: l, VisPath.child id n c cn l hl hget hexp hres hmem hgc hlink⟩

theorem spliceInsert_perm (l : List Nat) (idx : Int) (x : Nat) :
    List.Perm (spliceInsert l idx x) (x :: l) := by
  unfold spliceInsert
  refine List.perm_middle.trans ?_
  rw [List.take_append_drop]

theorem spliceInsert_nodup (l : List Nat) (idx : Int) (x : Nat) (hnd : l.Nodup) (hx : x ∉ l) :
    (spliceInsert l idx x).Nodup :=
  (spliceInsert_perm l idx x).nodup_iff.mpr (List.nodup_cons.mpr ⟨hx, hnd⟩)

theorem mem_spliceInsert (l : List Nat) (idx : Int) (x c : Nat) (h : c ∈ spliceInsert l idx x) :
    c = x ∨ c ∈ l :=
  List.mem_cons.mp ((spliceInsert_perm l idx x).mem_iff.mp h)

theorem mem_spliceInsert_of (l : List Nat) (idx : Int) (x c : Nat) (h : c = x ∨ c ∈ l) :
    c ∈ spliceInsert l idx x :=
  (spliceInsert_perm l idx x).mem_iff.mpr (List.mem_cons.mpr h)

/-- The size invariant is preserved by `expand` at a visible node. -/
theorem sizeInv_expand (r : NodeRegistry) (nodeId : Nat) (res : ExpandResult)
    (r' : NodeRegistry) (hwf : WF r) (hinv : SizeInv r) (hvis : Visible r nodeId)
    (h : expand r nodeId = some (res, r')) : SizeInv r' := by
  have hswf := hwf.1
  unfold expand at h
  cases hget : r.get nodeId with
  | none =>
    rw [hget] at h
    dsimp only at h
    have h2 := Option.some.inj h
    rw [Prod.mk.injEq] at h2
    rw [← h2.2]
    exact hinv
  | some node =>
    rw [hget] at h
    dsimp only at h
    by_cases hexp : node.isExpanded = true
    · rw [if_pos hexp] at h
      have h2 := Option.some.inj h
      rw [Prod.mk.injEq] at h2
      rw [← h2.2]
      exact hinv
    · rw [if_neg hexp] at h
      have hsz1 : node.visibleSubtreeSize = 1 :=
        (hinv (nodeId, node) (get_mem r nodeId node hget)).2 (fun hcc => hexp hcc.1)
      by_cases hu : node.childState = ChildState.UNRESOLVED
      · rw [if_pos hu] at h
        have h2 := Option.some.inj h
        rw [Prod.mk.injEq] at h2
        rw [← h2.2]
        refine sizeInv_set_flags r nodeId node _ hswf.1 hget rfl ?_ hinv
        exact ⟨fun hc => ChildState.noConfusion hc.2, fun hc => hsz1⟩
      · rw [if_neg hu] at h
        by_cases hee : node.childState = ChildState.EMPTY ∨ node.childState = ChildState.ERROR
        · rw [if_pos hee] at h
          have h2 := Option.some.inj h
          rw [Prod.mk.injEq] at h2
          rw [← h2.2]
          refine sizeInv_set_flags r nodeId node _ hswf.1 hget rfl ?_ hinv
          refine ⟨fun hc => ?_, fun hc => hsz1⟩
          have hres2 : node.childState = ChildState.RESOLVED := hc.2
          rcases hee with he1 | he1
          · rw [he1] at hres2
            exact absurd hres2 (by decide)
          · rw [he1] at hres2
            exact absurd hres2 (by decide)
        · rw [if_neg hee] at h
          cases hrec : recalculateAndPropagate (r.set nodeId { node with isExpanded := true })
              nodeId with
          | none =>
            rw [hrec] at h
            exact Option.noConfusion h
          | some p =>
            rw [hrec] at h
            dsimp only at h
            have h2 := Option.some.inj h
            rw [Prod.mk.injEq] at h2
            rw [← h2.2]
            obtain ⟨l, hvp⟩ := visible_visPath r hwf nodeId hvis
            have hnd2 : (nodeId :: l).Nodup := visPath_nodup r hwf nodeId l hvp
            have hswf1 : SWF (r.set nodeId { node with isExpanded := true }) :=
              swf_set_same r nodeId node _ hswf hget rfl rfl rfl
            have hvp1 : VisPath (r.set nodeId { node with isExpanded := true }) nodeId l := by
              refine visPath_congr r _ (rootId_set r nodeId _) nodeId l hvp ?_ ?_
              · intro x hx
                exact get_set_ne r nodeId x _
                  (fun he => (List.nodup_cons.mp hnd2).1 (he ▸ hx))
              · intro a ha
                rw [hget] at ha
                cases Option.some.inj ha
                exact ⟨_, get_set_self r nodeId _, rfl⟩
            have hie : InvExcept (r.set nodeId { node with isExpanded := true }) nodeId :=
              invExcept_set r nodeId node _ hget rfl hinv
            exact recalcProp_sizeInv _ nodeId l p.1 p.2 hswf1 hvp1 hnd2 hie (by rw [hrec])

/-- The size invariant is preserved by `collapse` at a visible node. -/
theorem sizeInv_collapse (r : NodeRegistry) (nodeId : Nat) (b : Bool) (r' : NodeRegistry)
    (hwf : WF r) (hinv : SizeInv r) (hvis : Visible r nodeId)
    (h : collapse r nodeId = some (b, r')) : SizeInv r' := by
  have hswf := hwf.1
  unfold collapse at h
  cases hget : r.get nodeId with
  | none =>
    rw [hget] at h
    dsimp only at h
    have h2 := Option.some.inj h
    rw [Prod.mk.injEq] at h2
    rw [← h2.2]
    exact hinv
  | some node =>
    rw [hget] at h
    dsimp only at h
    by_cases hexp : ¬node.isExpanded = true
    · rw [if_pos hexp] at h
      have h2 := Option.some.inj h
      rw [Prod.mk.injEq] at h2
      rw [← h2.2]
      exact hinv
    · rw [if_neg hexp] at h
      cases hrec : recalculateAndPropagate (r.set nodeId { node with isExpanded := false })
          nodeId with
      | none =>
        rw [hrec] at h
        exact Option.noConfusion h
      | some p =>
        rw [hrec] at h
        simp only [Option.map_some'] at h
        have h2 := Option.some.inj h
        rw [Prod.mk.injEq] at h2
        rw [← h2.2]
        obtain ⟨l, hvp⟩ := visible_visPath r hwf nodeId hvis
        have hnd2 : (nodeId :: l).Nodup := visPath_nodup r hwf nodeId l hvp
        have hswf1 : SWF (r.set nodeId { node with isExpanded := false }) :=
          swf_set_same r nodeId node _ hswf hget rfl rfl rfl
        have hvp1 : VisPath (r.set nodeId { node with isExpanded := false }) nodeId l := by
          refine visPath_congr r _ (rootId_set r nodeId _) nodeId l hvp ?_ ?_
          · intro x hx
            exact get_set_ne r nodeId x _
              (fun he => (List.nodup_cons.mp hnd2).1 (he ▸ hx))
          · intro a ha
            rw [hget] at ha
            cases Option.some.inj ha
            exact ⟨_, get_set_self r nodeId _, rfl⟩
        have hie : InvExcept (r.set nodeId { node with isExpanded := false }) nodeId :=
          invExcept_set r nodeId node _ hget rfl hinv
        exact recalcProp_sizeInv _ nodeId l p.1 p.2 hswf1 hvp1 hnd2 hie (by rw [hrec])

/-- The size invariant is preserved by `completeExpand` at a visible
loading node whose provided children are registered, distinct, and point
back at it. -/
theorem sizeInv_completeExpand (r : NodeRegistry) (nodeId : Nat) (kids : List Nat)
    (err : Option String) (r' : NodeRegistry) (hwf : WF r) (hinv : SizeInv r)
    (hvis : Visible r nodeId)
    (hload : ∀ n, r.get nodeId = some n → n.childState = ChildState.LOADING)
    (hknd : kids.Nodup)
    (hkpar : ∀ c ∈ kids, ExOpt (r.get c) (fun cn => cn.parentNodeId = some nodeId))
    (h : completeExpand r nodeId kids err = some r') : SizeInv r' := by
  have hswf := hwf.1
  unfold completeExpand at h
  cases hget : r.get nodeId with
  | none =>
    rw [hget] at h
    dsimp only at h
    rw [← Option.some.inj h]
    exact hinv
  | some node =>
    rw [hget] at h
    dsimp only at h
    have hstate := hload node hget
    have hsz1 : node.visibleSubtreeSize = 1 := by
      refine (hinv (nodeId, node) (get_mem r nodeId node hget)).2 ?_
      intro hcc
      have := hcc.2
      rw [hstate] at this
      exact absurd this (by decide)
    by_cases herr : err.isSome = true
    · rw [if_pos herr] at h
      rw [← Option.some.inj h]
      refine sizeInv_set_flags r nodeId node _ hswf.1 hget rfl ?_ hinv
      exact ⟨fun hc => ChildState.noConfusion hc.2, fun hc => hsz1⟩
    · rw [if_neg herr] at h
      by_cases hlen : kids.length = 0
      · rw [if_pos hlen] at h
        rw [← Option.some.inj h]
        refine sizeInv_set_flags r nodeId node _ hswf.1 hget rfl ?_ hinv
        exact ⟨fun hc => ChildState.noConfusion hc.2, fun hc => hsz1⟩
      · rw [if_neg hlen] at h
        cases hrec : recalculateAndPropagate (r.set nodeId
            { node with childState := ChildState.RESOLVED,
                        childNodeIds := some kids, isExpanded := true }) nodeId with
        | none =>
          rw [hrec] at h
          exact Option.noConfusion h
        | some p =>
          rw [hrec] at h
          simp only [Option.map_some'] at h
          rw [← Option.some.inj h]
          obtain ⟨l, hvp⟩ := visible_visPath r hwf nodeId hvis
          have hnd2 : (nodeId :: l).Nodup := visPath_nodup r hwf nodeId l hvp
          have hswf1 : SWF (r.set nodeId
              { node with childState := ChildState.RESOLVED,
                          childNodeIds := some kids, isExpanded := true }) :=
            swf_set_kids r nodeId node _ hswf hget rfl rfl hknd hkpar
          have hvp1 : VisPath (r.set nodeId
              { node with childState := ChildState.RESOLVED,
                          childNodeIds := some kids, isExpanded := true }) nodeId l := by
            refine visPath_congr r _ (rootId_set r nodeId _) nodeId l hvp ?_ ?_
            · intro x hx
              exact get_set_ne r nodeId x _
                (fun he => (List.nodup_cons.mp hnd2).1 (he ▸ hx))
            · intro a ha
              rw [hget] at ha
              cases Option.some.inj ha
              exact ⟨_, get_set_self r nodeId _, rfl⟩
          have hie : InvExcept (r.set nodeId
              { node with childState := ChildState.RESOLVED,
                          childNodeIds := some kids, isExpanded := true }) nodeId :=
            invExcept_set r nodeId node _ hget rfl hinv
          exact recalcProp_sizeInv _ nodeId l p.1 p.2 hswf1 hvp1 hnd2 hie (by rw [hrec])

/-- The size invariant is preserved by `insertNode` under a visible parent
when the new node's stored parent matches and it is not already listed. -/
theorem sizeInv_insertNode (r : NodeRegistry) (parentId newNodeId : Nat) (idx : Option Int)
    (b : Bool) (r' : NodeRegistry) (hwf : WF r) (hinv : SizeInv r) (hvis : Visible r parentId)
    (hnotkid : ∀ pn, r.get parentId = some pn → newNodeId ∉ kidsOf pn)
    (h : insertNode r parentId newNodeId idx = some (b, r')) : SizeInv r' := by
  have hswf := hwf.1
  unfold insertNode at h
  cases hgp : r.get parentId with
  | none =>
    rw [hgp] at h
    cases hgn : r.get newNodeId with
    | none =>
      rw [hgn] at h
      dsimp only at h
      have h2 := Option.some.inj h
      rw [Prod.mk.injEq] at h2
      rw [← h2.2]
      exact hinv
    | some newNode =>
      rw [hgn] at h
      dsimp only at h
      have h2 := Option.some.inj h
      rw [Prod.mk.injEq] at h2
      rw [← h2.2]
      exact hinv
  | some parent =>
    rw [hgp] at h
    cases hgn : r.get newNodeId with
    | none =>
      rw [hgn] at h
      dsimp only at h
      have h2 := Option.some.inj h
      rw [Prod.mk.injEq] at h2
      rw [← h2.2]
      exact hinv
    | some newNode =>
      rw [hgn] at h
      dsimp only at h
      by_cases hpar : newNode.parentNodeId ≠ some parentId
      · rw [if_pos hpar] at h
        have h2 := Option.some.inj h
        rw [Prod.mk.injEq] at h2
        rw [← h2.2]
        exact hinv
      · rw [if_neg hpar] at h
        have hpar2 : newNode.parentNodeId = some parentId := not_ne_iff.mp hpar
        have hkn : newNodeId ∉ kidsOf parent := hnotkid parent hgp
        have hpknd : (kidsOf parent).Nodup :=
          hswf.2.2.2.2 (parentId, parent) (get_mem r parentId parent hgp)
        have hk1nd : (spliceInsert (parent.childNodeIds.getD [])
            (idx.getD (parent.childNodeIds.getD []).length) newNodeId).Nodup :=
          spliceInsert_nodup _ _ _ hpknd hkn
        have hk1l : ∀ c ∈ spliceInsert (parent.childNodeIds.getD [])
            (idx.getD (parent.childNodeIds.getD []).length) newNodeId,
            ExOpt (r.get c) (fun cn => cn.parentNodeId = some parentId) := by
          intro c hc
          rcases mem_spliceInsert _ _ _ c hc with h1 | h1
          · subst h1
            rw [hgn]
            exact hpar2
          · exact hswf.2.2.2.1 (parentId, parent) (get_mem r parentId parent hgp) c h1
        have core : ∀ (cs : ChildState) (b2 : Bool) (r2 : NodeRegistry),
            (if ({ parent with
                childNodeIds := some (spliceInsert (parent.childNodeIds.getD [])
                  (idx.getD (parent.childNodeIds.getD []).length) newNodeId),
                childState := cs } : NodeMetadata).isExpanded = true then
              (recalculateAndPropagate (r.set parentId
                { parent with
                  childNodeIds := some (spliceInsert (parent.childNodeIds.getD [])
                    (idx.getD (parent.childNodeIds.getD []).length) newNodeId),
                  childState := cs }) parentId).map (fun q => (true, q.2))
             else some (true, r.set parentId
                { parent with
                  childNodeIds := some (spliceInsert (parent.childNodeIds.getD [])
                    (idx.getD (parent.childNodeIds.getD []).length) newNodeId),
                  childState := cs })) = some (b2, r2) → SizeInv r2 := by
          intro cs b2 r2 hh
          by_cases hpe : parent.isExpanded = true
          · rw [if_pos (show ({ parent with
                childNodeIds := some (spliceInsert (parent.childNodeIds.getD [])
                  (idx.getD (parent.childNodeIds.getD []).length) newNodeId),
                childState := cs } : NodeMetadata).isExpanded = true from hpe)] at hh
            cases hrec : recalculateAndPropagate (r.set parentId
                { parent with
                  childNodeIds := some (spliceInsert (parent.childNodeIds.getD [])
                    (idx.getD (parent.childNodeIds.getD []).length) newNodeId),
                  childState := cs }) parentId with
            | none =>
              rw [hrec] at hh
              exact Option.noConfusion hh
            | some p =>
              rw [hrec] at hh
              simp only [Option.map_some'] at hh
              have h2 := Option.some.inj hh
              rw [Prod.mk.injEq] at h2
              rw [← h2.2]
              obtain ⟨l, hvp⟩ := visible_visPath r hwf parentId hvis
              have hnd2 : (parentId :: l).Nodup := visPath_nodup r hwf parentId l hvp
              have hswf1 := swf_set_kids r parentId parent
                { parent with
                  childNodeIds := some (spliceInsert (parent.childNodeIds.getD [])
                    (idx.getD (parent.childNodeIds.getD []).length) newNodeId),
                  childState := cs } hswf hgp rfl rfl hk1nd hk1l
              have hvp1 := visPath_congr r (r.set parentId
                  { parent with
                    childNodeIds := some (spliceInsert (parent.childNodeIds.getD [])
                      (idx.getD (parent.childNodeIds.getD []).length) newNodeId),
                    childState := cs }) (rootId_set r parentId _) parentId l hvp
                (fun x hx => get_set_ne r parentId x _
                  (fun he => (List.nodup_cons.mp hnd2).1 (he ▸ hx)))
                (fun a ha => by
                  rw [hgp] at ha
                  cases Option.some.inj ha
                  exact ⟨_, get_set_self r parentId _, rfl⟩)
              have hie := invExcept_set r parentId parent
                { parent with
                  childNodeIds := some (spliceInsert (parent.childNodeIds.getD [])
                    (idx.getD (parent.childNodeIds.getD []).length) newNodeId),
                  childState := cs } hgp rfl hinv
              exact recalcProp_sizeInv _ parentId l p.1 p.2 hswf1 hvp1 hnd2 hie (by rw [hrec])
          · rw [if_neg (show ¬({ parent with
                childNodeIds := some (spliceInsert (parent.childNodeIds.getD [])
                  (idx.getD (parent.childNodeIds.getD []).length) newNodeId),
                childState := cs } : NodeMetadata).isExpanded = true from hpe)] at hh
            have h2 := Option.some.inj hh
            rw [Prod.mk.injEq] at h2
            rw [← h2.2]
            have hsz1 : parent.visibleSubtreeSize = 1 :=
              (hinv (parentId, parent) (get_mem r parentId parent hgp)).2
                (fun hcc => hpe hcc.1)
            refine sizeInv_set_flags r parentId parent _ hswf.1 hgp rfl ?_ hinv
            exact ⟨fun hc => absurd hc.1 hpe, fun hc => hsz1⟩
        by_cases hemp : (spliceInsert (parent.childNodeIds.getD [])
            (idx.getD (parent.childNodeIds.getD []).length) newNodeId).length = 1 ∧
            parent.childState = ChildState.EMPTY
        · rw [if_pos hemp] at h
          exact core ChildState.RESOLVED b r' h
        · rw [if_neg hemp] at h
          exact core parent.childState b r' h

theorem delEntries_sublist (l : List (Nat × NodeMetadata)) (id : Nat) :
    List.Sublist (delEntries l id) l := by
  induction l with
  | nil => exact List.Sublist.refl _
  | cons hd tl ih =>
    obtain ⟨k, m⟩ := hd
    unfold delEntries
    by_cases hk : k = id
    · rw [if_pos hk]
      exact List.sublist_cons_self (k, m) tl
    · rw [if_neg hk]
      exact List.Sublist.cons₂ (k, m) ih

theorem findNode_delEntries_ne (l : List (Nat × NodeMetadata)) (id k : Nat) (h : k ≠ id) :
    findNode (delEntries l id) k = findNode l k := by
  induction l with
  | nil => rfl
  | cons hd tl ih =>
    obtain ⟨k2, m⟩ := hd
    unfold delEntries
    by_cases hk : k2 = id
    · rw [if_pos hk, findNode_cons, if_neg (fun he => h (he.symm.trans hk))]
    · rw [if_neg hk, findNode_cons, findNode_cons]
      by_cases hk2 : k2 = k
      · rw [if_pos hk2, if_pos hk2]
      · rw [if_neg hk2, if_neg hk2]
        exact ih

theorem findNode_delEntries_self (l : List (Nat × NodeMetadata)) (id : Nat)
    (hnd : (l.map Prod.fst).Nodup) : findNode (delEntries l id) id = none := by
  induction l with
  | nil => rfl
  | cons hd tl ih =>
    obtain ⟨k2, m⟩ := hd
    simp only [List.map_cons, List.nodup_cons] at hnd
    unfold delEntries
    by_cases hk : k2 = id
    · rw [if_pos hk]
      subst hk
      cases hf : findNode tl k2 with
      | none => rfl
      | some n => exact absurd (List.mem_map_of_mem Prod.fst (findNode_mem tl k2 n hf)) hnd.1
    · rw [if_neg hk, findNode_cons, if_neg hk]
      exact ih hnd.2

theorem keys_nodup_of_sublist (ra rb : NodeRegistry) (hnd : (keysOf ra).Nodup)
    (hsub : List.Sublist rb.nodes ra.nodes) : (keysOf rb).Nodup :=
  List.Nodup.sublist (hsub.map Prod.fst) hnd

theorem none_persists (ra rb : NodeRegistry) (hnd : (keysOf ra).Nodup)
    (hsub : List.Sublist rb.nodes ra.nodes) (k : Nat) (h : ra.get k = none) :
    rb.get k = none := by
  cases hg : rb.get k with
  | none => rfl
  | some n =>
    rw [mem_get ra hnd k n (hsub.subset (get_mem rb k n hg))] at h
    exact Option.noConfusion h

/-- Combined characterization of `removeSubtree`: the root pointer is
kept, entries are only deleted, the target is gone, and every other
deleted node is listed as a child of some deleted node. -/
theorem removeSubtree_spec :
    ∀ (fuel : Nat) (r : NodeRegistry) (nodeId : Nat) (r2 : NodeRegistry) (cnt : Int),
      (keysOf r).Nodup → removeSubtree fuel r nodeId = some (r2, cnt) →
      r2.rootId = r.rootId ∧ List.Sublist r2.nodes r.nodes ∧ r2.get nodeId = none ∧
      (∀ d nd, r.get d = some nd → r2.get d = none → d = nodeId ∨
        ∃ e ne, r.get e = some ne ∧ d ∈ kidsOf ne ∧ r2.get e = none) := by
  intro fuel
  induction fuel with
  | zero =>
    intro r nodeId r2 cnt hnd h
    exact Option.noConfusion h
  | succ f ih =>
    intro r nodeId r2 cnt hnd h
    rw [removeSubtree] at h
    cases hget : r.get nodeId with
    | none =>
      rw [hget] at h
      have h2 := Option.some.inj h
      rw [Prod.mk.injEq] at h2
      rw [← h2.1]
      refine ⟨rfl, List.Sublist.refl _, hget, ?_⟩
      intro d nd h1 h3
      rw [h1] at h3
      exact Option.noConfusion h3
    | some node =>
      rw [hget] at h
      dsimp only at h
      have fold : ∀ (kids : List Nat) (acc : NodeRegistry) (acnt : Int)
          (out : NodeRegistry × Int), (keysOf acc).Nodup →
          List.foldlM (fun (ac : NodeRegistry × Int) c =>
            (removeSubtree f ac.1 c).map (fun p => (p.1, ac.2 + p.2))) (acc, acnt) kids =
            some out →
          out.1.rootId = acc.rootId ∧ List.Sublist out.1.nodes acc.nodes ∧
          (∀ c ∈ kids, out.1.get c = none) ∧
          (∀ d nd, acc.get d = some nd → out.1.get d = none → d ∈ kids ∨
            ∃ e ne, acc.get e = some ne ∧ d ∈ kidsOf ne ∧ out.1.get e = none) := by
        intro kids
        induction kids with
        | nil =>
          intro acc acnt out hand hf
          cases hf
          refine ⟨rfl, List.Sublist.refl _, by simp, ?_⟩
          intro d nd h1 h3
          rw [h1] at h3
          exact Option.noConfusion h3
        | cons c rest ihk =>
          intro acc acnt out hand hf
          rw [List.foldlM_cons] at hf
          cases hstep : removeSubtree f acc c with
          | none =>
            rw [hstep] at hf
            exact Option.noConfusion hf
          | some q =>
            rw [hstep] at hf
            obtain ⟨hroot1, hsub1, hdel1, hE1⟩ := ih acc c q.1 q.2 hand (by rw [hstep])
            have hndq : (keysOf q.1).Nodup := keys_nodup_of_sublist acc q.1 hand hsub1
            obtain ⟨hroot2, hsub2, hdel2, hE2⟩ := ihk q.1 (acnt + q.2) out hndq hf
            refine ⟨hroot2.trans hroot1, hsub2.trans hsub1, ?_, ?_⟩
            · intro c2 hc2
              rcases List.mem_cons.mp hc2 with h1 | h1
              · subst h1
                exact none_persists q.1 out.1 hndq hsub2 c2 hdel1
              · exact hdel2 c2 h1
            · intro d nd h1 h3
              cases hmid : q.1.get d with
              | none =>
                rcases hE1 d nd h1 hmid with h4 | ⟨e, ne, hge, hmem, hdele⟩
                · exact Or.inl (by rw [h4]; exact List.mem_cons_self _ _)
                · exact Or.inr ⟨e, ne, hge, hmem,
                    none_persists q.1 out.1 hndq hsub2 e hdele⟩
              | some nd2 =>
                have hsame : acc.get d = some nd2 :=
                  mem_get acc hand d nd2 (hsub1.subset (get_mem q.1 d nd2 hmid))
                rw [h1] at hsame
                cases Option.some.inj hsame
                rcases hE2 d nd hmid h3 with h4 | ⟨e, ne, hge, hmem, hdele⟩
                · exact Or.inl (List.mem_cons_of_mem c h4)
                · exact Or.inr ⟨e, ne,
                    mem_get acc hand e ne (hsub1.subset (get_mem q.1 e ne hge)), hmem, hdele⟩
      cases hfold : List.foldlM (fun (ac : NodeRegistry × Int) c =>
          (removeSubtree f ac.1 c).map (fun p => (p.1, ac.2 + p.2))) (r, 1)
          (node.childNodeIds.getD []) with
      | none =>
        rw [hfold] at h
        exact Option.noConfusion h
      | some p =>
        rw [hfold] at h
        dsimp only at h
        have h2 := Option.some.inj h
        rw [Prod.mk.injEq] at h2
        obtain ⟨h2a, h2b⟩ := h2
        obtain ⟨hroot1, hsub1, hdelkids, hE1⟩ := fold (node.childNodeIds.getD []) r 1 p hnd hfold
        have hndp : (keysOf p.1).Nodup := keys_nodup_of_sublist r p.1 hnd hsub1
        subst h2a
        refine ⟨?_, ?_, ?_, ?_⟩
        · rw [rootId_del, hroot1]
        · exact (delEntries_sublist p.1.nodes nodeId).trans hsub1
        · show findNode (delEntries p.1.nodes nodeId) nodeId = none
          exact findNode_delEntries_self p.1.nodes nodeId hndp
        · intro d nd h1 h3
          by_cases hdn : d = nodeId
          · exact Or.inl hdn
          · have h3b : p.1.get d = none := by
              rw [show (p.1.del nodeId).get d = p.1.get d from
                findNode_delEntries_ne p.1.nodes nodeId d hdn] at h3
              exact h3
            rcases hE1 d nd h1 h3b with h4 | ⟨e, ne, hge, hmem, hdele⟩
            · refine Or.inr ⟨nodeId, node, hget, h4, ?_⟩
              show findNode (delEntries p.1.nodes nodeId) nodeId = none
              exact findNode_delEntries_self p.1.nodes nodeId hndp
            · refine Or.inr ⟨e, ne, hge, hmem, ?_⟩
              by_cases hen : e = nodeId
              · rw [hen]
                show findNode (delEntries p.1.nodes nodeId) nodeId = none
                exact findNode_delEntries_self p.1.nodes nodeId hndp
              · rw [show (p.1.del nodeId).get e = p.1.get e from
                  findNode_delEntries_ne p.1.nodes nodeId e hen]
                exact hdele

/-- Every element of a fully linked ancestor chain avoiding the removal
root survives a deletion pass whose every deleted node is either the root
or a listed child of another deleted node. -/
theorem chainLink_survives (r1 p1 : NodeRegistry) (hnd1 : (keysOf r1).Nodup)
    (hlink1 : ∀ p ∈ r1.nodes, ∀ c ∈ kidsOf p.2,
      ExOpt (r1.get c) (fun cn => cn.parentNodeId = some p.1))
    (nodeId : Nat)
    (hE : ∀ d nd, r1.get d = some nd → p1.get d = none → d = nodeId ∨
      ∃ e ne, r1.get e = some ne ∧ d ∈ kidsOf ne ∧ p1.get e = none) :
    ∀ xs, ChainLink r1 xs → nodeId ∉ xs → ∀ x ∈ xs, p1.get x ≠ none := by
  intro xs h
  induction h with
  | single a n hget hpar =>
    intro hnx x hx hdel
    rw [List.mem_singleton] at hx
    subst hx
    rcases hE x n hget hdel with h1 | ⟨e, ne, hge, hmem, hdele⟩
    · exact hnx (List.mem_singleton.mpr h1.symm)
    · have hpx := hlink1 (e, ne) (get_mem r1 e ne hge) x hmem
      rw [hget] at hpx
      simp only [exOpt_some] at hpx
      rw [hpar] at hpx
      exact Option.noConfusion hpx
  | cons a n b nb l hget hpar hgetb hmem2 hexp hres hcl ih =>
    intro hnx x hx hdel
    rcases List.mem_cons.mp hx with h1 | h1
    · subst h1
      rcases hE x n hget hdel with h2 | ⟨e, ne, hge, hmem, hdele⟩
      · exact hnx (by rw [← h2]; exact List.mem_cons_self x (b :: l))
      · have hpx := hlink1 (e, ne) (get_mem r1 e ne hge) x hmem
        rw [hget] at hpx
        simp only [exOpt_some] at hpx
        rw [hpar] at hpx
        rw [← Option.some.inj hpx] at hdele
        exact ih (fun hm => hnx (List.mem_cons_of_mem x hm)) b (List.mem_cons_self _ _) hdele
    · exact ih (fun hm => hnx (List.mem_cons_of_mem a hm)) x h1 hdel

/-- Shared tail of `removeNode` after the detach step: deleting the
subtree and recalculating the parent preserves the size invariant. -/
theorem sizeInv_removeTail (r1 : NodeRegistry) (nodeId parentId : Nat) (node : NodeMetadata)
    (l : List Nat) (hswf1 : SWF r1) (hvp1 : VisPath r1 parentId l)
    (hnd1c : (parentId :: l).Nodup) (hie1 : InvExcept r1 parentId)
    (hn1 : r1.get nodeId = some node) (hpar1 : node.parentNodeId = some parentId)
    (hpk : ∀ pn, r1.get parentId = some pn → nodeId ∉ kidsOf pn)
    (hsz1 : ∀ pn, r1.get parentId = some pn → ¬pn.isExpanded = true →
      pn.visibleSubtreeSize = 1)
    (out : Int × NodeRegistry)
    (h : (match removeSubtree (r1.size + 1) r1 nodeId with
          | none => none
          | some p =>
            match p.1.get parentId with
            | some parent2 =>
              if parent2.isExpanded then
                (recalculateAndPropagate p.1 parentId).map (fun q => (p.2, q.2))
              else some (p.2, p.1)
            | none => some (p.2, p.1)) = some out) :
    SizeInv out.2 := by
  cases hrs : removeSubtree (r1.size + 1) r1 nodeId with
  | none =>
    rw [hrs] at h
    exact Option.noConfusion h
  | some p =>
    rw [hrs] at h
    dsimp only at h
    obtain ⟨hroot1, hsub1, hdelN, hE⟩ :=
      removeSubtree_spec (r1.size + 1) r1 nodeId p.1 p.2 hswf1.1 (by rw [hrs])
    have hnd1 := hswf1.1
    have hndp : (keysOf p.1).Nodup := keys_nodup_of_sublist r1 p.1 hnd1 hsub1
    have hCL1 := visPath_chainLink r1 parentId l hvp1
    have hnidc : nodeId ∉ parentId :: l :=
      chain_kid_off r1 parentId l hCL1 hnd1c parentId nodeId node hn1 hpar1
        (Or.inr (Or.inl rfl))
    have hsurv : ∀ x ∈ parentId :: l, p.1.get x ≠ none :=
      chainLink_survives r1 p.1 hnd1 hswf1.2.2.2.1 nodeId hE (parentId :: l) hCL1 hnidc
    have hunch : ∀ k nk, p.1.get k = some nk → r1.get k = some nk := by
      intro k nk hg
      exact mem_get r1 hnd1 k nk (hsub1.subset (get_mem p.1 k nk hg))
    have hchain_get : ∀ x ∈ parentId :: l, p.1.get x = r1.get x := by
      intro x hx
      cases hg : p.1.get x with
      | none => exact absurd hg (hsurv x hx)
      | some nx => rw [hunch x nx hg]
    have hkidsurv : ∀ k nk, p.1.get k = some nk → ∀ c ∈ kidsOf nk,
        p.1.get c = r1.get c := by
      intro k nk hg c hc
      have hr1k := hunch k nk hg
      have hcl := hswf1.2.2.2.1 (k, nk) (get_mem r1 k nk hr1k) c hc
      cases hgc : r1.get c with
      | none =>
        rw [hgc] at hcl
        exact hcl.elim
      | some nc =>
        rw [hgc] at hcl
        simp only [exOpt_some] at hcl
        cases hgc2 : p.1.get c with
        | some nc2 =>
          have heq : r1.get c = some nc2 := hunch c nc2 hgc2
          rw [hgc] at heq
          rw [Option.some.inj heq]
        | none =>
          exfalso
          rcases hE c nc hgc hgc2 with h1 | ⟨e, ne, hge, hmem, hdele⟩
          · subst h1
            rw [hn1] at hgc
            cases Option.some.inj hgc
            rw [hpar1] at hcl
            cases Option.some.inj hcl
            exact hpk nk hr1k hc
          · have hce := hswf1.2.2.2.1 (e, ne) (get_mem r1 e ne hge) c hmem
            rw [hgc] at hce
            simp only [exOpt_some] at hce
            rw [hcl] at hce
            cases Option.some.inj hce
            rw [hg] at hdele
            exact Option.noConfusion hdele
    have hswfp : SWF p.1 := by
      refine ⟨hndp, ?_, ?_, ?_, ?_⟩
      · intro q hq
        exact hswf1.2.1 q (hsub1.subset hq)
      · intro q hq
        exact hswf1.2.2.1 q (hsub1.subset hq)
      · intro q hq c hc
        have hgq : p.1.get q.1 = some q.2 := mem_get p.1 hndp q.1 q.2 hq
        have heq := hkidsurv q.1 q.2 hgq c hc
        rw [heq]
        exact hswf1.2.2.2.1 q (hsub1.subset hq) c hc
      · intro q hq
        exact hswf1.2.2.2.2 q (hsub1.subset hq)
    have hiep : InvExcept p.1 parentId := by
      intro k nk hg hkp
      have hr1k := hunch k nk hg
      have hold : InvAt r1 nk := hie1 k nk hr1k hkp
      refine invAt_congr r1 p.1 nk hold ?_
      intro c hc
      rw [hkidsurv k nk hg c hc]
    have hvpp : VisPath p.1 parentId l := by
      refine visPath_congr r1 p.1 (by rw [hroot1]) parentId l hvp1 ?_ ?_
      · intro x hx
        exact hchain_get x (List.mem_cons_of_mem parentId hx)
      · intro a ha
        have hs := hchain_get parentId (List.mem_cons_self _ _)
        exact ⟨a, by rw [hs]; exact ha, rfl⟩
    cases hgp2 : p.1.get parentId with
    | none =>
      exact absurd hgp2 (hsurv parentId (List.mem_cons_self _ _))
    | some parent2 =>
      rw [hgp2] at h
      dsimp only at h
      have hp2eq : r1.get parentId = some parent2 := hunch parentId parent2 hgp2
      by_cases hpe : parent2.isExpanded = true
      · rw [if_pos hpe] at h
        cases hrecq : recalculateAndPropagate p.1 parentId with
        | none =>
          rw [hrecq] at h
          exact Option.noConfusion h
        | some q =>
          rw [hrecq] at h
          simp only [Option.map_some'] at h
          have h2 := Option.some.inj h
          rw [← h2]
          show SizeInv q.2
          exact recalcProp_sizeInv p.1 parentId l q.1 q.2 hswfp hvpp hnd1c hiep
            (by rw [hrecq])
      · rw [if_neg hpe] at h
        have h2 := Option.some.inj h
        rw [← h2]
        show SizeInv p.1
        intro qq hqq
        obtain ⟨k, nk⟩ := qq
        have hg : p.1.get k = some nk := mem_get p.1 hndp k nk hqq
        by_cases hkp : k = parentId
        · subst hkp
          rw [hgp2] at hg
          cases Option.some.inj hg
          refine ⟨fun hcch => absurd hcch.1 hpe, fun hcch => ?_⟩
          exact hsz1 parent2 hp2eq hpe
        · have hr1k := hunch k nk hg
          have hold : InvAt r1 nk := hie1 k nk hr1k hkp
          refine invAt_congr r1 p.1 nk hold ?_
          intro c hc
          rw [hkidsurv k nk hg c hc]

/-- The size invariant is preserved by `removeNode` when the removed
node's parent (if any) is visible. -/
theorem sizeInv_removeNode (r : NodeRegistry) (nodeId : Nat) (cnt : Int) (r' : NodeRegistry)
    (hwf : WF r) (hinv : SizeInv r)
    (hv : ∀ n pid, r.get nodeId = some n → n.parentNodeId = some pid → Visible r pid)
    (h : removeNode r nodeId = some (cnt, r')) : SizeInv r' := by
  have hswf := hwf.1
  unfold removeNode at h
  cases hget : r.get nodeId with
  | none =>
    rw [hget] at h
    have h2 := Option.some.inj h
    rw [Prod.mk.injEq] at h2
    rw [← h2.2]
    exact hinv
  | some node =>
    rw [hget] at h
    dsimp only at h
    cases hpar : node.parentNodeId with
    | none =>
      rw [hpar] at h
      have h2 := Option.some.inj h
      rw [Prod.mk.injEq] at h2
      rw [← h2.2]
      exact hinv
    | some parentId =>
      rw [hpar] at h
      dsimp only at h
      have hvisp : Visible r parentId := hv node parentId hget hpar
      obtain ⟨parent, hgp, hdp⟩ := WF_parent_depth r nodeId node parentId hwf hget hpar
      have hnp : nodeId ≠ parentId := by
        intro he
        rw [he, hgp] at hget
        cases Option.some.inj hget
        omega
      obtain ⟨l, hvp⟩ := visible_visPath r hwf parentId hvisp
      have hndc : (parentId :: l).Nodup := visPath_nodup r hwf parentId l hvp
      rw [hgp] at h
      dsimp only at h
      by_cases hkids : parent.childNodeIds.isSome = true
      · rw [if_pos hkids] at h
        refine sizeInv_removeTail
          (r.set parentId { parent with childNodeIds := some ((parent.childNodeIds.getD []).filter (· != nodeId)) })
          nodeId parentId node l ?_ ?_ hndc ?_ ?_ hpar ?_ ?_ (cnt, r') h
        · refine swf_set_kids r parentId parent _ hswf hgp rfl rfl ?_ ?_
          · show ((parent.childNodeIds.getD []).filter (· != nodeId)).Nodup
            exact List.Nodup.filter _
              (hswf.2.2.2.2 (parentId, parent) (get_mem r parentId parent hgp))
          · intro c hc
            have hc2 : c ∈ kidsOf parent := List.mem_of_mem_filter hc
            exact hswf.2.2.2.1 (parentId, parent) (get_mem r parentId parent hgp) c hc2
        · refine visPath_congr r _ (rootId_set r parentId _) parentId l hvp ?_ ?_
          · intro x hx
            exact get_set_ne r parentId x _
              (fun he => (List.nodup_cons.mp hndc).1 (he ▸ hx))
          · intro a ha
            rw [hgp] at ha
            cases Option.some.inj ha
            exact ⟨_, get_set_self r parentId _, rfl⟩
        · exact invExcept_set r parentId parent _ hgp rfl hinv
        · rw [get_set_ne r parentId nodeId _ hnp]
          exact hget
        · intro pn hpn
          rw [get_set_self] at hpn
          rw [← Option.some.inj hpn]
          intro hmem
          have := (List.mem_filter.mp hmem).2
          simp at this
        · intro pn hpn hpe
          rw [get_set_self] at hpn
          rw [← Option.some.inj hpn]
          show parent.visibleSubtreeSize = 1
          refine (hinv (parentId, parent) (get_mem r parentId parent hgp)).2 ?_
          intro hcc
          rw [← Option.some.inj hpn] at hpe
          exact hpe hcc.1
      · rw [if_neg hkids] at h
        refine sizeInv_removeTail r nodeId parentId node l hswf hvp hndc
          (invExcept_of_sizeInv r hinv parentId) hget hpar ?_ ?_ (cnt, r') h
        · intro pn hpn
          rw [hgp] at hpn
          rw [← Option.some.inj hpn]
          show nodeId ∉ kidsOf parent
          unfold kidsOf
          rw [Option.not_isSome_iff_eq_none.mp hkids]
          simp
        · intro pn hpn hpe
          rw [hgp] at hpn
          rw [← Option.some.inj hpn]
          show parent.visibleSubtreeSize = 1
          refine (hinv (parentId, parent) (get_mem r parentId parent hgp)).2 ?_
          intro hcc
          rw [← Option.some.inj hpn] at hpe
          exact hpe hcc.1

/-- General transport of a witnessed visible path across a registry change
that keeps the root pointer and, outside one bad id, keeps each record's
parent pointer, expansion flag, child state, and child-list membership. -/
theorem visPath_transport (r r' : NodeRegistry) (bad : Nat)
    (hroot : r'.rootId = r.rootId)
    (hrel : ∀ x, x ≠ bad → ∀ a, r.get x = some a → ∃ b, r'.get x = some b ∧
      b.parentNodeId = a.parentNodeId ∧ b.isExpanded = a.isExpanded ∧
      b.childState = a.childState ∧ ∀ c ∈ kidsOf a, c ≠ bad → c ∈ kidsOf b) :
    ∀ v l, VisPath r v l → v ≠ bad → (∀ x ∈ l, x ≠ bad) → VisPath r' v l := by
  intro v l h
  induction h with
  | root rt n hr hg hp =>
    intro hvb hlb
    obtain ⟨b, hb1, hbp, hbe, hbc, hbk⟩ := hrel rt hvb n hg
    exact VisPath.root rt b (by rw [hroot, hr]) hb1 (by rw [hbp, hp])
  | child id n c cn l2 hsub hget hexp hres hmem hgetc hpar ih =>
    intro hvb hlb
    have hidb : id ≠ bad := hlb id (List.mem_cons_self _ _)
    obtain ⟨b, hb1, hbp, hbe, hbc, hbk⟩ := hrel id hidb n hget
    obtain ⟨bc, hc1, hcp, hce, hcc, hck⟩ := hrel c hvb cn hgetc
    exact VisPath.child id b c bc l2
      (ih hidb (fun x hx => hlb x (List.mem_cons_of_mem id hx)))
      hb1 (by rw [hbe, hexp]) (by rw [hbc, hres]) (hbk c hmem hvb) hc1 (by rw [hcp, hpar])

/-- Every tail element of a fully linked chain is an ancestor of its
head. -/
theorem chainLink_isAncestor (r : NodeRegistry) :
    ∀ xs, ChainLink r xs → ∀ v l2, xs = v :: l2 → ∀ a ∈ l2, IsAncestorOf r a v := by
  intro xs h
  induction h with
  | single a n hget hpar =>
    intro v l2 he a2 ha
    injection he with e1 e2
    rw [← e2] at ha
    simp at ha
  | cons a n b nb l hget hpar hgetb hmem hexp hres hcl ih =>
    intro v l2 he a2 ha
    injection he with e1 e2
    subst e1
    rw [← e2] at ha
    rcases List.mem_cons.mp ha with h1 | h1
    · subst h1
      exact IsAncestorOf.parent a n a2 hget hpar
    · exact IsAncestorOf.step a n b a2 hget hpar (ih b l rfl a2 h1)

theorem isDescendant_of_ancestor (r : NodeRegistry) (n p : Nat) (hwf : WF r)
    (hanc : IsAncestorOf r n p) : isDescendant r p n = some true := by
  have hpex : ∃ np2, r.get p = some np2 := by
    cases hanc with
    | parent d n0 a hget0 hp0 => exact ⟨n0, hget0⟩
    | step d n0 m a hget0 hp0 hanc2 => exact ⟨n0, hget0⟩
  obtain ⟨np2, hnp⟩ := hpex
  unfold isDescendant
  refine isDescendantLoop_finds r hwf n p hanc (r.size + 1) np2 hnp ?_
  have h1 := WF_depth_lt r p np2 hwf hnp
  have h2 := WF_depth_nonneg r p np2 hwf hnp
  omega

/-- Structural well-formedness transports along any pointwise relation
that keeps ids, parent pointers, and child lists. -/
theorem swf_regRel (P : NodeMetadata → NodeMetadata → Prop) (r r' : NodeRegistry)
    (hP : ∀ a b, P a b → b.nodeId = a.nodeId ∧ b.parentNodeId = a.parentNodeId ∧
      b.childNodeIds = a.childNodeIds)
    (hswf : SWF r) (hrel : RegRel P r r') : SWF r' := by
  obtain ⟨hroot, hkeys, hopt⟩ := hrel
  obtain ⟨hnd, hkey, hzero, hlink, hknd⟩ := hswf
  have hnd2 : (keysOf r').Nodup := by rw [hkeys]; exact hnd
  have hget2 : ∀ k nk, r'.get k = some nk → ∃ na, r.get k = some na ∧ P na nk := by
    intro k nk hg
    have ho := hopt k
    cases hga : r.get k with
    | none =>
      rw [hga, hg] at ho
      exact ho.elim
    | some na =>
      rw [hga, hg] at ho
      exact ⟨na, rfl, ho⟩
  refine ⟨hnd2, ?_, ?_, ?_, ?_⟩
  · intro p hp
    obtain ⟨na, hna, hpab⟩ := hget2 p.1 p.2 (mem_get r' hnd2 p.1 p.2 hp)
    rw [(hP na p.2 hpab).1]
    exact hkey (p.1, na) (get_mem r p.1 na hna)
  · intro p hp
    obtain ⟨na, hna, hpab⟩ := hget2 p.1 p.2 (mem_get r' hnd2 p.1 p.2 hp)
    exact hzero (p.1, na) (get_mem r p.1 na hna)
  · intro p hp c hc
    obtain ⟨na, hna, hpab⟩ := hget2 p.1 p.2 (mem_get r' hnd2 p.1 p.2 hp)
    have hc2 : c ∈ kidsOf na := by
      unfold kidsOf at hc ⊢
      rw [← (hP na p.2 hpab).2.2]
      exact hc
    have base := hlink (p.1, na) (get_mem r p.1 na hna) c hc2
    have ho := hopt c
    cases hga : r.get c with
    | none =>
      rw [hga] at base
      exact base.elim
    | some nca =>
      rw [hga] at base
      simp only [exOpt_some] at base
      cases hgb : r'.get c with
      | none =>
        rw [hga, hgb] at ho
        exact ho.elim
      | some ncb =>
        rw [hga, hgb] at ho
        simp only [exOpt_some]
        rw [(hP nca ncb ho).2.1, base]
  · intro p hp
    obtain ⟨na, hna, hpab⟩ := hget2 p.1 p.2 (mem_get r' hnd2 p.1 p.2 hp)
    have hknda := hknd (p.1, na) (get_mem r p.1 na hna)
    show (kidsOf p.2).Nodup
    unfold kidsOf at hknda ⊢
    rw [(hP na p.2 hpab).2.2]
    exact hknda

theorem invExcept_set2 (r : NodeRegistry) (site id : Nat) (node b : NodeMetadata)
    (hget : r.get id = some node) (hsz : b.visibleSubtreeSize = node.visibleSubtreeSize)
    (hib : id ≠ site → InvAt (r.set id b) b)
    (hie : InvExcept r site) : InvExcept (r.set id b) site := by
  intro k nk hg hk
  rw [get_set r id k b] at hg
  by_cases hkid : k = id
  · rw [if_pos hkid] at hg
    cases Option.some.inj hg
    exact hib (hkid ▸ hk)
  · rw [if_neg hkid] at hg
    have hold : InvAt r nk := hie k nk hg hk
    refine invAt_congr r _ nk hold (fun c hc => ?_)
    rw [get_set r id c b]
    by_cases hc2 : c = id
    · rw [if_pos hc2, hc2, hget]
      exact hsz
    · rw [if_neg hc2]

/-- Summary of the detach step of `moveNode`: the result is structurally
well formed with the size invariant restored, every record away from the
old parent keeps its shape, and the old parent keeps everything but its
child list, which loses exactly the moved node. -/
theorem moveStep1_spec (r : NodeRegistry) (nodeId oldPid : Nat) (node oldParent : NodeMetadata)
    (hwf : WF r) (hinv : SizeInv r)
    (hget : r.get nodeId = some node) (hpar : node.parentNodeId = some oldPid)
    (hgop : r.get oldPid = some oldParent) (hvisop : Visible r oldPid)
    (r2 : NodeRegistry)
    (h : (if oldParent.childNodeIds.isSome = true then
            if oldParent.isExpanded = true then
              (recalculateAndPropagate (r.set oldPid { oldParent with childNodeIds := some ((oldParent.childNodeIds.getD []).filter (· != nodeId)) }) oldPid).map (·.2)
            else some (r.set oldPid { oldParent with childNodeIds := some ((oldParent.childNodeIds.getD []).filter (· != nodeId)) })
          else some r) = some r2) :
    SWF r2 ∧ SizeInv r2 ∧ r2.rootId = r.rootId ∧
    (∀ x a, x ≠ oldPid → r.get x = some a → ∃ b, r2.get x = some b ∧ sameShape a b) ∧
    (∃ bop, r2.get oldPid = some bop ∧ bop.nodeId = oldParent.nodeId ∧
      bop.parentNodeId = oldParent.parentNodeId ∧ bop.isExpanded = oldParent.isExpanded ∧
      bop.childState = oldParent.childState ∧ bop.depth = oldParent.depth ∧
      (∀ c ∈ kidsOf bop, c ∈ kidsOf oldParent) ∧
      (∀ c ∈ kidsOf oldParent, c ≠ nodeId → c ∈ kidsOf bop) ∧
      nodeId ∉ kidsOf bop ∧ (kidsOf bop).Nodup) := by
  have hswf := hwf.1
  have hopknd : (kidsOf oldParent).Nodup :=
    hswf.2.2.2.2 (oldPid, oldParent) (get_mem r oldPid oldParent hgop)
  by_cases hks : oldParent.childNodeIds.isSome = true
  · rw [if_pos hks] at h
    have hswf1 : SWF (r.set oldPid { oldParent with
        childNodeIds := some ((oldParent.childNodeIds.getD []).filter (· != nodeId)) }) := by
      refine swf_set_kids r oldPid oldParent _ hswf hgop rfl rfl ?_ ?_
      · exact List.Nodup.filter _ hopknd
      · intro c hc
        exact hswf.2.2.2.1 (oldPid, oldParent) (get_mem r oldPid oldParent hgop) c
          (List.mem_of_mem_filter hc)
    have hbopPD : ∀ (bop : NodeMetadata),
        bop.childNodeIds = some ((oldParent.childNodeIds.getD []).filter (· != nodeId)) →
        (∀ c ∈ kidsOf bop, c ∈ kidsOf oldParent) ∧
        (∀ c ∈ kidsOf oldParent, c ≠ nodeId → c ∈ kidsOf bop) ∧
        nodeId ∉ kidsOf bop ∧ (kidsOf bop).Nodup := by
      intro bop hbk
      have hkb : kidsOf bop = (kidsOf oldParent).filter (· != nodeId) := by
        unfold kidsOf
        rw [hbk]
        rfl
      rw [hkb]
      refine ⟨fun c hc => List.mem_of_mem_filter hc, ?_, ?_, List.Nodup.filter _ hopknd⟩
      · intro c hc hcn
        refine List.mem_filter.mpr ⟨hc, ?_⟩
        simp [hcn]
      · intro hmem
        have := (List.mem_filter.mp hmem).2
        simp at this
    by_cases hpe : oldParent.isExpanded = true
    · rw [if_pos hpe] at h
      cases hrec : recalculateAndPropagate (r.set oldPid { oldParent with
          childNodeIds := some ((oldParent.childNodeIds.getD []).filter (· != nodeId)) })
          oldPid with
      | none =>
        rw [hrec] at h
        simp only [Option.map_none'] at h
        exact Option.noConfusion h
      | some p =>
        rw [hrec] at h
        simp only [Option.map_some'] at h
        have hr2 := Option.some.inj h
        subst hr2
        obtain ⟨l, hvp⟩ := visible_visPath r hwf oldPid hvisop
        have hndc := visPath_nodup r hwf oldPid l hvp
        have hvp1 : VisPath (r.set oldPid { oldParent with
            childNodeIds := some ((oldParent.childNodeIds.getD []).filter (· != nodeId)) })
            oldPid l := by
          refine visPath_congr r _ (rootId_set r oldPid _) oldPid l hvp ?_ ?_
          · intro x hx
            exact get_set_ne r oldPid x _
              (fun he => (List.nodup_cons.mp hndc).1 (he ▸ hx))
          · intro a ha
            rw [hgop] at ha
            cases Option.some.inj ha
            exact ⟨_, get_set_self r oldPid _, rfl⟩
        have hie1 := invExcept_set r oldPid oldParent { oldParent with childNodeIds := some ((oldParent.childNodeIds.getD []).filter (· != nodeId)) } hgop rfl hinv
        have hsi := recalcProp_sizeInv _ oldPid l p.1 p.2 hswf1 hvp1 hndc hie1 (by rw [hrec])
        obtain ⟨hkey2, hsp⟩ := recalcProp_shapePres _ oldPid p.1 p.2 hswf1.2.1 (by rw [hrec])
        have hswf2 : SWF p.2 := swf_regRel sameShape _ p.2
          (fun a b hab => ⟨hab.1.symm, hab.2.1.symm, hab.2.2.2.1.symm⟩) hswf1 hsp
        refine ⟨hswf2, hsi, by rw [hsp.1, rootId_set], ?_, ?_⟩
        · intro x a hxo hxa
          have hoa := hsp.2.2 x
          have hr1x : (r.set oldPid { oldParent with
              childNodeIds := some ((oldParent.childNodeIds.getD []).filter (· != nodeId)) }).get
              x = some a := by
            rw [get_set_ne r oldPid x _ hxo]
            exact hxa
          rw [hr1x] at hoa
          cases hgb : p.2.get x with
          | none =>
            rw [hgb] at hoa
            exact hoa.elim
          | some b =>
            rw [hgb] at hoa
            exact ⟨b, rfl, hoa⟩
        · have hoa := hsp.2.2 oldPid
          rw [get_set_self] at hoa
          cases hgb : p.2.get oldPid with
          | none =>
            rw [hgb] at hoa
            exact hoa.elim
          | some bop =>
            rw [hgb] at hoa
            obtain ⟨hm1, hm2, hm3, hm4⟩ := hbopPD bop hoa.2.2.2.1.symm
            exact ⟨bop, rfl, hoa.1.symm, hoa.2.1.symm, hoa.2.2.2.2.1.symm, hoa.2.2.1.symm,
              hoa.2.2.2.2.2.1.symm, hm1, hm2, hm3, hm4⟩
    · rw [if_neg hpe] at h
      have hr2 := Option.some.inj h
      subst hr2
      have hsz1 : oldParent.visibleSubtreeSize = 1 :=
        (hinv (oldPid, oldParent) (get_mem r oldPid oldParent hgop)).2 (fun hcc => hpe hcc.1)
      obtain ⟨hm1, hm2, hm3, hm4⟩ := hbopPD { oldParent with
        childNodeIds := some ((oldParent.childNodeIds.getD []).filter (· != nodeId)) } rfl
      refine ⟨hswf1, ?_, rootId_set r oldPid _, ?_, ?_⟩
      · refine sizeInv_set_flags r oldPid oldParent _ hswf.1 hgop rfl ?_ hinv
        exact ⟨fun hc => absurd hc.1 hpe, fun hc => hsz1⟩
      · intro x a hxo hxa
        refine ⟨a, ?_, sameShape_refl a⟩
        rw [get_set_ne r oldPid x _ hxo]
        exact hxa
      · exact ⟨_, get_set_self r oldPid _, rfl, rfl, rfl, rfl, rfl, hm1, hm2, hm3, hm4⟩
  · rw [if_neg hks] at h
    have hr2 := Option.some.inj h
    subst hr2
    have hkop : kidsOf oldParent = [] := by
      unfold kidsOf
      rw [Option.not_isSome_iff_eq_none.mp hks]
      rfl
    refine ⟨hswf, hinv, rfl, fun x a hxo hxa => ⟨a, hxa, sameShape_refl a⟩,
      oldParent, hgop, rfl, rfl, rfl, rfl, rfl, fun c hc => hc, fun c hc hcn => hc, ?_, hopknd⟩
    rw [hkop]
    simp

/-- The size invariant is preserved by `moveNode` when both the old and
the new parent are visible and the destination differs from the moved
node. -/
theorem sizeInv_moveNode (r : NodeRegistry) (nodeId newParentId : Nat) (idx : Option Int)
    (bb : Bool) (r' : NodeRegistry) (hwf : WF r) (hinv : SizeInv r)
    (hvold : ∀ n pid, r.get nodeId = some n → n.parentNodeId = some pid → Visible r pid)
    (hvnew : Visible r newParentId) (hnpn : newParentId ≠ nodeId)
    (h : moveNode r nodeId newParentId idx = some (bb, r')) : SizeInv r' := by
  have hswf := hwf.1
  unfold moveNode at h
  cases hget : r.get nodeId with
  | none =>
    rw [hget] at h
    dsimp only at h
    have h2 := Option.some.inj h
    rw [Prod.mk.injEq] at h2
    rw [← h2.2]
    exact hinv
  | some node =>
    rw [hget] at h
    cases hgnp : r.get newParentId with
    | none =>
      rw [hgnp] at h
      dsimp only at h
      have h2 := Option.some.inj h
      rw [Prod.mk.injEq] at h2
      rw [← h2.2]
      exact hinv
    | some np =>
      rw [hgnp] at h
      dsimp only at h
      by_cases hpn : node.parentNodeId = none
      · rw [if_pos hpn] at h
        have h2 := Option.some.inj h
        rw [Prod.mk.injEq] at h2
        rw [← h2.2]
        exact hinv
      · rw [if_neg hpn] at h
        cases hguard : isDescendant r newParentId nodeId with
        | none =>
          rw [hguard] at h
          exact Option.noConfusion h
        | some gb =>
          rw [hguard] at h
          cases gb with
          | true =>
            dsimp only at h
            have h2 := Option.some.inj h
            rw [Prod.mk.injEq] at h2
            rw [← h2.2]
            exact hinv
          | false =>
            dsimp only at h
            cases hpar : node.parentNodeId with
            | none => exact absurd hpar hpn
            | some oldPid =>
              rw [hpar] at h
              dsimp only at h
              obtain ⟨oldParent, hgop, hdop⟩ :=
                WF_parent_depth r nodeId node oldPid hwf hget hpar
              rw [hgop] at h
              dsimp only at h
              cases hs1 : (if oldParent.childNodeIds.isSome = true then
                  if oldParent.isExpanded = true then
                    (recalculateAndPropagate (r.set oldPid { oldParent with childNodeIds := some ((oldParent.childNodeIds.getD []).filter (· != nodeId)) }) oldPid).map (·.2)
                  else some (r.set oldPid { oldParent with childNodeIds := some ((oldParent.childNodeIds.getD []).filter (· != nodeId)) })
                else some r) with
              | none =>
                rw [hs1] at h
                exact Option.noConfusion h
              | some r2 =>
                rw [hs1] at h
                dsimp only at h
                have hvisop : Visible r oldPid := hvold node oldPid hget hpar
                obtain ⟨hswf2, hsi2, hroot2, hrel2,
                  bop, hbop, hbid, hbpar, hbexp, hbcs, hbdep, hbm1, hbm2, hbnid, hbnd⟩ :=
                  moveStep1_spec r nodeId oldPid node oldParent hwf hinv hget hpar hgop
                    hvisop r2 hs1
                have hnotanc : ∀ x, IsAncestorOf r x newParentId → x ≠ nodeId := by
                  intro x hx he
                  rw [he] at hx
                  have hd := isDescendant_of_ancestor r nodeId newParentId hwf hx
                  have hd2 := hguard.symm.trans hd
                  exact Bool.noConfusion (Option.some.inj hd2)
                obtain ⟨ln, hvpn⟩ := visible_visPath r hwf newParentId hvnew
                have hndn : (newParentId :: ln).Nodup :=
                  visPath_nodup r hwf newParentId ln hvpn
                have hCLn := visPath_chainLink r newParentId ln hvpn
                have hlnn : ∀ x ∈ ln, x ≠ nodeId := fun x hx =>
                  hnotanc x (chainLink_isAncestor r (newParentId :: ln) hCLn
                    newParentId ln rfl x hx)
                have hnodp : nodeId ≠ oldPid := by
                  intro he
                  rw [← he] at hgop
                  rw [hget] at hgop
                  cases Option.some.inj hgop
                  omega
                have hrel2x : ∀ x a, r.get x = some a → ∃ b, r2.get x = some b ∧
                    b.nodeId = a.nodeId ∧ b.parentNodeId = a.parentNodeId ∧
                    b.isExpanded = a.isExpanded ∧ b.childState = a.childState ∧
                    b.depth = a.depth ∧ (∀ c ∈ kidsOf b, c ∈ kidsOf a) ∧
                    (∀ c ∈ kidsOf a, c ≠ nodeId → c ∈ kidsOf b) ∧ (kidsOf b).Nodup := by
                  intro x a hxa
                  by_cases hxo : x = oldPid
                  · subst hxo
                    rw [hgop] at hxa
                    cases Option.some.inj hxa
                    exact ⟨bop, hbop, hbid, hbpar, hbexp, hbcs, hbdep, hbm1, hbm2, hbnd⟩
                  · obtain ⟨b, hb1, hb2⟩ := hrel2 x a hxo hxa
                    refine ⟨b, hb1, hb2.1.symm, hb2.2.1.symm, hb2.2.2.2.2.1.symm, hb2.2.2.1.symm,
                      hb2.2.2.2.2.2.1.symm, ?_, ?_, ?_⟩
                    · intro c hc
                      unfold kidsOf at hc ⊢
                      rw [hb2.2.2.2.1]
                      exact hc
                    · intro c hc hcn
                      unfold kidsOf at hc ⊢
                      rw [← hb2.2.2.2.1]
                      exact hc
                    · have hka := hswf.2.2.2.2 (x, a) (get_mem r x a hxa)
                      show (kidsOf b).Nodup
                      unfold kidsOf at hka ⊢
                      rw [← hb2.2.2.2.1]
                      exact hka
                obtain ⟨np2, hnp2g, hnp2id, hnp2par, hnp2exp, hnp2cs, hnp2dep,
                  hnp2m1, hnp2m2, hnp2nd⟩ := hrel2x newParentId np hgnp
                obtain ⟨node2, hn2g, hn2id, hn2par, hn2exp, hn2cs, hn2dep,
                  hn2m1, hn2m2, hn2nd⟩ := hrel2x nodeId node hget
                have hnidnp2 : nodeId ∉ kidsOf np2 := by
                  intro hmem
                  by_cases hnpo : newParentId = oldPid
                  · rw [hnpo] at hnp2g
                    rw [hbop] at hnp2g
                    rw [← Option.some.inj hnp2g] at hmem
                    exact hbnid hmem
                  · have hmem2 : nodeId ∈ kidsOf np := hnp2m1 nodeId hmem
                    have hpl := hswf.2.2.2.1 (newParentId, np)
                      (get_mem r newParentId np hgnp) nodeId hmem2
                    rw [hget] at hpl
                    simp only [exOpt_some] at hpl
                    rw [hpar] at hpl
                    exact hnpo (Option.some.inj hpl).symm
                have hnpself : newParentId ∉ kidsOf np2 := by
                  intro hmem
                  have hmem2 := hnp2m1 newParentId hmem
                  have hpl := hswf.2.2.2.1 (newParentId, np)
                    (get_mem r newParentId np hgnp) newParentId hmem2
                  rw [hgnp] at hpl
                  simp only [exOpt_some] at hpl
                  obtain ⟨pn, hpn1, hpn2⟩ :=
                    WF_parent_depth r newParentId np newParentId hwf hgnp hpl
                  rw [hgnp] at hpn1
                  cases Option.some.inj hpn1
                  omega
                rw [hnp2g] at h
                dsimp only at h
                have hr3n : (r2.set newParentId
                    { np2 with childNodeIds := some (spliceInsert (np2.childNodeIds.getD [])
                      (idx.getD (np2.childNodeIds.getD []).length) nodeId) }).get nodeId =
                    some node2 := by
                  rw [get_set_ne r2 newParentId nodeId _ (Ne.symm hnpn)]
                  exact hn2g
                rw [hr3n] at h
                dsimp only at h
                have hget4 : ∀ x, ((r2.set newParentId
                    { np2 with childNodeIds := some (spliceInsert (np2.childNodeIds.getD [])
                      (idx.getD (np2.childNodeIds.getD []).length) nodeId) }).set nodeId
                    { node2 with parentNodeId := some newParentId }).get x =
                    if x = nodeId then some { node2 with parentNodeId := some newParentId }
                    else if x = newParentId then some { np2 with childNodeIds := some (spliceInsert (np2.childNodeIds.getD []) (idx.getD (np2.childNodeIds.getD []).length) nodeId) }
                    else r2.get x := by
                  intro x
                  rw [get_set]
                  by_cases h1 : x = nodeId
                  · rw [if_pos h1, if_pos h1]
                  · rw [if_neg h1, if_neg h1, get_set]
                have hr4np := hget4 newParentId
                rw [if_neg hnpn, if_pos rfl] at hr4np
                have hr4n := hget4 nodeId
                rw [if_pos rfl] at hr4n
                rw [hr4np, hr4n] at h
                simp only [Option.map_some', Option.getD_some] at h
                have hkeys4 : keysOf ((r2.set newParentId
                    { np2 with childNodeIds := some (spliceInsert (np2.childNodeIds.getD [])
                      (idx.getD (np2.childNodeIds.getD []).length) nodeId) }).set nodeId
                    { node2 with parentNodeId := some newParentId }) = keysOf r2 := by
                  rw [keysOf_set_mem _ nodeId _ ((get_isSome_iff_mem_keys _ nodeId).mp
                    (by rw [hr3n]; rfl))]
                  exact keysOf_set_mem r2 newParentId _
                    ((get_isSome_iff_mem_keys r2 newParentId).mp (by rw [hnp2g]; rfl))
                have hswf4 : SWF ((r2.set newParentId
                    { np2 with childNodeIds := some (spliceInsert (np2.childNodeIds.getD [])
                      (idx.getD (np2.childNodeIds.getD []).length) nodeId) }).set nodeId
                    { node2 with parentNodeId := some newParentId }) := by
                  refine ⟨by rw [hkeys4]; exact hswf2.1, ?_, ?_, ?_, ?_⟩
                  · intro q hq
                    rcases mem_setEntries _ nodeId _ q hq with h1 | h1
                    · subst h1
                      show node2.nodeId = nodeId
                      rw [hn2id]
                      exact hswf.2.1 (nodeId, node) (get_mem r nodeId node hget)
                    · rcases mem_setEntries _ newParentId _ q h1 with h2 | h2
                      · subst h2
                        show np2.nodeId = newParentId
                        rw [hnp2id]
                        exact hswf.2.1 (newParentId, np) (get_mem r newParentId np hgnp)
                      · exact hswf2.2.1 q h2
                  · intro q hq
                    rcases mem_setEntries _ nodeId _ q hq with h1 | h1
                    · subst h1
                      exact hswf.2.2.1 (nodeId, node) (get_mem r nodeId node hget)
                    · rcases mem_setEntries _ newParentId _ q h1 with h2 | h2
                      · subst h2
                        exact hswf.2.2.1 (newParentId, np) (get_mem r newParentId np hgnp)
                      · exact hswf2.2.2.1 q h2
                  · intro q hq c hc
                    rcases mem_setEntries _ nodeId _ q hq with h1 | h1
                    · subst h1
                      have hc3 : c ∈ kidsOf node := hn2m1 c hc
                      have hpc := hswf.2.2.2.1 (nodeId, node) (get_mem r nodeId node hget) c hc3
                      cases hgc : r.get c with
                      | none =>
                        rw [hgc] at hpc
                        exact hpc.elim
                      | some nc =>
                        rw [hgc] at hpc
                        simp only [exOpt_some] at hpc
                        have hcn : c ≠ nodeId := by
                          intro he
                          rw [he, hget] at hgc
                          cases Option.some.inj hgc
                          rw [hpar] at hpc
                          exact hnodp (Option.some.inj hpc).symm
                        have hcnp : c ≠ newParentId := by
                          intro he
                          have hanc : IsAncestorOf r nodeId c :=
                            IsAncestorOf.parent c nc nodeId hgc hpc
                          rw [he] at hanc
                          exact (hnotanc nodeId hanc) rfl
                        obtain ⟨bc, hbc1, hbcid, hbcpar, hbce, hbcc, hbcd, hbcm1, hbcm2, hbcnd⟩ :=
                          hrel2x c nc hgc
                        rw [hget4 c, if_neg hcn, if_neg hcnp, hbc1]
                        simp only [exOpt_some]
                        rw [hbcpar]
                        exact hpc
                    · rcases mem_setEntries _ newParentId _ q h1 with h2 | h2
                      · subst h2
                        rcases mem_spliceInsert _ _ _ c hc with h3 | h3
                        · subst h3
                          rw [hget4 c, if_pos rfl]
                          simp only [exOpt_some]
                        · have hpc := hswf2.2.2.2.1 (newParentId, np2)
                            (get_mem r2 newParentId np2 hnp2g) c h3
                          cases hgc : r2.get c with
                          | none =>
                            rw [hgc] at hpc
                            exact hpc.elim
                          | some nc2 =>
                            rw [hgc] at hpc
                            simp only [exOpt_some] at hpc
                            have hcn : c ≠ nodeId := fun he => hnidnp2 (he ▸ h3)
                            have hcnp : c ≠ newParentId := fun he => hnpself (he ▸ h3)
                            rw [hget4 c, if_neg hcn, if_neg hcnp, hgc]
                            simp only [exOpt_some]
                            exact hpc
                      · have hpc := hswf2.2.2.2.1 q h2 c hc
                        cases hgc : r2.get c with
                        | none =>
                          rw [hgc] at hpc
                          exact hpc.elim
                        | some nc2 =>
                          rw [hgc] at hpc
                          simp only [exOpt_some] at hpc
                          by_cases hcn : c = nodeId
                          · subst hcn
                            rw [hn2g] at hgc
                            cases Option.some.inj hgc
                            rw [hn2par, hpar] at hpc
                            have hq1 : q.1 = oldPid := (Option.some.inj hpc).symm
                            have hgq : r2.get q.1 = some q.2 := mem_get r2 hswf2.1 q.1 q.2 h2
                            rw [hq1, hbop] at hgq
                            rw [← Option.some.inj hgq] at hc
                            exact absurd hc hbnid
                          · by_cases hcnp : c = newParentId
                            · subst hcnp
                              rw [hnp2g] at hgc
                              cases Option.some.inj hgc
                              rw [hget4 c, if_neg hcn, if_pos rfl]
                              simp only [exOpt_some]
                              exact hpc
                            · rw [hget4 c, if_neg hcn, if_neg hcnp, hgc]
                              simp only [exOpt_some]
                              exact hpc
                  · intro q hq
                    rcases mem_setEntries _ nodeId _ q hq with h1 | h1
                    · subst h1
                      exact hn2nd
                    · rcases mem_setEntries _ newParentId _ q h1 with h2 | h2
                      · subst h2
                        show (spliceInsert (np2.childNodeIds.getD [])
                          (idx.getD (np2.childNodeIds.getD []).length) nodeId).Nodup
                        exact spliceInsert_nodup _ _ _ hnp2nd hnidnp2
                      · exact hswf2.2.2.2.2 q h2
                have hie4 : InvExcept ((r2.set newParentId
                    { np2 with childNodeIds := some (spliceInsert (np2.childNodeIds.getD [])
                      (idx.getD (np2.childNodeIds.getD []).length) nodeId) }).set nodeId
                    { node2 with parentNodeId := some newParentId }) newParentId := by
                  refine invExcept_set2 _ newParentId nodeId node2 _ hr3n rfl ?_ ?_
                  · intro hne4
                    have h2i : InvAt r2 node2 := hsi2 (nodeId, node2) (get_mem r2 nodeId node2 hn2g)
                    have hszall : ∀ c, optSize (((r2.set newParentId
                        { np2 with childNodeIds := some (spliceInsert (np2.childNodeIds.getD [])
                          (idx.getD (np2.childNodeIds.getD []).length) nodeId) }).set nodeId
                        { node2 with parentNodeId := some newParentId }).get c) =
                        optSize (r2.get c) := by
                      intro c
                      rw [hget4 c]
                      by_cases h1 : c = nodeId
                      · rw [if_pos h1, h1, hn2g]
                        rfl
                      · rw [if_neg h1]
                        by_cases h2 : c = newParentId
                        · rw [if_pos h2, h2, hnp2g]
                          rfl
                        · rw [if_neg h2]
                    refine ⟨fun hcc => ?_, fun hcc => ?_⟩
                    · have hv := h2i.1 ⟨hcc.1, hcc.2⟩
                      show node2.visibleSubtreeSize =
                        1 + sumChildSizes _ (kidsOf node2)
                      refine hv.trans ?_
                      rw [sumChildSizes_congr r2 _ (kidsOf node2) (fun c _ => hszall c)]
                    · show node2.visibleSubtreeSize = 1
                      exact h2i.2 hcc
                  · exact invExcept_set r2 newParentId np2 _ hnp2g rfl hsi2
                have hvp4 : VisPath ((r2.set newParentId
                    { np2 with childNodeIds := some (spliceInsert (np2.childNodeIds.getD [])
                      (idx.getD (np2.childNodeIds.getD []).length) nodeId) }).set nodeId
                    { node2 with parentNodeId := some newParentId }) newParentId ln := by
                  refine visPath_transport r _ nodeId ?_ ?_ newParentId ln hvpn hnpn hlnn
                  · rw [rootId_set, rootId_set, hroot2]
                  · intro x hxn a hxa
                    rw [hget4 x, if_neg hxn]
                    by_cases hx2 : x = newParentId
                    · rw [if_pos hx2]
                      subst hx2
                      rw [hgnp] at hxa
                      cases Option.some.inj hxa
                      refine ⟨_, rfl, hnp2par, hnp2exp, hnp2cs, ?_⟩
                      intro c hcm hcn
                      exact mem_spliceInsert_of _ _ _ c (Or.inr (hnp2m2 c hcm hcn))
                    · rw [if_neg hx2]
                      obtain ⟨b, hb1, hbid2, hbpar2, hbexp2, hbcs2, hbdep2, hbm12, hbm22, hbnd2⟩ :=
                        hrel2x x a hxa
                      exact ⟨b, hb1, hbpar2, hbexp2, hbcs2, fun c hcm hcn => hbm22 c hcm hcn⟩
                cases hs2 : (if ({ np2 with childNodeIds := some (spliceInsert
                    (np2.childNodeIds.getD []) (idx.getD (np2.childNodeIds.getD []).length)
                    nodeId) } : NodeMetadata).depth + 1 -
                    ({ node2 with parentNodeId := some newParentId } : NodeMetadata).depth ≠ 0 then
                    updateSubtreeDepth (((r2.set newParentId
                      { np2 with childNodeIds := some (spliceInsert (np2.childNodeIds.getD [])
                        (idx.getD (np2.childNodeIds.getD []).length) nodeId) }).set nodeId
                      { node2 with parentNodeId := some newParentId }).size + 1)
                      ((r2.set newParentId
                      { np2 with childNodeIds := some (spliceInsert (np2.childNodeIds.getD [])
                        (idx.getD (np2.childNodeIds.getD []).length) nodeId) }).set nodeId
                      { node2 with parentNodeId := some newParentId }) nodeId
                      (({ np2 with childNodeIds := some (spliceInsert (np2.childNodeIds.getD [])
                        (idx.getD (np2.childNodeIds.getD []).length) nodeId) } :
                        NodeMetadata).depth + 1 -
                       ({ node2 with parentNodeId := some newParentId } : NodeMetadata).depth)
                  else some ((r2.set newParentId
                      { np2 with childNodeIds := some (spliceInsert (np2.childNodeIds.getD [])
                        (idx.getD (np2.childNodeIds.getD []).length) nodeId) }).set nodeId
                      { node2 with parentNodeId := some newParentId })) with
                | none =>
                  rw [hs2] at h
                  exact Option.noConfusion h
                | some r5 =>
                  rw [hs2] at h
                  dsimp only at h
                  have hdp45 : KeyId r5 ∧ DepthPres ((r2.set newParentId
                      { np2 with childNodeIds := some (spliceInsert (np2.childNodeIds.getD [])
                        (idx.getD (np2.childNodeIds.getD []).length) nodeId) }).set nodeId
                      { node2 with parentNodeId := some newParentId }) r5 := by
                    by_cases hdd : ({ np2 with childNodeIds := some (spliceInsert
                        (np2.childNodeIds.getD []) (idx.getD (np2.childNodeIds.getD []).length)
                        nodeId) } : NodeMetadata).depth + 1 -
                        ({ node2 with parentNodeId := some newParentId } :
                          NodeMetadata).depth ≠ 0
                    · rw [if_pos hdd] at hs2
                      exact updateSubtreeDepth_depthPres _ _ nodeId _ r5 hswf4.2.1 hs2
                    · rw [if_neg hdd] at hs2
                      cases Option.some.inj hs2
                      exact ⟨hswf4.2.1, regRel_refl sameButDepth_refl _⟩
                  obtain ⟨hkey5, hdp5⟩ := hdp45
                  have hswf5 : SWF r5 := swf_regRel sameButDepth _ r5
                    (fun a b hab => ⟨hab.1.symm, hab.2.1.symm, hab.2.2.2.1.symm⟩) hswf4 hdp5
                  have hsz45 : ∀ c, optSize (r5.get c) = optSize (((r2.set newParentId
                      { np2 with childNodeIds := some (spliceInsert (np2.childNodeIds.getD [])
                        (idx.getD (np2.childNodeIds.getD []).length) nodeId) }).set nodeId
                      { node2 with parentNodeId := some newParentId }).get c) := by
                    intro c
                    have ho := hdp5.2.2 c
                    cases h4 : ((r2.set newParentId
                        { np2 with childNodeIds := some (spliceInsert (np2.childNodeIds.getD [])
                          (idx.getD (np2.childNodeIds.getD []).length) nodeId) }).set nodeId
                        { node2 with parentNodeId := some newParentId }).get c with
                    | none =>
                      rw [h4] at ho
                      cases h5 : r5.get c with
                      | none => rfl
                      | some w =>
                        rw [h5] at ho
                        exact ho.elim
                    | some w4 =>
                      rw [h4] at ho
                      cases h5 : r5.get c with
                      | none =>
                        rw [h5] at ho
                        exact ho.elim
                      | some w5 =>
                        rw [h5] at ho
                        show w5.visibleSubtreeSize = w4.visibleSubtreeSize
                        exact ho.2.2.2.2.2.1.symm
                  have hinvAtTrans : ∀ (nk4 nk : NodeMetadata), sameButDepth nk4 nk →
                      InvAt ((r2.set newParentId
                        { np2 with childNodeIds := some (spliceInsert (np2.childNodeIds.getD [])
                          (idx.getD (np2.childNodeIds.getD []).length) nodeId) }).set nodeId
                        { node2 with parentNodeId := some newParentId }) nk4 → InvAt r5 nk := by
                    intro nk4 nk ho hold
                    have hkeq : kidsOf nk = kidsOf nk4 := by
                      unfold kidsOf
                      rw [← ho.2.2.2.1]
                    refine ⟨fun hc => ?_, fun hc => ?_⟩
                    · have hv := hold.1 ⟨by rw [ho.2.2.2.2.1]; exact hc.1,
                        by rw [ho.2.2.1]; exact hc.2⟩
                      rw [← ho.2.2.2.2.2.1, hv, hkeq,
                        sumChildSizes_congr _ r5 (kidsOf nk4) (fun c _ => hsz45 c)]
                    · rw [← ho.2.2.2.2.2.1]
                      exact hold.2 (fun hc4 => hc ⟨by rw [← ho.2.2.2.2.1]; exact hc4.1,
                        by rw [← ho.2.2.1]; exact hc4.2⟩)
                  have hie5 : InvExcept r5 newParentId := by
                    intro k nk hg hk
                    have ho := hdp5.2.2 k
                    cases hg4 : ((r2.set newParentId
                        { np2 with childNodeIds := some (spliceInsert (np2.childNodeIds.getD [])
                          (idx.getD (np2.childNodeIds.getD []).length) nodeId) }).set nodeId
                        { node2 with parentNodeId := some newParentId }).get k with
                    | none =>
                      rw [hg4, hg] at ho
                      exact ho.elim
                    | some nk4 =>
                      rw [hg4, hg] at ho
                      exact hinvAtTrans nk4 nk ho (hie4 k nk4 hg4 hk)
                  have hvp5 : VisPath r5 newParentId ln := by
                    refine visPath_transport _ r5 nodeId (by rw [hdp5.1]) ?_
                      newParentId ln hvp4 hnpn hlnn
                    intro x hxn a hxa
                    have ho := hdp5.2.2 x
                    rw [hxa] at ho
                    cases h5 : r5.get x with
                    | none =>
                      rw [h5] at ho
                      exact ho.elim
                    | some b =>
                      rw [h5] at ho
                      refine ⟨b, rfl, ho.2.1.symm, ho.2.2.2.2.1.symm, ho.2.2.1.symm, ?_⟩
                      intro c hcm hcn
                      unfold kidsOf at hcm ⊢
                      rw [← ho.2.2.2.1]
                      exact hcm
                  have ho5 := hdp5.2.2 newParentId
                  rw [hr4np] at ho5
                  cases hgnp5 : r5.get newParentId with
                  | none =>
                    rw [hgnp5] at ho5
                    exact ho5.elim
                  | some np5 =>
                    rw [hgnp5] at ho5
                    rw [hgnp5] at h
                    dsimp only at h
                    by_cases hpe5 : np5.isExpanded = true
                    · rw [if_pos hpe5] at h
                      cases hrec5 : recalculateAndPropagate r5 newParentId with
                      | none =>
                        rw [hrec5] at h
                        exact Option.noConfusion h
                      | some q =>
                        rw [hrec5] at h
                        simp only [Option.map_some'] at h
                        have h2 := Option.some.inj h
                        rw [Prod.mk.injEq] at h2
                        rw [← h2.2]
                        exact recalcProp_sizeInv r5 newParentId ln q.1 q.2 hswf5 hvp5 hndn
                          hie5 (by rw [hrec5])
                    · rw [if_neg hpe5] at h
                      have h2 := Option.some.inj h
                      rw [Prod.mk.injEq] at h2
                      rw [← h2.2]
                      intro qq hqq
                      obtain ⟨k, nk⟩ := qq
                      have hg : r5.get k = some nk := mem_get r5 hswf5.1 k nk hqq
                      by_cases hkp : k = newParentId
                      · subst hkp
                        rw [hgnp5] at hg
                        cases Option.some.inj hg
                        refine ⟨fun hcc => absurd hcc.1 hpe5, fun hcc => ?_⟩
                        have h2i : InvAt r2 np2 :=
                          hsi2 (k, np2) (get_mem r2 k np2 hnp2g)
                        have hsz : np5.visibleSubtreeSize = np2.visibleSubtreeSize := by
                          rw [← ho5.2.2.2.2.2.1]
                        show np5.visibleSubtreeSize = 1
                        rw [hsz]
                        refine h2i.2 (fun hcc2 => hpe5 ?_)
                        rw [← ho5.2.2.2.2.1]
                        exact hcc2.1
                      · exact hie5 k nk hg hkp

theorem sumChildSizes_nonneg (r : NodeRegistry) :
    ∀ ids, (∀ c ∈ ids, AllOpt (r.get c) (fun cn => 1 ≤ cn.visibleSubtreeSize)) →
      0 ≤ sumChildSizes r ids := by
  intro ids
  induction ids with
  | nil =>
    intro hmem
    exact le_refl 0
  | cons c rest ih =>
    intro hmem
    rw [sumChildSizes_cons]
    have h1 := hmem c (List.mem_cons_self c rest)
    have h2 : 0 ≤ sumChildSizes r rest := ih (fun x hx => hmem x (List.mem_cons_of_mem c hx))
    cases hgc : r.get c with
    | none =>
      show 0 ≤ optSize none + sumChildSizes r rest
      show 0 ≤ 0 + sumChildSizes r rest
      omega
    | some cn =>
      rw [hgc] at h1
      have h3 : 1 ≤ cn.visibleSubtreeSize := h1
      show 0 ≤ cn.visibleSubtreeSize + sumChildSizes r rest
      omega

theorem sizePos_fuel (r : NodeRegistry) (hwf : WF r) (hinv : SizeInv r) :
    ∀ fuel id n, r.get id = some n → r.size ≤ n.depth.toNat + fuel →
      1 ≤ n.visibleSubtreeSize := by
  intro fuel
  induction fuel with
  | zero =>
    intro id n hget hle
    have hlt := WF_depth_lt r id n hwf hget
    have hnn := WF_depth_nonneg r id n hwf hget
    omega
  | succ fuel ih =>
    intro id n hget hle
    have hii : InvAt r n := hinv (id, n) (get_mem r id n hget)
    by_cases hc : n.isExpanded = true ∧ n.childState = ChildState.RESOLVED
    · have hsz := hii.1 hc
      have hnn : 0 ≤ sumChildSizes r (kidsOf n) := by
        refine sumChildSizes_nonneg r (kidsOf n) ?_
        intro c hcm
        have hpl := hwf.1.2.2.2.1 (id, n) (get_mem r id n hget) c hcm
        cases hgc : r.get c with
        | none => exact trivial
        | some cn =>
          rw [hgc] at hpl
          simp only [exOpt_some] at hpl
          show 1 ≤ cn.visibleSubtreeSize
          obtain ⟨pn, hpn, hdep⟩ := WF_parent_depth r c cn id hwf hgc hpl
          rw [hget] at hpn
          cases Option.some.inj hpn
          have hdn := WF_depth_nonneg r id n hwf hget
          exact ih c cn hgc (by omega)
      rw [hsz]
      omega
    · rw [hii.2 hc]

/-- Under the size invariant and well-formed depths, every stored record
has a positive `visibleSubtreeSize`. -/
theorem sizePos (r : NodeRegistry) (hwf : WF r) (hinv : SizeInv r) (id : Nat)
    (n : NodeMetadata) (hget : r.get id = some n) : 1 ≤ n.visibleSubtreeSize :=
  sizePos_fuel r hwf hinv r.size id n hget (by omega)

theorem sumBefore_cons (r : NodeRegistry) (target s : Nat) (rest : List Nat) :
    sumBefore r target (s :: rest) =
      if s = target then 0 else optSize (r.get s) + sumBefore r target rest := rfl

theorem sumBefore_nonneg (r : NodeRegistry)
    (hpos : ∀ id n, r.get id = some n → 1 ≤ n.visibleSubtreeSize) (target : Nat) :
    ∀ ids, 0 ≤ sumBefore r target ids := by
  intro ids
  induction ids with
  | nil => exact le_refl 0
  | cons s rest ih =>
    rw [sumBefore_cons]
    by_cases hs : s = target
    · rw [if_pos hs]
    · rw [if_neg hs]
      cases hgs : r.get s with
      | none =>
        show 0 ≤ 0 + sumBefore r target rest
        omega
      | some sib =>
        have h1 := hpos s sib hgs
        show 0 ≤ sib.visibleSubtreeSize + sumBefore r target rest
        omega

theorem sumBefore_lt (r : NodeRegistry)
    (hpos : ∀ id n, r.get id = some n → 1 ≤ n.visibleSubtreeSize)
    (c : Nat) (nc : NodeMetadata) (hgc : r.get c = some nc) (k : Int)
    (hk : k < nc.visibleSubtreeSize) :
    ∀ ids, c ∈ ids → sumBefore r c ids + k < sumChildSizes r ids := by
  intro ids
  induction ids with
  | nil =>
    intro hmem
    exact absurd hmem (List.not_mem_nil c)
  | cons s rest ih =>
    intro hmem
    rw [sumBefore_cons, sumChildSizes_cons]
    by_cases hs : s = c
    · rw [if_pos hs, hs, hgc]
      have hnn : 0 ≤ sumChildSizes r rest := by
        refine sumChildSizes_nonneg r rest ?_
        intro x hx
        cases hgx : r.get x with
        | none => exact trivial
        | some w =>
          show 1 ≤ w.visibleSubtreeSize
          exact hpos x w hgx
      show 0 + k < nc.visibleSubtreeSize + sumChildSizes r rest
      omega
    · rw [if_neg hs]
      have hcr : c ∈ rest := by
        rcases List.mem_cons.mp hmem with h1 | h1
        · exact absurd h1.symm hs
        · exact h1
      have h2 := ih hcr
      omega

theorem pickChild_cons (r : NodeRegistry) (s : Nat) (rest : List Nat) (x : Int) :
    pickChild r (s :: rest) x =
      match r.get s with
      | none => pickChild r rest x
      | some child =>
        if x < child.visibleSubtreeSize then some (child, x)
        else pickChild r rest (x - child.visibleSubtreeSize) := rfl

theorem pickChild_finds (r : NodeRegistry)
    (hpos : ∀ id n, r.get id = some n → 1 ≤ n.visibleSubtreeSize)
    (c : Nat) (nc : NodeMetadata) (hgc : r.get c = some nc) (k : Int)
    (hk0 : 0 ≤ k) (hk : k < nc.visibleSubtreeSize) :
    ∀ ids, c ∈ ids → pickChild r ids (sumBefore r c ids + k) = some (nc, k) := by
  intro ids
  induction ids with
  | nil =>
    intro hmem
    exact absurd hmem (List.not_mem_nil c)
  | cons s rest ih =>
    intro hmem
    rw [pickChild_cons, sumBefore_cons]
    by_cases hs : s = c
    · rw [hs, hgc, if_pos rfl]
      dsimp only
      rw [show (0 : Int) + k = k from by omega, if_pos hk]
    · rw [if_neg hs]
      have hcr : c ∈ rest := by
        rcases List.mem_cons.mp hmem with h1 | h1
        · exact absurd h1.symm hs
        · exact h1
      have hnn := sumBefore_nonneg r hpos c rest
      cases hgs : r.get s with
      | none =>
        dsimp only
        show pickChild r rest (0 + sumBefore r c rest + k) = some (nc, k)
        rw [show (0 : Int) + sumBefore r c rest + k = sumBefore r c rest + k from by omega]
        exact ih hcr
      | some sib =>
        dsimp only
        have hsp := hpos s sib hgs
        show (if sib.visibleSubtreeSize + sumBefore r c rest + k < sib.visibleSubtreeSize then
            some (sib, sib.visibleSubtreeSize + sumBefore r c rest + k)
          else pickChild r rest
            (sib.visibleSubtreeSize + sumBefore r c rest + k - sib.visibleSubtreeSize)) =
          some (nc, k)
        rw [if_neg (by omega), show sib.visibleSubtreeSize + sumBefore r c rest + k -
          sib.visibleSubtreeSize = sumBefore r c rest + k from by omega]
        exact ih hcr

theorem relIx_congr (r : NodeRegistry) (p v : Nat) (k k2 : Int) (st : Nat)
    (h : RelIx r p v k st) (he : k = k2) : RelIx r p v k2 st := he ▸ h

theorem relIx_bounds (r : NodeRegistry) (hinv : SizeInv r)
    (hpos : ∀ id n, r.get id = some n → 1 ≤ n.visibleSubtreeSize) :
    ∀ {p v : Nat} {k : Int} {st : Nat}, RelIx r p v k st → ∀ np, r.get p = some np →
      0 ≤ k ∧ k < np.visibleSubtreeSize := by
  intro p v k st h
  induction h with
  | refl w =>
    intro np hget
    have h1 := hpos w np hget
    exact ⟨le_refl 0, by omega⟩
  | step p np2 c v nc k2 st2 hgp hexp hres hmem hgnc hsub ih =>
    intro np hget
    rw [hgp] at hget
    cases Option.some.inj hget
    obtain ⟨hk0, hklt⟩ := ih nc hgnc
    have hii : InvAt r np2 := hinv (p, np2) (get_mem r p np2 hgp)
    have hsz := hii.1 ⟨hexp, hres⟩
    have hsblt := sumBefore_lt r hpos c nc hgnc k2 hklt (kidsOf np2) hmem
    have hsbnn := sumBefore_nonneg r hpos c (kidsOf np2)
    rw [hsz]
    exact ⟨by omega, by omega⟩

theorem relIx_snoc (r : NodeRegistry) :
    ∀ {p m : Nat} {k : Int} {st : Nat}, RelIx r p m k st →
      ∀ (nm : NodeMetadata) (c : Nat) (nc : NodeMetadata), r.get m = some nm →
      nm.isExpanded = true → nm.childState = ChildState.RESOLVED → c ∈ kidsOf nm →
      r.get c = some nc → RelIx r p c (k + 1 + sumBefore r c (kidsOf nm)) (st + 1) := by
  intro p m k st h
  induction h with
  | refl w =>
    intro nm c nc hg he2 hr2 hm hgc
    have h1 := RelIx.step w nm c c nc 0 0 hg he2 hr2 hm hgc (RelIx.refl c)
    exact relIx_congr r w c _ _ 1 h1 (by omega)
  | step p np c2 m nc2 k2 st2 hgp hexp hres hmem hgnc2 hsub ih =>
    intro nm c nc hg he2 hr2 hm hgc
    have h1 := ih nm c nc hg he2 hr2 hm hgc
    have h2 := RelIx.step p np c2 c nc2 (k2 + 1 + sumBefore r c (kidsOf nm)) (st2 + 1)
      hgp hexp hres hmem hgnc2 h1
    exact relIx_congr r p c _ _ _ h2 (by omega)

theorem resolveIndexRecursive_succ (r : NodeRegistry) (fuel : Nat) (node : NodeMetadata)
    (targetIndex : Int) :
    resolveIndexRecursive r (fuel + 1) node targetIndex =
      if targetIndex = 0 then some (RecResolve.ok node.nodeId node.depth)
      else
        match pickChild r (if node.isExpanded ∧ node.childState = ChildState.RESOLVED ∧
            node.childNodeIds.isSome then kidsOf node else []) (targetIndex - 1) with
        | some p => resolveIndexRecursive r fuel p.1 p.2
        | none => some RecResolve.thrown := rfl

theorem resolveRec_relIx (r : NodeRegistry) (hswf : SWF r)
    (hpos : ∀ id n, r.get id = some n → 1 ≤ n.visibleSubtreeSize) (hinv : SizeInv r) :
    ∀ {p v : Nat} {k : Int} {st : Nat}, RelIx r p v k st → ∀ np, r.get p = some np →
      ∀ fuel, st < fuel → ∀ nv, r.get v = some nv →
      resolveIndexRecursive r fuel np k = some (RecResolve.ok v nv.depth) := by
  intro p v k st h
  induction h with
  | refl w =>
    intro np hget fuel hlt nv hgv
    cases fuel with
    | zero => omega
    | succ f =>
      rw [resolveIndexRecursive_succ, if_pos rfl]
      rw [hget] at hgv
      cases Option.some.inj hgv
      have hid := hswf.2.1 (w, np) (get_mem r w np hget)
      rw [hid]
  | step p np2 c v nc k2 st2 hgp hexp hres hmem hgnc hsub ih =>
    intro np hget fuel hlt nv hgv
    rw [hgp] at hget
    cases Option.some.inj hget
    cases fuel with
    | zero => omega
    | succ f =>
      obtain ⟨hk0, hklt⟩ := relIx_bounds r hinv hpos hsub nc hgnc
      have hsbnn := sumBefore_nonneg r hpos c (kidsOf np2)
      rw [resolveIndexRecursive_succ, if_neg (by omega)]
      have hsome : np2.childNodeIds.isSome = true := by
        cases hcn : np2.childNodeIds with
        | none =>
          unfold kidsOf at hmem
          rw [hcn] at hmem
          exact absurd hmem (List.not_mem_nil c)
        | some l3 => rfl
      rw [if_pos ⟨hexp, hres, hsome⟩]
      rw [show (1 : Int) + sumBefore r c (kidsOf np2) + k2 - 1 =
        sumBefore r c (kidsOf np2) + k2 from by omega]
      rw [pickChild_finds r hpos c nc hgnc k2 hk0 hklt (kidsOf np2) hmem]
      dsimp only
      exact ih nc hgnc f (by omega) nv hgv

theorem indexSteps_cons (r : NodeRegistry) (parent cur : NodeMetadata)
    (rest : List NodeMetadata) :
    indexSteps r parent (cur :: rest) =
      (1 + (if parent.childState = ChildState.RESOLVED ∧ parent.childNodeIds.isSome then
        sumBefore r cur.nodeId (parent.childNodeIds.getD []) else 0)) +
      indexSteps r cur rest := rfl

theorem indexSteps_snoc (r : NodeRegistry) (cn : NodeMetadata) :
    ∀ (t : List NodeMetadata) (h : NodeMetadata),
      indexSteps r h (t ++ [cn]) = indexSteps r h t + (1 +
        (if (lastRec h t).childState = ChildState.RESOLVED ∧
            (lastRec h t).childNodeIds.isSome then
          sumBefore r cn.nodeId ((lastRec h t).childNodeIds.getD [])
        else 0)) := by
  intro t
  induction t with
  | nil =>
    intro h
    have e0 : lastRec h ([] : List NodeMetadata) = h := rfl
    rw [List.nil_append, indexSteps_cons, e0]
    have e1 : indexSteps r h ([] : List NodeMetadata) = 0 := rfl
    have e2 : indexSteps r cn ([] : List NodeMetadata) = 0 := rfl
    rw [e1, e2]
    omega
  | cons a t2 ih =>
    intro h
    have e0 : lastRec h (a :: t2) = lastRec a t2 := List.getLastD_cons h a t2
    rw [List.cons_append, indexSteps_cons, ih a, e0, indexSteps_cons]
    omega

theorem lastRec_concat (x : NodeMetadata) :
    ∀ (init : List NodeMetadata) (h : NodeMetadata) (t : List NodeMetadata),
      h :: t = init ++ [x] → lastRec h t = x := by
  intro init
  induction init with
  | nil =>
    intro h t he
    rw [List.nil_append] at he
    injection he with e1 e2
    subst e1
    subst e2
    rfl
  | cons a init2 ih =>
    intro h t he
    rw [List.cons_append] at he
    injection he with e1 e2
    cases t with
    | nil =>
      cases init2 with
      | nil => exact List.noConfusion e2
      | cons b init3 => exact List.noConfusion e2
    | cons t0 t2 =>
      have e3 : lastRec h (t0 :: t2) = lastRec t0 t2 := List.getLastD_cons h t0 t2
      rw [e3]
      exact ih t0 t2 e2

theorem buildPath_succ (r : NodeRegistry) (fuel : Nat) (current : NodeMetadata) :
    buildPath r (fuel + 1) current =
      match current.parentNodeId with
      | none => some [current]
      | some p =>
        match r.get p with
        | none => some [current]
        | some parent => (buildPath r fuel parent).map (· ++ [current]) := rfl

theorem getIx_visPath (r : NodeRegistry) (hwf : WF r) :
    ∀ v l, VisPath r v l → ∀ nv, r.get v = some nv → ∀ fuel, l.length < fuel →
      ∃ head tail init, buildPath r fuel nv = some (head :: tail) ∧
        head :: tail = init ++ [nv] ∧ (∀ x ∈ init, x.isExpanded = true) ∧
        r.rootId = some head.nodeId ∧ r.get head.nodeId = some head ∧
        RelIx r head.nodeId v (indexSteps r head tail) tail.length ∧
        tail.length = l.length := by
  intro v l hvp
  induction hvp with
  | root rt n hroot hget hpar =>
    intro nv hnv fuel hlen
    rw [hget] at hnv
    cases Option.some.inj hnv
    cases fuel with
    | zero => omega
    | succ f =>
      have hkid : n.nodeId = rt := hwf.1.2.1 (rt, n) (get_mem r rt n hget)
      refine ⟨n, [], [], ?_, rfl, ?_, ?_, ?_, ?_, rfl⟩
      · rw [buildPath_succ, hpar]
      · intro x hx
        exact absurd hx (List.not_mem_nil x)
      · rw [hkid]
        exact hroot
      · rw [hkid]
        exact hget
      · show RelIx r n.nodeId rt 0 0
        rw [hkid]
        exact RelIx.refl rt
  | child id n c cn l2 hsub hget hexp hres hmem hgetc hparc ih =>
    intro nv hnv fuel hlen
    rw [hgetc] at hnv
    cases Option.some.inj hnv
    cases fuel with
    | zero =>
      have h0 : (id :: l2).length = l2.length + 1 := rfl
      omega
    | succ f =>
      have hl2 : l2.length < f := by
        have h0 : (id :: l2).length = l2.length + 1 := rfl
        omega
      obtain ⟨head, tail, init, hbp, hdecomp, hinitexp, hrootid, hgethead, hrelix, hlentl⟩ :=
        ih n hget f hl2
      have hcnid : cn.nodeId = c := hwf.1.2.1 (c, cn) (get_mem r c cn hgetc)
      have hsome : n.childNodeIds.isSome = true := by
        cases hcn2 : n.childNodeIds with
        | none =>
          unfold kidsOf at hmem
          rw [hcn2] at hmem
          exact absurd hmem (List.not_mem_nil c)
        | some l3 => rfl
      have hlast : lastRec head tail = n := lastRec_concat n init head tail hdecomp
      refine ⟨head, tail ++ [cn], init ++ [n], ?_, ?_, ?_, hrootid, hgethead, ?_, ?_⟩
      · rw [buildPath_succ, hparc]
        dsimp only
        rw [hget]
        dsimp only
        rw [hbp]
        simp only [Option.map_some']
        rw [List.cons_append]
      · rw [← List.cons_append, hdecomp]
      · intro x hx
        rcases List.mem_append.mp hx with h1 | h1
        · exact hinitexp x h1
        · rw [List.mem_singleton] at h1
          subst h1
          exact hexp
      · rw [indexSteps_snoc, hlast, hcnid, if_pos ⟨hres, hsome⟩]
        rw [show (tail ++ [cn]).length = tail.length + 1 from by
          rw [List.length_append, List.length_singleton]]
        refine relIx_congr r head.nodeId c _ _ _
          (relIx_snoc r hrelix n c cn hget hexp hres hmem hgetc) ?_
        show indexSteps r head tail + 1 + sumBefore r c (kidsOf n) = _
        unfold kidsOf
        omega
      · rw [List.length_append, List.length_singleton]
        have h0 : (id :: l2).length = l2.length + 1 := rfl
        omega

/-!
Claim C1: round trip of index resolution (corrected).
-/

/-- C1 counterexample: with visibility read as the claim does — every
proper ancestor expanded — the round trip fails.  In `insReg`, node 6 is
stored with parent 2 but not yet listed in 2's child list (the documented
input state of `insertNode`); its proper ancestors 2 and 1 are both
expanded, the registry is well-formed and satisfies the size invariant,
yet `getIndexOfNode` answers 4 while `resolveIndex 4` finds node 3. -/
theorem c1_counterexample_unlisted_child :
    WF insReg ∧ SizeInv insReg ∧
    ((insReg.get 6).map (fun n => n.parentNodeId)) = some (some 2) ∧
    ((insReg.get 2).map (fun n => (n.isExpanded, n.parentNodeId))) = some (true, some 1) ∧
    ((insReg.get 1).map (fun n => (n.isExpanded, n.parentNodeId))) = some (true, none) ∧
    getIndexOfNode insReg 6 = some 4 ∧
    resolveIndex insReg 4 = some (ResolveOutcome.found 3 1) := by
  refine ⟨by decide, by decide, by decide, by decide, by decide, by decide, by decide⟩

/-- C1 amended: on a registry with well-formed structure and depths whose
sizes satisfy the size invariant, every node occupying a slot of the
visible projection — each proper ancestor expanded with resolved children
listing it — has a defined index i = getIndexOfNode(v), and resolveIndex(i)
finds v again together with v's stored depth.  (For a node whose ancestors
are merely expanded but whose parent does not list it, the round trip can
fail, see the counterexample.) -/
theorem c1_round_trip (r : NodeRegistry) (v : Nat) (hwf : WF r) (hinv : SizeInv r)
    (hvis : Visible r v) :
    ∃ i nv, getIndexOfNode r v = some i ∧ r.get v = some nv ∧
      resolveIndex r i = some (ResolveOutcome.found v nv.depth) := by
  have hswf := hwf.1
  have hpos : ∀ id n, r.get id = some n → 1 ≤ n.visibleSubtreeSize :=
    fun id n hg => sizePos r hwf hinv id n hg
  obtain ⟨l, hvp⟩ := visible_visPath r hwf v hvis
  obtain ⟨nv, hnv⟩ := visPath_get r v l hvp
  have hnd := visPath_nodup r hwf v l hvp
  have hlenl : l.length < r.size + 1 := by
    have hsubset : v :: l ⊆ keysOf r := by
      intro x hx
      obtain ⟨nx, hnx⟩ := chainLink_mem_some r (v :: l) (visPath_chainLink r v l hvp) x hx
      exact (get_isSome_iff_mem_keys r x).mp (by rw [hnx]; rfl)
    have hsp := (List.Nodup.subperm hnd hsubset).length_le
    have hkl : (keysOf r).length = r.size := by
      simp [keysOf, NodeRegistry.size]
    have h0 : (v :: l).length = l.length + 1 := rfl
    omega
  obtain ⟨head, tail, init, hbp, hdecomp, hinitexp, hrootid, hgethead, hrelix, hlentl⟩ :=
    getIx_visPath r hwf v l hvp nv hnv (r.size + 1) hlenl
  have hall : (head :: tail).dropLast.all (fun x => x.isExpanded) = true := by
    rw [hdecomp, List.dropLast_concat, List.all_eq_true]
    intro x hx
    exact hinitexp x hx
  have hgix : getIndexOfNode r v = some (indexSteps r head tail) := by
    unfold getIndexOfNode
    rw [hnv]
    dsimp only
    rw [hbp]
    dsimp only
    rw [if_pos hall]
  refine ⟨indexSteps r head tail, nv, hgix, hnv, ?_⟩
  obtain ⟨h0, hlt⟩ := relIx_bounds r hinv hpos hrelix head hgethead
  unfold resolveIndex
  rw [hrootid]
  dsimp only
  rw [hgethead]
  dsimp only
  have hng : ¬(indexSteps r head tail < 0 ∨
      indexSteps r head tail ≥ head.visibleSubtreeSize) := by omega
  rw [if_neg hng]
  rw [resolveRec_relIx r hswf hpos hinv hrelix head hgethead (r.size + 1) (by omega) nv hnv]
  rfl

/-- Concrete round trip on the demo tree: the visible leaf 5 (a2) sits at
index 3 and resolves back to itself at depth 2. -/
theorem c1_round_trip_witness :
    getIndexOfNode demoReg 5 = some 3 ∧
    resolveIndex demoReg 3 = some (ResolveOutcome.found 5 2) := by
  obtain ⟨i, nv, h1, h2, h3⟩ := c1_round_trip demoReg 5 (by decide) (by decide)
    (Visible.child 2 _ 5
      (Visible.child 1 demoRootNode 2 (Visible.root 1 rfl) rfl rfl rfl (by decide))
      rfl rfl rfl (by decide))
  have h4 : getIndexOfNode demoReg 5 = some (3 : Int) := by decide
  have e1 : i = 3 := Option.some.inj (h1.symm.trans h4)
  have h5 : demoReg.get 5 = some ((demoReg.get 5).getD demoBNode) := rfl
  rw [h5] at h2
  cases Option.some.inj h2
  have e2 : ((demoReg.get 5).getD demoBNode).depth = 2 := by decide
  subst e1
  rw [← e2]
  exact ⟨h1, h3⟩

/-!
Claim C2: preservation of the size invariant.
-/

/-- The unamended C2 fails: expanding a node hidden below a collapsed
ancestor pushes the size delta into the collapsed ancestor, whose record
then violates the invariant although the whole registry satisfied it
before the call. -/
theorem c2_counterexample_hidden_expand :
    SizeInv chainReg ∧ (expand chainReg 3).isSome = true ∧
    ¬ SizeInv afterHiddenExpandReg := by
  refine ⟨by decide, by decide, by decide⟩

/-- C2: on a well-formed registry satisfying the size invariant, every
completed operation preserves it when the operated site is visible — the
expanded or collapsed node, the completed node (loading, with
duplicate-free registered children), the insertion parent (of a
not-yet-listed child), the removed node's parent, and, for a move whose
destination differs from the moved node, the old parent, with the new
parent visible too. -/
theorem c2_size_invariant_ops :
    (∀ r nodeId res r', WF r → SizeInv r → Visible r nodeId →
      expand r nodeId = some (res, r') → SizeInv r') ∧
    (∀ r nodeId b r', WF r → SizeInv r → Visible r nodeId →
      collapse r nodeId = some (b, r') → SizeInv r') ∧
    (∀ r nodeId kids err r', WF r → SizeInv r → Visible r nodeId →
      (∀ n, NodeRegistry.get r nodeId = some n → n.childState = ChildState.LOADING) →
      List.Nodup kids →
      (∀ c ∈ kids, ExOpt (NodeRegistry.get r c) (fun cn => cn.parentNodeId = some nodeId)) →
      completeExpand r nodeId kids err = some r' → SizeInv r') ∧
    (∀ r parentId newNodeId idx b r', WF r → SizeInv r → Visible r parentId →
      (∀ pn, NodeRegistry.get r parentId = some pn → newNodeId ∉ kidsOf pn) →
      insertNode r parentId newNodeId idx = some (b, r') → SizeInv r') ∧
    (∀ r nodeId cnt r', WF r → SizeInv r →
      (∀ n pid, NodeRegistry.get r nodeId = some n → n.parentNodeId = some pid →
        Visible r pid) →
      removeNode r nodeId = some (cnt, r') → SizeInv r') ∧
    (∀ r nodeId newParentId idx b r', WF r → SizeInv r →
      (∀ n pid, NodeRegistry.get r nodeId = some n → n.parentNodeId = some pid →
        Visible r pid) →
      Visible r newParentId → newParentId ≠ nodeId →
      moveNode r nodeId newParentId idx = some (b, r') → SizeInv r') := by
  refine ⟨?_, ?_, ?_, ?_, ?_, ?_⟩
  · exact fun r nodeId res r' hwf hinv hvis h =>
      sizeInv_expand r nodeId res r' hwf hinv hvis h
  · exact fun r nodeId b r' hwf hinv hvis h =>
      sizeInv_collapse r nodeId b r' hwf hinv hvis h
  · exact fun r nodeId kids err r' hwf hinv hvis hload hknd hkpar h =>
      sizeInv_completeExpand r nodeId kids err r' hwf hinv hvis hload hknd hkpar h
  · exact fun r parentId newNodeId idx b r' hwf hinv hvis hnk h =>
      sizeInv_insertNode r parentId newNodeId idx b r' hwf hinv hvis hnk h
  · exact fun r nodeId cnt r' hwf hinv hv h =>
      sizeInv_removeNode r nodeId cnt r' hwf hinv hv h
  · exact fun r nodeId npid idx b r' hwf hinv hvold hvnew hne2 h =>
      sizeInv_moveNode r nodeId npid idx b r' hwf hinv hvold hvnew hne2 h

/-- Concrete instantiation of all six preserved operations on the demo
registries. -/
theorem c2_size_invariant_ops_witness :
    SizeInv afterExpandReg ∧ SizeInv afterCollapseReg ∧ SizeInv afterCompleteEmptyReg ∧
    SizeInv afterInsertReg ∧ SizeInv afterRemoveReg ∧ SizeInv afterMoveReg := by
  refine ⟨?_, ?_, ?_, ?_, ?_, ?_⟩
  · exact c2_size_invariant_ops.1 demoReg 3 afterExpandRes afterExpandReg (by decide)
      (by decide)
      (Visible.child 1 demoRootNode 3 (Visible.root 1 rfl) rfl rfl rfl (by decide)) rfl
  · exact c2_size_invariant_ops.2.1 demoReg 2 ((collapse demoReg 2).getD (false, demoReg)).1
      afterCollapseReg (by decide) (by decide)
      (Visible.child 1 demoRootNode 2 (Visible.root 1 rfl) rfl rfl rfl (by decide)) rfl
  · exact c2_size_invariant_ops.2.2.1 afterExpandReg 3 [] none afterCompleteEmptyReg
      (by decide) (by decide)
      (Visible.child 1 _ 3 (Visible.root 1 rfl) rfl rfl rfl (by decide))
      (fun n h1 => by
        rw [show afterExpandReg.get 3 = some ((afterExpandReg.get 3).getD demoBNode)
          from rfl] at h1
        cases Option.some.inj h1
        decide)
      List.nodup_nil (fun c hc => absurd hc (List.not_mem_nil c)) rfl
  · exact c2_size_invariant_ops.2.2.2.1 insReg 2 6 none
      ((insertNode insReg 2 6 none).getD (false, insReg)).1 afterInsertReg (by decide)
      (by decide)
      (Visible.child 1 demoRootNode 2 (Visible.root 1 rfl) rfl rfl rfl (by decide))
      (fun pn h1 => by
        rw [show insReg.get 2 = some ((insReg.get 2).getD demoBNode) from rfl] at h1
        cases Option.some.inj h1
        decide) rfl
  · exact c2_size_invariant_ops.2.2.2.2.1 demoReg 4
      ((removeNode demoReg 4).getD (0, demoReg)).1 afterRemoveReg (by decide) (by decide)
      (fun n pid h1 h2 => by
        rw [show demoReg.get 4 = some demoA1Node from rfl] at h1
        cases Option.some.inj h1
        rw [show demoA1Node.parentNodeId = some 2 from rfl] at h2
        cases Option.some.inj h2
        exact Visible.child 1 demoRootNode 2 (Visible.root 1 rfl) rfl rfl rfl (by decide)) rfl
  · exact c2_size_invariant_ops.2.2.2.2.2 demoReg 3 2 none
      ((moveNode demoReg 3 2 none).getD (false, demoReg)).1 afterMoveReg (by decide)
      (by decide)
      (fun n pid h1 h2 => by
        rw [show demoReg.get 3 = some demoBNode from rfl] at h1
        cases Option.some.inj h1
        rw [show demoBNode.parentNodeId = some 1 from rfl] at h2
        cases Option.some.inj h2
        exact Visible.root 1 rfl)
      (Visible.child 1 demoRootNode 2 (Visible.root 1 rfl) rfl rfl rfl (by decide))
      (by decide) rfl

/-!
Claim C7: getRange bounds.
-/

/-- C7: for every registry, an offset below 0 or at or beyond the total
visible count, or a non-positive limit, makes `getRange` return the empty
sequence (the bounds test precedes any traversal in the definition, and
`getRange` never writes to the registry). -/
theorem c7_getRange_bounds (r : NodeRegistry) (offset limit : Int)
    (h : offset < 0 ∨ getTotalVisibleCount r ≤ offset ∨ limit ≤ 0) :
    getRange r offset limit = some [] := by
  unfold getRange
  cases hrt : r.rootId with
  | none => rfl
  | some rt =>
    dsimp only
    cases hroot : r.get rt with
    | none => rfl
    | some root =>
      have hcond : offset < 0 ∨ offset ≥ root.visibleSubtreeSize ∨ limit ≤ 0 := by
        unfold getTotalVisibleCount at h
        rw [hrt] at h
        dsimp only at h
        rw [hroot] at h
        tauto
      dsimp only
      rw [if_pos hcond]

/-- Witness for C7 at a concrete registry: offset 5 equals the total
visible count 5 of the demo tree. -/
theorem c7_getRange_bounds_witness : getRange demoReg 5 10 = some [] :=
  c7_getRange_bounds demoReg 5 10 (by decide)

/-!
Claim C9: depth-first visible order.
-/

/-- C9: on the nested demo tree (root → a → [a1, a2], root → b, root and a
expanded with consistent sizes) `getRange 0 10` returns the views in the
order root, a, a1, a2, b with depths 0, 1, 2, 2, 1. -/
theorem c9_nested_range_order :
    (getRange demoReg 0 10).map (fun l => l.map (fun v => (v.nodeId, v.label, v.depth))) =
      some [(1, "Root", 0), (2, "A", 1), (4, "A1", 2), (5, "A2", 2), (3, "B", 1)] := by
  decide

/-!
Claim C10: completeExpand on a missing node.
-/

/-- C10: for a nodeId absent from the registry, the engine's
`completeExpand` leaves every node record unchanged (the controller returns
early) but still increments the epoch by exactly 1. -/
theorem c10_completeExpand_missing (e : SightlineEngine) (nodeId : Nat)
    (childNodeIds : List Nat) (error : Option String)
    (h : e.registry.get nodeId = none) :
    SightlineEngine.completeExpand e nodeId childNodeIds error =
      some { registry := e.registry, epoch := e.epoch + 1 } := by
  unfold SightlineEngine.completeExpand completeExpand
  rw [h]
  rfl

/-- Witness for C10: node 99 is absent from the demo registry. -/
theorem c10_completeExpand_missing_witness :
    SightlineEngine.completeExpand demoEngine 99 [7] none =
      some { registry := demoEngine.registry, epoch := demoEngine.epoch + 1 } :=
  c10_completeExpand_missing demoEngine 99 [7] none (by decide)

/-!
Claim C3: idempotence of no-op toggles (corrected).
-/

/-- C3 counterexample: node 1 of the demo engine is already expanded, yet
the engine's `expand` increments the epoch from 0 to 1 (while indeed
leaving every record unchanged), contradicting the claim that a no-op
expand changes neither state nor epoch. -/
theorem c3_counterexample_expand_bumps_epoch :
    (demoEngine.registry.get 1).map (·.isExpanded) = some true ∧
    demoEngine.epoch = 0 ∧
    (SightlineEngine.expand demoEngine 1).map (·.epoch) = some 1 ∧
    (SightlineEngine.expand demoEngine 1).map (·.registry) = some demoEngine.registry := by
  decide

/-- C3 amended: collapsing an already-collapsed node changes neither the
records nor the epoch; expanding an already-expanded node leaves every
record unchanged but increments the epoch by exactly 1. -/
theorem c3_noop_toggles :
    (∀ (e : SightlineEngine) (nodeId : Nat) (n : NodeMetadata),
        e.registry.get nodeId = some n → n.isExpanded = true →
        SightlineEngine.expand e nodeId = some { registry := e.registry, epoch := e.epoch + 1 }) ∧
    (∀ (e : SightlineEngine) (nodeId : Nat) (n : NodeMetadata),
        e.registry.get nodeId = some n → n.isExpanded = false →
        SightlineEngine.collapse e nodeId = some { registry := e.registry, epoch := e.epoch }) := by
  constructor
  · intro e nodeId n hget hexp
    unfold SightlineEngine.expand expand
    rw [hget]
    simp [hexp]
  · intro e nodeId n hget hexp
    unfold SightlineEngine.collapse collapse
    rw [hget]
    simp [hexp]

/-- Witness for the amended C3 at concrete inputs: a redundant expand of
node 1 and a redundant collapse of node 3 in the demo engine. -/
theorem c3_noop_toggles_witness :
    SightlineEngine.expand demoEngine 1 =
      some { registry := demoEngine.registry, epoch := demoEngine.epoch + 1 } ∧
    SightlineEngine.collapse demoEngine 3 =
      some { registry := demoEngine.registry, epoch := demoEngine.epoch } :=
  ⟨c3_noop_toggles.1 demoEngine 1 demoRootNode (by decide) (by decide),
   c3_noop_toggles.2 demoEngine 3 demoBNode (by decide) (by decide)⟩

/-!
Claim C6: the child-resolution error boundary.
-/

/-- C6: an unexpanded `UNRESOLVED` node (size 1) expands to a
needs-provider = true result, transitioning to `LOADING` with size still 1;
a subsequent `completeExpand` with an error yields `ERROR`, expanded, size
still 1, and a view carrying `errorFlag = true`. -/
theorem c6_error_boundary (r : NodeRegistry) (nodeId : Nat) (n : NodeMetadata) (err : String)
    (hget : r.get nodeId = some n) (hstate : n.childState = ChildState.UNRESOLVED)
    (hexp : n.isExpanded = false) (hsize : n.visibleSubtreeSize = 1) :
    ∃ res r1 r2,
      expand r nodeId = some (res, r1) ∧ res.success = true ∧ res.needsProvider = true ∧
      (∃ n1, r1.get nodeId = some n1 ∧ n1.childState = ChildState.LOADING ∧
        n1.isExpanded = false ∧ n1.visibleSubtreeSize = 1) ∧
      completeExpand r1 nodeId [] (some err) = some r2 ∧
      (∃ n2, r2.get nodeId = some n2 ∧ n2.childState = ChildState.ERROR ∧
        n2.isExpanded = true ∧ n2.visibleSubtreeSize = 1 ∧
        (getNodeView r2 nodeId).map (·.errorFlag) = some (some true)) := by
  have hexpand : expand r nodeId =
      some ({ success := true, needsProvider := true, newVisibleCount := none },
        r.set nodeId { n with childState := ChildState.LOADING }) := by
    unfold expand
    rw [hget]
    simp [hexp, hstate]
  have hcomplete :
      completeExpand (r.set nodeId { n with childState := ChildState.LOADING }) nodeId []
          (some err) =
        some ((r.set nodeId { n with childState := ChildState.LOADING }).set nodeId
          { n with childState := ChildState.ERROR, isExpanded := true }) := by
    unfold completeExpand
    rw [get_set_self]
    rfl
  refine ⟨_, _, _, hexpand, rfl, rfl,
    ⟨{ n with childState := ChildState.LOADING }, get_set_self _ _ _, rfl, hexp, hsize⟩,
    hcomplete,
    ⟨{ n with childState := ChildState.ERROR, isExpanded := true },
      get_set_self _ _ _, rfl, rfl, hsize, ?_⟩⟩
  unfold getNodeView
  rw [get_set_self]
  rfl

/-- Witness for C6 on the single-node unresolved registry. -/
theorem c6_error_boundary_witness :
    ∃ res r1 r2,
      expand soloReg 1 = some (res, r1) ∧ res.success = true ∧ res.needsProvider = true ∧
      (∃ n1, r1.get 1 = some n1 ∧ n1.childState = ChildState.LOADING ∧
        n1.isExpanded = false ∧ n1.visibleSubtreeSize = 1) ∧
      completeExpand r1 1 [] (some "boom") = some r2 ∧
      (∃ n2, r2.get 1 = some n2 ∧ n2.childState = ChildState.ERROR ∧
        n2.isExpanded = true ∧ n2.visibleSubtreeSize = 1 ∧
        (getNodeView r2 1).map (·.errorFlag) = some (some true)) :=
  c6_error_boundary soloReg 1 (createNode 1 noOpts) "boom" (by decide) (by decide)
    (by decide) (by decide)

/-!
Claim C8: resolveIndex bounds and fatal signalling.
-/

/-- C8: with a root present, any target index below 0 or at or beyond the
root's subtree size yields the NOT_FOUND result (the bounds test precedes
the traversal in the definition); an in-bounds index can never yield
NOT_FOUND — the recursive resolver either finds a node or signals the
uncovered-remainder condition as the distinct thrown-error outcome, as
exercised on a concrete corrupted registry. -/
theorem c8_resolveIndex_bounds (r : NodeRegistry) (rt : Nat) (root : NodeMetadata)
    (targetIndex : Int) (hrt : r.rootId = some rt) (hroot : r.get rt = some root) :
    ((targetIndex < 0 ∨ root.visibleSubtreeSize ≤ targetIndex) →
      resolveIndex r targetIndex = some ResolveOutcome.notFound) ∧
    (0 ≤ targetIndex → targetIndex < root.visibleSubtreeSize →
      resolveIndex r targetIndex ≠ some ResolveOutcome.notFound) ∧
    resolveIndex corruptReg 2 = some ResolveOutcome.fatal ∧
    ResolveOutcome.fatal ≠ ResolveOutcome.notFound := by
  refine ⟨?_, ?_, by decide, by decide⟩
  · intro h
    unfold resolveIndex
    rw [hrt]
    dsimp only
    rw [hroot]
    dsimp only
    rw [if_pos h]
  · intro h0 h1 hcontra
    unfold resolveIndex at hcontra
    rw [hrt] at hcontra
    dsimp only at hcontra
    rw [hroot] at hcontra
    dsimp only at hcontra
    rw [if_neg (by omega)] at hcontra
    cases hrec : resolveIndexRecursive r (r.size + 1) root targetIndex with
    | none =>
      rw [hrec] at hcontra
      simp at hcontra
    | some res =>
      rw [hrec] at hcontra
      cases res <;> simp at hcontra

/-- Witness for C8 on the demo registry (root size 5): index 7 is out of
bounds, index 3 is in bounds. -/
theorem c8_resolveIndex_bounds_witness :
    resolveIndex demoReg 7 = some ResolveOutcome.notFound ∧
    resolveIndex demoReg 3 ≠ some ResolveOutcome.notFound := by
  have h := c8_resolveIndex_bounds demoReg 1 demoRootNode 7 (by decide) (by decide)
  have h3 := c8_resolveIndex_bounds demoReg 1 demoRootNode 3 (by decide) (by decide)
  exact ⟨h.1 (by decide), h3.2.1 (by decide) (by decide)⟩

/-!
Claim C5: the tagged-union invariant (corrected).
-/

/-- C5 counterexample: `createNode` with an explicit empty child list
produces a node whose `childState` is `EMPTY` (not `RESOLVED`) while its
`childNodeIds` is defined, refuting the if-and-only-if. -/
theorem c5_counterexample_empty_childlist :
    (createNode 1 { noOpts with childNodeIds := some [] }).childState ≠ ChildState.RESOLVED ∧
    (createNode 1 { noOpts with childNodeIds := some [] }).childNodeIds ≠ none := by
  decide

theorem pPres_refl (r : NodeRegistry) : PPres r r :=
  fun x n' hx => ⟨n', hx, rfl⟩

theorem pPres_trans (r1 r2 r3 : NodeRegistry) (h12 : PPres r1 r2) (h23 : PPres r2 r3) :
    PPres r1 r3 := by
  intro x n' hx
  obtain ⟨n2, h2, e2⟩ := h23 x n' hx
  obtain ⟨n1, h1, e1⟩ := h12 x n2 h2
  exact ⟨n1, h1, e2.trans e1⟩

theorem pPres_set (r : NodeRegistry) (id : Nat) (node b : NodeMetadata)
    (hget : r.get id = some node) (hp : b.parentNodeId = node.parentNodeId) :
    PPres r (r.set id b) := by
  intro x n' hx
  rw [get_set] at hx
  by_cases hxi : x = id
  · rw [if_pos hxi] at hx
    cases Option.some.inj hx
    subst hxi
    exact ⟨node, hget, hp⟩
  · rw [if_neg hxi] at hx
    exact ⟨n', hx, rfl⟩

theorem isAncestorOf_ppres (r r' : NodeRegistry) (hpp : PPres r r') :
    ∀ a d, IsAncestorOf r' a d → IsAncestorOf r a d := by
  intro a d h
  induction h with
  | parent d n a2 hget hp =>
    obtain ⟨n0, hg0, hpar⟩ := hpp d n hget
    exact IsAncestorOf.parent d n0 a2 hg0 (hpar.symm.trans hp)
  | step d n m a2 hget hp hsub ih =>
    obtain ⟨n0, hg0, hpar⟩ := hpp d n hget
    exact IsAncestorOf.step d n0 m a2 hg0 (hpar.symm.trans hp) ih

theorem acyclic_ppres (r r' : NodeRegistry) (hpp : PPres r r') (hacy : Acyclic r) :
    Acyclic r' :=
  fun m hm => hacy m (isAncestorOf_ppres r r' hpp m m hm)

theorem isAncestorOf_trans (r : NodeRegistry) (a : Nat) :
    ∀ m d, IsAncestorOf r m d → IsAncestorOf r a m → IsAncestorOf r a d := by
  intro m d h2
  induction h2 with
  | parent d2 n2 a2 hget hp =>
    intro h1
    exact IsAncestorOf.step d2 n2 a2 a hget hp h1
  | step d2 n2 m2 a2 hget hp hsub ih =>
    intro h1
    exact IsAncestorOf.step d2 n2 m2 a hget hp (ih h1)

theorem isDescendantLoop_ne_false (r : NodeRegistry) :
    ∀ a d, IsAncestorOf r a d → ∀ fuel, isDescendantLoop r a fuel (r.get d) ≠ some false := by
  intro a d h
  induction h with
  | parent d n a2 hget hp =>
    intro fuel
    rw [hget, isDescendantLoop_some, hp]
    dsimp only
    rw [if_pos rfl]
    decide
  | step d n m a2 hget hp hsub ih =>
    intro fuel
    rw [hget, isDescendantLoop_some, hp]
    dsimp only
    by_cases hma : m = a2
    · rw [if_pos hma]
      decide
    · rw [if_neg hma]
      cases fuel with
      | zero =>
        dsimp only
        decide
      | succ f =>
        dsimp only
        exact ih f

theorem isDescendant_false_not_ancestor (r : NodeRegistry) (p n : Nat)
    (h : isDescendant r p n = some false) : ¬ IsAncestorOf r n p :=
  fun hanc => isDescendantLoop_ne_false r n p hanc (r.size + 1) h

theorem isAncestorOf_depth_lt (r : NodeRegistry) (hwf : WF r) :
    ∀ a d, IsAncestorOf r a d → ∀ na nd, r.get a = some na → r.get d = some nd →
      na.depth < nd.depth := by
  intro a d h
  induction h with
  | parent d n a2 hget hp =>
    intro na nd hga hgd
    rw [hget] at hgd
    cases Option.some.inj hgd
    obtain ⟨pn, hpn, hdep⟩ := WF_parent_depth r d n a2 hwf hget hp
    rw [hga] at hpn
    cases Option.some.inj hpn
    omega
  | step d n m a2 hget hp hsub ih =>
    intro na nd hga hgd
    rw [hget] at hgd
    cases Option.some.inj hgd
    obtain ⟨pn, hpn, hdep⟩ := WF_parent_depth r d n m hwf hget hp
    have h2 := ih na pn hga hpn
    omega

/-- Coherent depths rule out parent-pointer cycles. -/
theorem acyclic_of_wf (r : NodeRegistry) (hwf : WF r) : Acyclic r := by
  intro m hm
  have hget : ∃ n, r.get m = some n := by
    cases hm with
    | parent d n0 a hget0 hp0 => exact ⟨n0, hget0⟩
    | step d n0 m2 a hget0 hp0 hsub => exact ⟨n0, hget0⟩
  obtain ⟨n, hg⟩ := hget
  have h2 := isAncestorOf_depth_lt r hwf m m hm n n hg hg
  omega

theorem recalculateSubtreeSize_ppres (r : NodeRegistry) (nodeId : Nat) (hk : KeyId r) :
    KeyId (recalculateSubtreeSize r nodeId).2 ∧ PPres r (recalculateSubtreeSize r nodeId).2 := by
  unfold recalculateSubtreeSize
  cases hget : r.get nodeId with
  | none => exact ⟨hk, pPres_refl r⟩
  | some node =>
    dsimp only
    by_cases hc : ¬node.isExpanded ∨ node.childState ≠ ChildState.RESOLVED ∨
      node.childNodeIds = none
    · rw [if_pos hc]
      exact ⟨keyId_set r nodeId _ hk (keyId_of_get r nodeId node hk hget),
        pPres_set r nodeId node _ hget rfl⟩
    · rw [if_neg hc]
      exact ⟨keyId_set r nodeId _ hk (keyId_of_get r nodeId node hk hget),
        pPres_set r nodeId node _ hget rfl⟩

theorem propagateLoop_ppres (delta : Int) :
    ∀ (fuel : Nat) (r : NodeRegistry) (o : Option NodeMetadata), KeyId r →
      (∀ cur, o = some cur → r.get cur.nodeId = some cur) →
      ∀ r', propagateLoop delta fuel r o = some r' → KeyId r' ∧ PPres r r' := by
  intro fuel
  induction fuel with
  | zero =>
    intro r o hk harg r' h
    cases o with
    | none =>
      cases Option.some.inj h
      exact ⟨hk, pPres_refl r⟩
    | some cur => exact Option.noConfusion h
  | succ f ih =>
    intro r o hk harg r' h
    cases o with
    | none =>
      cases Option.some.inj h
      exact ⟨hk, pPres_refl r⟩
    | some cur =>
      have hgc := harg cur rfl
      have hk1 : KeyId (r.set cur.nodeId
          { cur with visibleSubtreeSize := cur.visibleSubtreeSize + delta }) :=
        keyId_set r cur.nodeId _ hk rfl
      have hpp1 : PPres r (r.set cur.nodeId
          { cur with visibleSubtreeSize := cur.visibleSubtreeSize + delta }) :=
        pPres_set r cur.nodeId cur _ hgc rfl
      have h2 : propagateLoop delta f
          (r.set cur.nodeId { cur with visibleSubtreeSize := cur.visibleSubtreeSize + delta })
          (if truthyId cur.parentNodeId then
            (r.set cur.nodeId
              { cur with visibleSubtreeSize := cur.visibleSubtreeSize + delta }).get
              (cur.parentNodeId.getD 0)
          else none) = some r' := h
      have harg2 : ∀ nxt, (if truthyId cur.parentNodeId then
          (r.set cur.nodeId
            { cur with visibleSubtreeSize := cur.visibleSubtreeSize + delta }).get
            (cur.parentNodeId.getD 0)
          else none) = some nxt →
          (r.set cur.nodeId
            { cur with visibleSubtreeSize := cur.visibleSubtreeSize + delta }).get
            nxt.nodeId = some nxt := by
        intro nxt hx
        by_cases ht : truthyId cur.parentNodeId = true
        · rw [if_pos ht] at hx
          rw [keyId_of_get _ _ nxt hk1 hx]
          exact hx
        · rw [if_neg ht] at hx
          exact Option.noConfusion hx
      obtain ⟨hk2, hpp2⟩ := ih _ _ hk1 harg2 r' h2
      exact ⟨hk2, pPres_trans r _ r' hpp1 hpp2⟩

theorem propagateSizeChange_ppres (r : NodeRegistry) (nodeId : Nat) (delta : Int)
    (r' : NodeRegistry) (hk : KeyId r) (h : propagateSizeChange r nodeId delta = some r') :
    KeyId r' ∧ PPres r r' := by
  unfold propagateSizeChange at h
  by_cases hd : delta = 0
  · rw [if_pos hd] at h
    cases Option.some.inj h
    exact ⟨hk, pPres_refl r⟩
  · rw [if_neg hd] at h
    cases hget : r.get nodeId with
    | none =>
      rw [hget] at h
      cases Option.some.inj h
      exact ⟨hk, pPres_refl r⟩
    | some node =>
      rw [hget] at h
      dsimp only at h
      refine propagateLoop_ppres delta (r.size + 1) r _ hk ?_ r' h
      intro cur hx
      by_cases ht : truthyId node.parentNodeId = true
      · rw [if_pos ht] at hx
        rw [keyId_of_get _ _ cur hk hx]
        exact hx
      · rw [if_neg ht] at hx
        exact Option.noConfusion hx

theorem recalcProp_ppres (r : NodeRegistry) (nodeId : Nat) (s : Int) (r' : NodeRegistry)
    (hk : KeyId r) (h : recalculateAndPropagate r nodeId = some (s, r')) :
    KeyId r' ∧ PPres r r' := by
  unfold recalculateAndPropagate at h
  cases hget : r.get nodeId with
  | none =>
    rw [hget] at h
    dsimp only at h
    have h2 := Option.some.inj h
    rw [Prod.mk.injEq] at h2
    rw [← h2.2]
    exact ⟨hk, pPres_refl r⟩
  | some node =>
    rw [hget] at h
    dsimp only at h
    obtain ⟨hkp, hppp⟩ := recalculateSubtreeSize_ppres r nodeId hk
    cases hps : propagateSizeChange (recalculateSubtreeSize r nodeId).2 nodeId
        ((recalculateSubtreeSize r nodeId).1 - node.visibleSubtreeSize) with
    | none =>
      rw [hps] at h
      exact Option.noConfusion h
    | some r2 =>
      rw [hps] at h
      dsimp only at h
      have h2 := Option.some.inj h
      rw [Prod.mk.injEq] at h2
      rw [← h2.2]
      obtain ⟨hk2, hpp2⟩ := propagateSizeChange_ppres _ nodeId _ r2 hkp hps
      exact ⟨hk2, pPres_trans r _ r2 hppp hpp2⟩

theorem usd_succ (fuel : Nat) (r : NodeRegistry) (nodeId : Nat) (delta : Int) :
    updateSubtreeDepth (fuel + 1) r nodeId delta =
      match r.get nodeId with
      | none => some r
      | some node =>
        (node.childNodeIds.getD []).foldlM (fun acc c => updateSubtreeDepth fuel acc c delta)
          (r.set nodeId { node with depth := node.depth + delta }) := rfl

theorem optFoldlM_cons (f : NodeRegistry → Nat → Option NodeRegistry) (b : NodeRegistry)
    (a : Nat) (l : List Nat) :
    (a :: l).foldlM f b = (f b a) >>= (fun b2 => l.foldlM f b2) := rfl

/-- The depth rewrite diverges (runs out of any fuel) on a node listed in
its own child list — the state a self-move creates. -/
theorem usd_none : ∀ (fuel : Nat) (r : NodeRegistry) (nodeId : Nat) (delta : Int)
    (n : NodeMetadata), KeyId r → r.get nodeId = some n → nodeId ∈ kidsOf n →
    updateSubtreeDepth fuel r nodeId delta = none := by
  intro fuel
  induction fuel with
  | zero =>
    intro r nodeId delta n hk hget hmem
    rfl
  | succ f ih =>
    intro r nodeId delta n hk hget hmem
    rw [usd_succ, hget]
    dsimp only
    have hfold : ∀ (l : List Nat), nodeId ∈ l → ∀ acc : NodeRegistry, KeyId acc →
        (∃ m, acc.get nodeId = some m ∧ nodeId ∈ kidsOf m) →
        l.foldlM (fun a c => updateSubtreeDepth f a c delta) acc = none := by
      intro l
      induction l with
      | nil =>
        intro hm
        exact absurd hm (List.not_mem_nil nodeId)
      | cons c rest ihl =>
        intro hm acc hka hprop
        rw [optFoldlM_cons]
        by_cases hc : c = nodeId
        · subst hc
          obtain ⟨m, hm1, hm2⟩ := hprop
          rw [ih acc c delta m hka hm1 hm2]
          rfl
        · cases hstep : updateSubtreeDepth f acc c delta with
          | none => rfl
          | some acc2 =>
            show rest.foldlM (fun a c => updateSubtreeDepth f a c delta) acc2 = none
            obtain ⟨hka2, hdp⟩ := updateSubtreeDepth_depthPres f acc c delta acc2 hka hstep
            obtain ⟨m, hm1, hm2⟩ := hprop
            have ho := hdp.2.2 nodeId
            rw [hm1] at ho
            cases hg2 : acc2.get nodeId with
            | none =>
              rw [hg2] at ho
              exact ho.elim
            | some m2 =>
              rw [hg2] at ho
              have hmr : nodeId ∈ rest := by
                rcases List.mem_cons.mp hm with h1 | h1
                · exact absurd h1.symm hc
                · exact h1
              refine ihl hmr acc2 hka2 ⟨m2, hg2, ?_⟩
              unfold kidsOf at hm2 ⊢
              rw [← ho.2.2.2.1]
              exact hm2
    exact hfold (kidsOf n) hmem _ (keyId_set r nodeId _ hk (keyId_of_get r nodeId n hk hget))
      ⟨{ n with depth := n.depth + delta }, get_set_self r nodeId _, hmem⟩

theorem isAncestorOf_reparent (r r' : NodeRegistry) (nodeId newParentId : Nat)
    (pm : ∀ x n', r'.get x = some n' →
      (x = nodeId ∧ n'.parentNodeId = some newParentId) ∨
      (x ≠ nodeId ∧ ∃ n, r.get x = some n ∧ n'.parentNodeId = n.parentNodeId)) :
    ∀ a d, IsAncestorOf r' a d → IsAncestorOf r a d ∨
      ((IsAncestorOf r nodeId d ∨ d = nodeId) ∧
       (IsAncestorOf r' a newParentId ∨ a = newParentId)) := by
  intro a d h
  induction h with
  | parent d n a2 hget hp =>
    rcases pm d n hget with ⟨hd, hpar⟩ | ⟨hd, n0, hg0, hpar⟩
    · subst hd
      rw [hp] at hpar
      exact Or.inr ⟨Or.inr rfl, Or.inr (Option.some.inj hpar)⟩
    · exact Or.inl (IsAncestorOf.parent d n0 a2 hg0 (hpar.symm.trans hp))
  | step d n m a2 hget hp hsub ih =>
    rcases pm d n hget with ⟨hd, hpar⟩ | ⟨hd, n0, hg0, hpar⟩
    · subst hd
      have hm : m = newParentId := Option.some.inj (hp.symm.trans hpar)
      refine Or.inr ⟨Or.inr rfl, Or.inl ?_⟩
      rw [← hm]
      exact hsub
    · have hp0 : n0.parentNodeId = some m := hpar.symm.trans hp
      rcases ih with h1 | ⟨h2, h3⟩
      · exact Or.inl (IsAncestorOf.step d n0 m a2 hg0 hp0 h1)
      · refine Or.inr ⟨?_, h3⟩
        rcases h2 with h4 | h4
        · exact Or.inl (IsAncestorOf.step d n0 m nodeId hg0 hp0 h4)
        · subst h4
          exact Or.inl (IsAncestorOf.parent d n0 m hg0 hp0)

theorem acyclic_reparent (r r' : NodeRegistry) (nodeId newParentId : Nat)
    (pm : ∀ x n', r'.get x = some n' →
      (x = nodeId ∧ n'.parentNodeId = some newParentId) ∨
      (x ≠ nodeId ∧ ∃ n, r.get x = some n ∧ n'.parentNodeId = n.parentNodeId))
    (hacy : Acyclic r) (hnot : ¬ IsAncestorOf r nodeId newParentId)
    (hne : nodeId ≠ newParentId) : Acyclic r' := by
  intro m hm
  rcases isAncestorOf_reparent r r' nodeId newParentId pm m m hm with h1 | ⟨h2, h3⟩
  · exact hacy m h1
  · rcases h3 with h4 | h4
    · rcases isAncestorOf_reparent r r' nodeId newParentId pm m newParentId h4 with
        h5 | ⟨h6, h7⟩
      · rcases h2 with h8 | h8
        · exact hnot (isAncestorOf_trans r nodeId m newParentId h5 h8)
        · subst h8
          exact hnot h5
      · rcases h6 with h9 | h9
        · exact hnot h9
        · exact hne h9.symm
    · subst h4
      rcases h2 with h8 | h8
      · exact hnot h8
      · exact hne h8.symm

theorem acyclic_moveTail (r r2 : NodeRegistry) (nodeId newParentId : Nat) (idx : Option Int)
    (b : Bool) (r' : NodeRegistry) (hk2 : KeyId r2) (hpp2 : PPres r r2) (hacy : Acyclic r)
    (hnotanc : ¬ IsAncestorOf r nodeId newParentId)
    (h : (match r2.get newParentId with
      | none => some (false, r2)
      | some np =>
        let kids := np.childNodeIds.getD []
        let idx2 := idx.getD kids.length
        let r3 := r2.set newParentId { np with childNodeIds := some (spliceInsert kids idx2 nodeId) }
        match r3.get nodeId with
        | none => some (false, r3)
        | some node3 =>
          let r4 := r3.set nodeId { node3 with parentNodeId := some newParentId }
          let newParentDepth := ((r4.get newParentId).map (·.depth)).getD 0
          let nodeDepth := ((r4.get nodeId).map (·.depth)).getD 0
          let depthDelta := newParentDepth + 1 - nodeDepth
          let step2 : Option NodeRegistry :=
            if depthDelta ≠ 0 then updateSubtreeDepth (r4.size + 1) r4 nodeId depthDelta
            else some r4
          match step2 with
          | none => none
          | some r5 =>
            match r5.get newParentId with
            | none => some (true, r5)
            | some np5 =>
              if np5.isExpanded then
                (recalculateAndPropagate r5 newParentId).map (fun p => (true, p.2))
              else some (true, r5)) = some (b, r')) : Acyclic r' := by
  cases hgnp2 : r2.get newParentId with
  | none =>
    rw [hgnp2] at h
    dsimp only at h
    have h2 := Option.some.inj h
    rw [Prod.mk.injEq] at h2
    rw [← h2.2]
    exact acyclic_ppres r r2 hpp2 hacy
  | some np =>
    rw [hgnp2] at h
    dsimp only at h
    have hk3 : KeyId (r2.set newParentId { np with childNodeIds := some (spliceInsert (np.childNodeIds.getD []) (idx.getD (np.childNodeIds.getD []).length) nodeId) }) :=
      keyId_set r2 newParentId _ hk2 (keyId_of_get r2 newParentId np hk2 hgnp2)
    have hpp3 : PPres r (r2.set newParentId { np with childNodeIds := some (spliceInsert (np.childNodeIds.getD []) (idx.getD (np.childNodeIds.getD []).length) nodeId) }) :=
      pPres_trans r r2 _ hpp2 (pPres_set r2 newParentId np _ hgnp2 rfl)
    cases hgn3 : (r2.set newParentId { np with childNodeIds := some (spliceInsert (np.childNodeIds.getD []) (idx.getD (np.childNodeIds.getD []).length) nodeId) }).get nodeId with
    | none =>
      rw [hgn3] at h
      dsimp only at h
      have h2 := Option.some.inj h
      rw [Prod.mk.injEq] at h2
      rw [← h2.2]
      exact acyclic_ppres r _ hpp3 hacy
    | some node3 =>
      rw [hgn3] at h
      dsimp only at h
      have hk4 : KeyId ((r2.set newParentId { np with childNodeIds := some (spliceInsert (np.childNodeIds.getD []) (idx.getD (np.childNodeIds.getD []).length) nodeId) }).set nodeId { node3 with parentNodeId := some newParentId }) :=
        keyId_set _ nodeId _ hk3 (keyId_of_get _ nodeId node3 hk3 hgn3)
      have pm4 : ∀ x n', ((r2.set newParentId { np with childNodeIds := some (spliceInsert (np.childNodeIds.getD []) (idx.getD (np.childNodeIds.getD []).length) nodeId) }).set nodeId { node3 with parentNodeId := some newParentId }).get x = some n' →
          (x = nodeId ∧ n'.parentNodeId = some newParentId) ∨
          (x ≠ nodeId ∧ ∃ n0, r.get x = some n0 ∧ n'.parentNodeId = n0.parentNodeId) := by
        intro x n' hx
        rw [get_set] at hx
        by_cases hxn : x = nodeId
        · rw [if_pos hxn] at hx
          cases Option.some.inj hx
          exact Or.inl ⟨hxn, rfl⟩
        · rw [if_neg hxn] at hx
          obtain ⟨n0, hg0, hpar0⟩ := hpp3 x n' hx
          exact Or.inr ⟨hxn, n0, hg0, hpar0⟩
      cases hs2 : (if ((((r2.set newParentId { np with childNodeIds := some (spliceInsert (np.childNodeIds.getD []) (idx.getD (np.childNodeIds.getD []).length) nodeId) }).set nodeId { node3 with parentNodeId := some newParentId }).get newParentId).map (·.depth)).getD 0 + 1 - ((((r2.set newParentId { np with childNodeIds := some (spliceInsert (np.childNodeIds.getD []) (idx.getD (np.childNodeIds.getD []).length) nodeId) }).set nodeId { node3 with parentNodeId := some newParentId }).get nodeId).map (·.depth)).getD 0 ≠ 0 then
          updateSubtreeDepth (((r2.set newParentId { np with childNodeIds := some (spliceInsert (np.childNodeIds.getD []) (idx.getD (np.childNodeIds.getD []).length) nodeId) }).set nodeId { node3 with parentNodeId := some newParentId }).size + 1) ((r2.set newParentId { np with childNodeIds := some (spliceInsert (np.childNodeIds.getD []) (idx.getD (np.childNodeIds.getD []).length) nodeId) }).set nodeId { node3 with parentNodeId := some newParentId }) nodeId (((((r2.set newParentId { np with childNodeIds := some (spliceInsert (np.childNodeIds.getD []) (idx.getD (np.childNodeIds.getD []).length) nodeId) }).set nodeId { node3 with parentNodeId := some newParentId }).get newParentId).map (·.depth)).getD 0 + 1 - ((((r2.set newParentId { np with childNodeIds := some (spliceInsert (np.childNodeIds.getD []) (idx.getD (np.childNodeIds.getD []).length) nodeId) }).set nodeId { node3 with parentNodeId := some newParentId }).get nodeId).map (·.depth)).getD 0)
        else some ((r2.set newParentId { np with childNodeIds := some (spliceInsert (np.childNodeIds.getD []) (idx.getD (np.childNodeIds.getD []).length) nodeId) }).set nodeId { node3 with parentNodeId := some newParentId })) with
      | none =>
        rw [hs2] at h
        exact Option.noConfusion h
      | some r5 =>
        rw [hs2] at h
        dsimp only at h
        have hne : nodeId ≠ newParentId := by
          intro he
          subst he
          rw [get_set_self] at hgn3
          have he3 := Option.some.inj hgn3
          have hr4s : ((r2.set nodeId { np with childNodeIds := some (spliceInsert (np.childNodeIds.getD []) (idx.getD (np.childNodeIds.getD []).length) nodeId) }).set nodeId { node3 with parentNodeId := some nodeId }).get nodeId = some { node3 with parentNodeId := some nodeId } :=
            get_set_self _ nodeId _
          rw [hr4s] at hs2
          simp only [Option.map_some', Option.getD_some] at hs2
          rw [if_pos (by omega : node3.depth + 1 - node3.depth ≠ 0)] at hs2
          have hmem : nodeId ∈ kidsOf ({ node3 with parentNodeId := some nodeId } : NodeMetadata) := by
            show nodeId ∈ node3.childNodeIds.getD []
            rw [← he3]
            exact mem_spliceInsert_of _ _ _ nodeId (Or.inl rfl)
          rw [usd_none _ _ nodeId _ _ hk4 hr4s hmem] at hs2
          exact Option.noConfusion hs2
        have hstep2 : KeyId r5 ∧ ∀ x n5, r5.get x = some n5 →
            ∃ n4, ((r2.set newParentId { np with childNodeIds := some (spliceInsert (np.childNodeIds.getD []) (idx.getD (np.childNodeIds.getD []).length) nodeId) }).set nodeId { node3 with parentNodeId := some newParentId }).get x = some n4 ∧
              n5.parentNodeId = n4.parentNodeId := by
          by_cases hdd : ((((r2.set newParentId { np with childNodeIds := some (spliceInsert (np.childNodeIds.getD []) (idx.getD (np.childNodeIds.getD []).length) nodeId) }).set nodeId { node3 with parentNodeId := some newParentId }).get newParentId).map (·.depth)).getD 0 + 1 - ((((r2.set newParentId { np with childNodeIds := some (spliceInsert (np.childNodeIds.getD []) (idx.getD (np.childNodeIds.getD []).length) nodeId) }).set nodeId { node3 with parentNodeId := some newParentId }).get nodeId).map (·.depth)).getD 0 ≠ 0
          · rw [if_pos hdd] at hs2
            obtain ⟨hk5, hdp⟩ := updateSubtreeDepth_depthPres _ _ nodeId _ r5 hk4 hs2
            refine ⟨hk5, ?_⟩
            intro x n5 hx
            have ho := hdp.2.2 x
            rw [hx] at ho
            cases h4 : ((r2.set newParentId { np with childNodeIds := some (spliceInsert (np.childNodeIds.getD []) (idx.getD (np.childNodeIds.getD []).length) nodeId) }).set nodeId { node3 with parentNodeId := some newParentId }).get x with
            | none =>
              rw [h4] at ho
              exact ho.elim
            | some n4 =>
              rw [h4] at ho
              exact ⟨n4, rfl, ho.2.1.symm⟩
          · rw [if_neg hdd] at hs2
            cases Option.some.inj hs2
            exact ⟨hk4, fun x n5 hx => ⟨n5, hx, rfl⟩⟩
        obtain ⟨hk5, hback5⟩ := hstep2
        have pm5 : ∀ x n', r5.get x = some n' →
            (x = nodeId ∧ n'.parentNodeId = some newParentId) ∨
            (x ≠ nodeId ∧ ∃ n0, r.get x = some n0 ∧ n'.parentNodeId = n0.parentNodeId) := by
          intro x n' hx
          obtain ⟨n4, h4, he4⟩ := hback5 x n' hx
          rcases pm4 x n4 h4 with ⟨h5, h6⟩ | ⟨h5, n0, h6, h7⟩
          · exact Or.inl ⟨h5, he4.trans h6⟩
          · exact Or.inr ⟨h5, n0, h6, he4.trans h7⟩
        cases hgnp5 : r5.get newParentId with
        | none =>
          rw [hgnp5] at h
          dsimp only at h
          have h2 := Option.some.inj h
          rw [Prod.mk.injEq] at h2
          rw [← h2.2]
          exact acyclic_reparent r r5 nodeId newParentId pm5 hacy hnotanc hne
        | some np5 =>
          rw [hgnp5] at h
          dsimp only at h
          by_cases hpe5 : np5.isExpanded = true
          · rw [if_pos hpe5] at h
            cases hrec5 : recalculateAndPropagate r5 newParentId with
            | none =>
              rw [hrec5] at h
              exact Option.noConfusion h
            | some q =>
              rw [hrec5] at h
              simp only [Option.map_some'] at h
              have h2 := Option.some.inj h
              rw [Prod.mk.injEq] at h2
              rw [← h2.2]
              obtain ⟨hk6, hpp6⟩ := recalcProp_ppres r5 newParentId q.1 q.2 hk5 (by rw [hrec5])
              refine acyclic_reparent r q.2 nodeId newParentId ?_ hacy hnotanc hne
              intro x n' hx
              obtain ⟨n5, h5, he5⟩ := hpp6 x n' hx
              rcases pm5 x n5 h5 with ⟨h6, h7⟩ | ⟨h6, n0, h7, h8⟩
              · exact Or.inl ⟨h6, he5.trans h7⟩
              · exact Or.inr ⟨h6, n0, h7, he5.trans h8⟩
          · rw [if_neg hpe5] at h
            have h2 := Option.some.inj h
            rw [Prod.mk.injEq] at h2
            rw [← h2.2]
            exact acyclic_reparent r r5 nodeId newParentId pm5 hacy hnotanc hne

/-- Every completed `moveNode` preserves acyclicity on a well-keyed
registry: the descendant guard (shown sound without any well-formedness
assumption) rules out reparenting under the moved subtree, and the
self-move never completes because the depth rewrite diverges. -/
theorem acyclic_moveNode (r : NodeRegistry) (nodeId newParentId : Nat) (idx : Option Int)
    (b : Bool) (r' : NodeRegistry) (hk : KeyId r) (hacy : Acyclic r)
    (h : moveNode r nodeId newParentId idx = some (b, r')) : Acyclic r' := by
  unfold moveNode at h
  cases hget : r.get nodeId with
  | none =>
    rw [hget] at h
    dsimp only at h
    have h2 := Option.some.inj h
    rw [Prod.mk.injEq] at h2
    rw [← h2.2]
    exact hacy
  | some node =>
    rw [hget] at h
    cases hgnp : r.get newParentId with
    | none =>
      rw [hgnp] at h
      dsimp only at h
      have h2 := Option.some.inj h
      rw [Prod.mk.injEq] at h2
      rw [← h2.2]
      exact hacy
    | some np0 =>
      rw [hgnp] at h
      dsimp only at h
      by_cases hpn : node.parentNodeId = none
      · rw [if_pos hpn] at h
        have h2 := Option.some.inj h
        rw [Prod.mk.injEq] at h2
        rw [← h2.2]
        exact hacy
      · rw [if_neg hpn] at h
        cases hguard : isDescendant r newParentId nodeId with
        | none =>
          rw [hguard] at h
          exact Option.noConfusion h
        | some gb =>
          rw [hguard] at h
          cases gb with
          | true =>
            dsimp only at h
            have h2 := Option.some.inj h
            rw [Prod.mk.injEq] at h2
            rw [← h2.2]
            exact hacy
          | false =>
            dsimp only at h
            have hnotanc : ¬ IsAncestorOf r nodeId newParentId :=
              isDescendant_false_not_ancestor r newParentId nodeId hguard
            cases hpar : node.parentNodeId with
            | none => exact absurd hpar hpn
            | some oldPid =>
              rw [hpar] at h
              dsimp only at h
              cases hgop : r.get oldPid with
              | none =>
                rw [hgop] at h
                dsimp only at h
                exact acyclic_moveTail r r nodeId newParentId idx b r' hk (pPres_refl r)
                  hacy hnotanc h
              | some oldParent =>
                rw [hgop] at h
                dsimp only at h
                cases hs1 : (if oldParent.childNodeIds.isSome = true then
                    if oldParent.isExpanded = true then
                      (recalculateAndPropagate (r.set oldPid { oldParent with childNodeIds := some ((oldParent.childNodeIds.getD []).filter (· != nodeId)) }) oldPid).map (·.2)
                    else some (r.set oldPid { oldParent with childNodeIds := some ((oldParent.childNodeIds.getD []).filter (· != nodeId)) })
                  else some r) with
                | none =>
                  rw [hs1] at h
                  exact Option.noConfusion h
                | some r2 =>
                  rw [hs1] at h
                  dsimp only at h
                  have hstep : KeyId r2 ∧ PPres r r2 := by
                    by_cases hcs : oldParent.childNodeIds.isSome = true
                    · rw [if_pos hcs] at hs1
                      have hk1 : KeyId (r.set oldPid { oldParent with childNodeIds := some ((oldParent.childNodeIds.getD []).filter (· != nodeId)) }) :=
                        keyId_set r oldPid _ hk (keyId_of_get r oldPid oldParent hk hgop)
                      have hpp1 : PPres r (r.set oldPid { oldParent with childNodeIds := some ((oldParent.childNodeIds.getD []).filter (· != nodeId)) }) :=
                        pPres_set r oldPid oldParent _ hgop rfl
                      by_cases hex : oldParent.isExpanded = true
                      · rw [if_pos hex] at hs1
                        cases hrc : recalculateAndPropagate (r.set oldPid { oldParent with childNodeIds := some ((oldParent.childNodeIds.getD []).filter (· != nodeId)) }) oldPid with
                        | none =>
                          rw [hrc] at hs1
                          exact Option.noConfusion hs1
                        | some q =>
                          rw [hrc] at hs1
                          simp only [Option.map_some'] at hs1
                          cases Option.some.inj hs1
                          obtain ⟨hkq, hppq⟩ := recalcProp_ppres _ oldPid q.1 q.2 hk1
                            (by rw [hrc])
                          exact ⟨hkq, pPres_trans r _ _ hpp1 hppq⟩
                      · rw [if_neg hex] at hs1
                        cases Option.some.inj hs1
                        exact ⟨hk1, hpp1⟩
                    · rw [if_neg hcs] at hs1
                      cases Option.some.inj hs1
                      exact ⟨hk, pPres_refl r⟩
                  exact acyclic_moveTail r r2 nodeId newParentId idx b r' hstep.1 hstep.2
                    hacy hnotanc h

/-- Every completed `insertNode` preserves acyclicity: it only rewrites
the parent's child list and sizes, never a parent pointer. -/
theorem acyclic_insertNode (r : NodeRegistry) (parentId newNodeId : Nat) (idx : Option Int)
    (b : Bool) (r' : NodeRegistry) (hk : KeyId r) (hacy : Acyclic r)
    (h : insertNode r parentId newNodeId idx = some (b, r')) : Acyclic r' := by
  unfold insertNode at h
  cases hgp : r.get parentId with
  | none =>
    rw [hgp] at h
    dsimp only at h
    have h2 := Option.some.inj h
    rw [Prod.mk.injEq] at h2
    rw [← h2.2]
    exact hacy
  | some parent =>
    rw [hgp] at h
    cases hgn : r.get newNodeId with
    | none =>
      rw [hgn] at h
      dsimp only at h
      have h2 := Option.some.inj h
      rw [Prod.mk.injEq] at h2
      rw [← h2.2]
      exact hacy
    | some newNode =>
      rw [hgn] at h
      dsimp only at h
      by_cases hpm : newNode.parentNodeId ≠ some parentId
      · rw [if_pos hpm] at h
        have h2 := Option.some.inj h
        rw [Prod.mk.injEq] at h2
        rw [← h2.2]
        exact hacy
      · rw [if_neg hpm] at h
        by_cases hupg : (spliceInsert (parent.childNodeIds.getD []) (idx.getD (parent.childNodeIds.getD []).length) newNodeId).length = 1 ∧ parent.childState = ChildState.EMPTY
        · rw [if_pos hupg] at h
          dsimp only at h
          by_cases hex : parent.isExpanded = true
          · rw [if_pos hex] at h
            cases hrc : recalculateAndPropagate (r.set parentId { parent with childNodeIds := some (spliceInsert (parent.childNodeIds.getD []) (idx.getD (parent.childNodeIds.getD []).length) newNodeId), childState := ChildState.RESOLVED }) parentId with
            | none =>
              rw [hrc] at h
              exact Option.noConfusion h
            | some q =>
              rw [hrc] at h
              simp only [Option.map_some'] at h
              have h2 := Option.some.inj h
              rw [Prod.mk.injEq] at h2
              rw [← h2.2]
              have hk1 : KeyId (r.set parentId { parent with childNodeIds := some (spliceInsert (parent.childNodeIds.getD []) (idx.getD (parent.childNodeIds.getD []).length) newNodeId), childState := ChildState.RESOLVED }) :=
                keyId_set r parentId _ hk (keyId_of_get r parentId parent hk hgp)
              obtain ⟨hkq, hppq⟩ := recalcProp_ppres _ parentId q.1 q.2 hk1 (by rw [hrc])
              exact acyclic_ppres r q.2
                (pPres_trans r _ q.2 (pPres_set r parentId parent { parent with childNodeIds := some (spliceInsert (parent.childNodeIds.getD []) (idx.getD (parent.childNodeIds.getD []).length) newNodeId), childState := ChildState.RESOLVED } hgp rfl) hppq) hacy
          · rw [if_neg hex] at h
            have h2 := Option.some.inj h
            rw [Prod.mk.injEq] at h2
            rw [← h2.2]
            exact acyclic_ppres r _ (pPres_set r parentId parent _ hgp rfl) hacy
        · rw [if_neg hupg] at h
          dsimp only at h
          by_cases hex : parent.isExpanded = true
          · rw [if_pos hex] at h
            cases hrc : recalculateAndPropagate (r.set parentId { parent with childNodeIds := some (spliceInsert (parent.childNodeIds.getD []) (idx.getD (parent.childNodeIds.getD []).length) newNodeId) }) parentId with
            | none =>
              rw [hrc] at h
              exact Option.noConfusion h
            | some q =>
              rw [hrc] at h
              simp only [Option.map_some'] at h
              have h2 := Option.some.inj h
              rw [Prod.mk.injEq] at h2
              rw [← h2.2]
              have hk1 : KeyId (r.set parentId { parent with childNodeIds := some (spliceInsert (parent.childNodeIds.getD []) (idx.getD (parent.childNodeIds.getD []).length) newNodeId) }) :=
                keyId_set r parentId _ hk (keyId_of_get r parentId parent hk hgp)
              obtain ⟨hkq, hppq⟩ := recalcProp_ppres _ parentId q.1 q.2 hk1 (by rw [hrc])
              exact acyclic_ppres r q.2
                (pPres_trans r _ q.2 (pPres_set r parentId parent { parent with childNodeIds := some (spliceInsert (parent.childNodeIds.getD []) (idx.getD (parent.childNodeIds.getD []).length) newNodeId) } hgp rfl) hppq) hacy
          · rw [if_neg hex] at h
            have h2 := Option.some.inj h
            rw [Prod.mk.injEq] at h2
            rw [← h2.2]
            exact acyclic_ppres r _ (pPres_set r parentId parent _ hgp rfl) hacy

theorem acyclic_removeTail (r r1 : NodeRegistry) (nodeId parentId : Nat) (cnt : Int)
    (r' : NodeRegistry) (hnd1 : (keysOf r1).Nodup) (hk1 : KeyId r1) (hpp1 : PPres r r1)
    (hacy : Acyclic r)
    (h : (match removeSubtree (r1.size + 1) r1 nodeId with
      | none => none
      | some p =>
        match p.1.get parentId with
        | some parent2 =>
          if parent2.isExpanded then
            (recalculateAndPropagate p.1 parentId).map (fun q => (p.2, q.2))
          else some (p.2, p.1)
        | none => some (p.2, p.1)) = some (cnt, r')) : Acyclic r' := by
  cases hrs : removeSubtree (r1.size + 1) r1 nodeId with
  | none =>
    rw [hrs] at h
    exact Option.noConfusion h
  | some p =>
    rw [hrs] at h
    dsimp only at h
    obtain ⟨hroot2, hsub, hgone, hdel⟩ :=
      removeSubtree_spec (r1.size + 1) r1 nodeId p.1 p.2 hnd1 (by rw [hrs])
    have hppd : PPres r1 p.1 := by
      intro x n' hx
      exact ⟨n', mem_get r1 hnd1 x n' (hsub.subset (get_mem p.1 x n' hx)), rfl⟩
    have hkd : KeyId p.1 := fun q hq => hk1 q (hsub.subset hq)
    cases hgp2 : p.1.get parentId with
    | none =>
      rw [hgp2] at h
      dsimp only at h
      have h2 := Option.some.inj h
      rw [Prod.mk.injEq] at h2
      rw [← h2.2]
      exact acyclic_ppres r p.1 (pPres_trans r r1 p.1 hpp1 hppd) hacy
    | some parent2 =>
      rw [hgp2] at h
      dsimp only at h
      by_cases hex : parent2.isExpanded = true
      · rw [if_pos hex] at h
        cases hrc : recalculateAndPropagate p.1 parentId with
        | none =>
          rw [hrc] at h
          exact Option.noConfusion h
        | some q =>
          rw [hrc] at h
          simp only [Option.map_some'] at h
          have h2 := Option.some.inj h
          rw [Prod.mk.injEq] at h2
          rw [← h2.2]
          obtain ⟨hkq, hppq⟩ := recalcProp_ppres p.1 parentId q.1 q.2 hkd (by rw [hrc])
          exact acyclic_ppres r q.2
            (pPres_trans r p.1 q.2 (pPres_trans r r1 p.1 hpp1 hppd) hppq) hacy
      · rw [if_neg hex] at h
        have h2 := Option.some.inj h
        rw [Prod.mk.injEq] at h2
        rw [← h2.2]
        exact acyclic_ppres r p.1 (pPres_trans r r1 p.1 hpp1 hppd) hacy

/-- Every completed `removeNode` preserves acyclicity: surviving records
are kept verbatim (a sublist of the store), only the parent's child list
and sizes change. -/
theorem acyclic_removeNode (r : NodeRegistry) (nodeId : Nat) (cnt : Int) (r' : NodeRegistry)
    (hnd : (keysOf r).Nodup) (hk : KeyId r) (hacy : Acyclic r)
    (h : removeNode r nodeId = some (cnt, r')) : Acyclic r' := by
  unfold removeNode at h
  cases hget : r.get nodeId with
  | none =>
    rw [hget] at h
    dsimp only at h
    have h2 := Option.some.inj h
    rw [Prod.mk.injEq] at h2
    rw [← h2.2]
    exact hacy
  | some node =>
    rw [hget] at h
    dsimp only at h
    cases hpar : node.parentNodeId with
    | none =>
      rw [hpar] at h
      dsimp only at h
      have h2 := Option.some.inj h
      rw [Prod.mk.injEq] at h2
      rw [← h2.2]
      exact hacy
    | some parentId =>
      rw [hpar] at h
      dsimp only at h
      cases hgp : r.get parentId with
      | none =>
        rw [hgp] at h
        dsimp only at h
        exact acyclic_removeTail r r nodeId parentId cnt r' hnd hk (pPres_refl r) hacy h
      | some parent =>
        rw [hgp] at h
        dsimp only at h
        by_cases hcs : parent.childNodeIds.isSome = true
        · rw [if_pos hcs] at h
          exact acyclic_removeTail r (r.set parentId { parent with childNodeIds := some (List.filter (fun x => x != nodeId) (parent.childNodeIds.getD [])) }) nodeId parentId cnt r'
            (nodup_keysOf_set r parentId _ hnd)
            (keyId_set r parentId _ hk (keyId_of_get r parentId parent hk hgp))
            (pPres_set r parentId parent { parent with childNodeIds := some (List.filter (fun x => x != nodeId) (parent.childNodeIds.getD [])) } hgp rfl) hacy h
        · rw [if_neg hcs] at h
          exact acyclic_removeTail r r nodeId parentId cnt r' hnd hk (pPres_refl r) hacy h

/-- Every `reorderChildren` preserves acyclicity: it only permutes a child
list. -/
theorem acyclic_reorderChildren (r : NodeRegistry) (parentId : Nat) (newOrder : List Nat)
    (res : Bool) (r' : NodeRegistry) (hacy : Acyclic r)
    (h : reorderChildren r parentId newOrder = (res, r')) : Acyclic r' := by
  unfold reorderChildren at h
  cases hgp : r.get parentId with
  | none =>
    rw [hgp] at h
    dsimp only at h
    rw [Prod.mk.injEq] at h
    rw [← h.2]
    exact hacy
  | some parent =>
    rw [hgp] at h
    dsimp only at h
    by_cases h1 : newOrder.length ≠ (parent.childNodeIds.getD []).length
    · rw [if_pos h1] at h
      rw [Prod.mk.injEq] at h
      rw [← h.2]
      exact hacy
    · rw [if_neg h1] at h
      by_cases h2c : (parent.childNodeIds.getD []).dedup.length ≠ newOrder.dedup.length
      · rw [if_pos h2c] at h
        rw [Prod.mk.injEq] at h
        rw [← h.2]
        exact hacy
      · rw [if_neg h2c] at h
        by_cases h3 : ¬ newOrder.all (fun id => (parent.childNodeIds.getD []).contains id) = true
        · rw [if_pos h3] at h
          rw [Prod.mk.injEq] at h
          rw [← h.2]
          exact hacy
        · rw [if_neg h3] at h
          rw [Prod.mk.injEq] at h
          rw [← h.2]
          exact acyclic_ppres r _ (pPres_set r parentId parent _ hgp rfl) hacy

/-!
Claim C4: the cycle guard (corrected).
-/

/-- C4 counterexample: a self-move (`p == n`) is not rejected: the cycle
guard misses it, the node is spliced into its own child list, and the
depth rewrite never terminates (modelled as `none`), so `moveNode` does
not return false with the registry unchanged. -/
theorem c4_counterexample_self_move :
    chainReg.get 2 ≠ none ∧
    moveNode chainReg 2 2 none = none ∧
    moveNode chainReg 2 2 none ≠ some (false, chainReg) := by
  decide

/-- The strict-descendant rejection of `moveNode` on a well-formed
registry: moving onto a strict descendant returns false with the registry
unchanged. -/
theorem moveNode_rejects_descendant (r : NodeRegistry) (n p : Nat) (idx : Option Int)
    (hwf : WF r) (hanc : IsAncestorOf r n p) :
    moveNode r n p idx = some (false, r) := by
  have hpex : ∃ np, r.get p = some np := by
    cases hanc with
    | parent d n0 a hget0 hp0 => exact ⟨n0, hget0⟩
    | step d n0 m a hget0 hp0 hanc2 => exact ⟨n0, hget0⟩
  obtain ⟨np, hnp⟩ := hpex
  have hdesc : isDescendant r p n = some true := by
    unfold isDescendant
    refine isDescendantLoop_finds r hwf n p hanc (r.size + 1) np hnp ?_
    have h1 := WF_depth_lt r p np hwf hnp
    have h2 := WF_depth_nonneg r p np hwf hnp
    omega
  unfold moveNode
  cases hgn : r.get n with
  | none =>
    rw [hnp]
  | some node =>
    rw [hnp]
    dsimp only
    by_cases hroot : node.parentNodeId = none
    · rw [if_pos hroot]
    · rw [if_neg hroot]
      rw [hdesc]

/-- C4 amended: acyclicity is preserved — `moveNode` rejects the move
(false, registry unchanged) whenever the target parent is a strict
descendant of the moved node, and starting from any acyclic well-keyed
registry, every completed `moveNode`, `insertNode`, `removeNode`, and
`reorderChildren` leaves the registry acyclic; the self-move is not
rejected but never completes (its depth rewrite diverges, see the
counterexample), so no sequence of completed operations ever makes a node
its own ancestor. -/
theorem c4_acyclicity :
    (∀ (r : NodeRegistry) (n p : Nat) (idx : Option Int), WF r → IsAncestorOf r n p →
      moveNode r n p idx = some (false, r)) ∧
    (∀ (r : NodeRegistry) (nodeId newParentId : Nat) (idx : Option Int) (b : Bool)
      (r' : NodeRegistry), KeyId r → Acyclic r →
      moveNode r nodeId newParentId idx = some (b, r') → Acyclic r') ∧
    (∀ (r : NodeRegistry) (parentId newNodeId : Nat) (idx : Option Int) (b : Bool)
      (r' : NodeRegistry), KeyId r → Acyclic r →
      insertNode r parentId newNodeId idx = some (b, r') → Acyclic r') ∧
    (∀ (r : NodeRegistry) (nodeId : Nat) (cnt : Int) (r' : NodeRegistry),
      (keysOf r).Nodup → KeyId r → Acyclic r →
      removeNode r nodeId = some (cnt, r') → Acyclic r') ∧
    (∀ (r : NodeRegistry) (parentId : Nat) (newOrder : List Nat) (res : Bool)
      (r' : NodeRegistry), Acyclic r →
      reorderChildren r parentId newOrder = (res, r') → Acyclic r') := by
  refine ⟨?_, ?_, ?_, ?_, ?_⟩
  · exact fun r n p idx hwf hanc => moveNode_rejects_descendant r n p idx hwf hanc
  · exact fun r nodeId newParentId idx b r' hk hacy h =>
      acyclic_moveNode r nodeId newParentId idx b r' hk hacy h
  · exact fun r parentId newNodeId idx b r' hk hacy h =>
      acyclic_insertNode r parentId newNodeId idx b r' hk hacy h
  · exact fun r nodeId cnt r' hnd hk hacy h =>
      acyclic_removeNode r nodeId cnt r' hnd hk hacy h
  · exact fun r parentId newOrder res r' hacy h =>
      acyclic_reorderChildren r parentId newOrder res r' hacy h

/-- Concrete instantiations: the rejected descendant move (a under its
own child a1) and the acyclicity of the four completed demo operations. -/
theorem c4_acyclicity_witness :
    moveNode demoReg 2 4 none = some (false, demoReg) ∧
    Acyclic afterMoveReg ∧ Acyclic afterInsertReg ∧ Acyclic afterRemoveReg ∧
    Acyclic afterReorderReg := by
  refine ⟨?_, ?_, ?_, ?_, ?_⟩
  · exact c4_acyclicity.1 demoReg 2 4 none (by decide)
      (IsAncestorOf.parent 4 demoA1Node 2 (by decide) (by decide))
  · exact c4_acyclicity.2.1 demoReg 3 2 none
      ((moveNode demoReg 3 2 none).getD (false, demoReg)).1 afterMoveReg (by decide)
      (acyclic_of_wf demoReg (by decide)) rfl
  · exact c4_acyclicity.2.2.1 insReg 2 6 none
      ((insertNode insReg 2 6 none).getD (false, insReg)).1 afterInsertReg (by decide)
      (acyclic_of_wf insReg (by decide)) rfl
  · exact c4_acyclicity.2.2.2.1 demoReg 4 ((removeNode demoReg 4).getD (0, demoReg)).1
      afterRemoveReg (by decide) (by decide) (acyclic_of_wf demoReg (by decide)) rfl
  · exact c4_acyclicity.2.2.2.2 demoReg 2 [5, 4] (reorderChildren demoReg 2 [5, 4]).1
      afterReorderReg (acyclic_of_wf demoReg (by decide)) rfl

/-- C5 amended: one direction of the tagged-union invariant holds — after
node creation and after every completed `insertNode`, `moveNode`,
`reorderChildren`, `expand`, and `completeExpand` on a well-keyed registry,
every node with `childState == RESOLVED` has `childNodeIds` defined.  (The
converse fails: `childNodeIds` may be defined while `EMPTY`, `UNRESOLVED`,
or `LOADING`.) -/
theorem c5_resolved_implies_childlist :
    (∀ (id : Nat) (opts : CreateNodeOptions), ResolvedKidsAt (createNode id opts)) ∧
    (∀ (r : NodeRegistry) (node : NodeMetadata), ResolvedHasKids r → ResolvedKidsAt node →
      ResolvedHasKids (addNode r node)) ∧
    (∀ (r : NodeRegistry) (parentId newNodeId : Nat) (idx : Option Int) (b : Bool)
      (r' : NodeRegistry), GoodReg r → insertNode r parentId newNodeId idx = some (b, r') →
      ResolvedHasKids r') ∧
    (∀ (r : NodeRegistry) (nodeId newParentId : Nat) (idx : Option Int) (b : Bool)
      (r' : NodeRegistry), GoodReg r → moveNode r nodeId newParentId idx = some (b, r') →
      ResolvedHasKids r') ∧
    (∀ (r : NodeRegistry) (parentId : Nat) (newOrder : List Nat), GoodReg r →
      ResolvedHasKids (reorderChildren r parentId newOrder).2) ∧
    (∀ (r : NodeRegistry) (nodeId : Nat) (res : ExpandResult) (r' : NodeRegistry), GoodReg r →
      expand r nodeId = some (res, r') → ResolvedHasKids r') ∧
    (∀ (r : NodeRegistry) (nodeId : Nat) (kids : List Nat) (error : Option String)
      (r' : NodeRegistry), GoodReg r → completeExpand r nodeId kids error = some r' →
      ResolvedHasKids r') := by
  refine ⟨?_, ?_, ?_, ?_, ?_, ?_, ?_⟩
  · intro id opts hres
    cases hk : opts.childNodeIds with
    | none =>
      exfalso
      have hun : (createNode id opts).childState = ChildState.UNRESOLVED := by
        unfold createNode
        dsimp only
        rw [hk]
      rw [hun] at hres
      exact ChildState.noConfusion hres
    | some kids =>
      have hck : (createNode id opts).childNodeIds = some kids := by
        unfold createNode
        dsimp only
        exact hk
      intro heq
      rw [hck] at heq
      exact Option.noConfusion heq
  · intro r node hr hn
    unfold addNode
    dsimp only
    by_cases hc : (r.set node.nodeId node).rootId = none ∧ node.parentNodeId = none
    · rw [if_pos hc]
      exact fun p hp => resolvedHasKids_set r node.nodeId node hr hn p hp
    · rw [if_neg hc]
      exact resolvedHasKids_set r node.nodeId node hr hn
  · intro r parentId newNodeId idx b r' hg h
    exact (goodReg_insertNode r parentId newNodeId idx b r' hg h).2.2
  · intro r nodeId newParentId idx b r' hg h
    exact (goodReg_moveNode r nodeId newParentId idx b r' hg h).2.2
  · intro r parentId newOrder hg
    exact (goodReg_reorderChildren r parentId newOrder hg).2.2
  · intro r nodeId res r' hg h
    exact (goodReg_expand r nodeId res r' hg h).2.2
  · intro r nodeId kids error r' hg h
    exact (goodReg_completeExpand r nodeId kids error r' hg h).2.2

/-- Witness for the amended C5: concrete completed runs of every listed
operation. -/
theorem c5_resolved_implies_childlist_witness :
    ResolvedKidsAt (createNode 7 noOpts) ∧
    ResolvedHasKids (addNode demoReg
      (createNode 6 { noOpts with parentNodeId := some 2, depth := some 2 })) ∧
    ResolvedHasKids afterInsertReg ∧
    ResolvedHasKids afterMoveReg ∧
    ResolvedHasKids afterReorderReg ∧
    ResolvedHasKids afterExpandReg ∧
    ResolvedHasKids afterCompleteReg :=
  ⟨c5_resolved_implies_childlist.1 7 noOpts,
   c5_resolved_implies_childlist.2.1 demoReg _ (by decide) (by decide),
   c5_resolved_implies_childlist.2.2.1 insReg 2 6 none true afterInsertReg
     (by decide) (by decide),
   c5_resolved_implies_childlist.2.2.2.1 demoReg 3 2 none true afterMoveReg
     (by decide) (by decide),
   c5_resolved_implies_childlist.2.2.2.2.1 demoReg 2 [5, 4] (by decide),
   c5_resolved_implies_childlist.2.2.2.2.2.1 demoReg 3 afterExpandRes afterExpandReg
     (by decide) (by decide),
   c5_resolved_implies_childlist.2.2.2.2.2.2 demoReg 3 [6] none afterCompleteReg
     (by decide) (by decide)⟩

end Sightline
